import Mathlib

/-!
# Super-scan: a shallow embedding of the scanning core

The development follows the Go sources file by file:

* `internal/scanner/baseline.go` : `BuildFingerprint`, `WriteBaseline`, `LoadBaseline`,
  `Baseline.IsIgnored`;
* `internal/rules/rules.go` : `NewRuleSet`, `MatchPatterns`, `MatchEntropy`, `shannonEntropy`;
* `internal/scanner/scanner.go` : `Scan`, `scanFile`, `looksBinary`, `trimLine`;
* `cmd/superscan/main.go` : the exit-code policy at the end of `main`.

Modelling conventions.

* A Go `string` and a Go `[]byte` are both a list of bytes (`GoString`, `List UInt8`);
  `len` is `List.length`, `range s` goes through `decodeRunes`.
* Go `int` and `int64` values are `Int`; none of the modelled arithmetic can overflow
  on inputs that fit in memory.
* `float64` arithmetic is a parameter (`Float64Ops`); `binary64Ops` is its instance
  with IEEE 754 rounding. The regular expression engine is a parameter (`Regexp`);
  `unicode.ToLower` is a parameter of `ToLower`.
* A Go `map` is an association list (`GoMap`) with at most one pair per key, in order of
  insertion. The order in which a `range` statement visits a map is not fixed by the
  language: it is a parameter (`MapOrder`) of every function that ranges over a map
  and whose result can depend on the order.
* A `(T, error)` result is `Except GoError T`; a nil pointer is `none`.
* The package `encoding/json` is a parameter of `WriteBaseline` and `LoadBaseline`
  (`JSONCodec`); `goJSON` is its instance that reads back what it wrote, every string
  with the bytes that are not UTF-8 replaced by `U+FFFD`.
-/

namespace SuperScan

/-! ## Go runtime: strings, runes, maps -/

/-- A Go string: an immutable sequence of bytes. -/
abbrev GoString := List UInt8

/-- A Go error value, identified with its message. -/
abbrev GoError := List UInt8

/-- The bytes of a string literal (its UTF-8 encoding, as the Go compiler stores it). -/
def str (s : String) : GoString := s.data.flatMap String.utf8EncodeChar

/-- The replacement rune `utf8.RuneError`. -/
def RuneError : Nat := 0xFFFD

/-- Whether `b` is a UTF-8 continuation byte `10xxxxxx`. -/
def isCont (b : UInt8) : Bool := decide (0x80 ≤ b.toNat ∧ b.toNat ≤ 0xBF)

/-- The rune at the head of `s` and its width in bytes, as `utf8.DecodeRuneInString`
computes them: an ill-formed or truncated sequence decodes to `(RuneError, 1)`.
On the empty string the width is `0`. -/
def decodeRune : GoString → Nat × Nat
  | [] => (RuneError, 0)
  | b0 :: rest =>
    let x := b0.toNat
    if x < 0x80 then (x, 1)
    else if 0xC2 ≤ x ∧ x ≤ 0xDF then
      match rest with
      | b1 :: _ => if isCont b1 then ((x % 32) * 64 + b1.toNat % 64, 2) else (RuneError, 1)
      | _ => (RuneError, 1)
    else if 0xE0 ≤ x ∧ x ≤ 0xEF then
      match rest with
      | b1 :: b2 :: _ =>
        let lo := if x = 0xE0 then 0xA0 else 0x80
        let hi := if x = 0xED then 0x9F else 0xBF
        if lo ≤ b1.toNat ∧ b1.toNat ≤ hi ∧ isCont b2 then
          ((x % 16) * 4096 + (b1.toNat % 64) * 64 + b2.toNat % 64, 3)
        else (RuneError, 1)
      | _ => (RuneError, 1)
    else if 0xF0 ≤ x ∧ x ≤ 0xF4 then
      match rest with
      | b1 :: b2 :: b3 :: _ =>
        let lo := if x = 0xF0 then 0x90 else 0x80
        let hi := if x = 0xF4 then 0x8F else 0xBF
        if lo ≤ b1.toNat ∧ b1.toNat ≤ hi ∧ isCont b2 ∧ isCont b3 then
          ((x % 8) * 262144 + (b1.toNat % 64) * 4096 + (b2.toNat % 64) * 64 + b3.toNat % 64, 4)
        else (RuneError, 1)
      | _ => (RuneError, 1)
    else (RuneError, 1)

/-- The runes a `for _, ch := range s` loop visits; `fuel` bounds the number of runes. -/
def decodeRunesAux : Nat → GoString → List Nat
  | 0, _ => []
  | _, [] => []
  | fuel + 1, s =>
    let rw := decodeRune s
    rw.1 :: decodeRunesAux fuel (s.drop rw.2)

/-- The runes of `s` in order (every rune takes at least one byte, so `s.length` runes
of fuel always suffice). -/
def decodeRunes (s : GoString) : List Nat := decodeRunesAux s.length s

/-- The UTF-8 encoding of a rune, as `utf8.AppendRune` writes it: surrogates and values
past `0x10FFFF` are written as `RuneError`. -/
def encodeRune (r : Nat) : GoString :=
  if r < 0x80 then [UInt8.ofNat r]
  else if r < 0x800 then [UInt8.ofNat (0xC0 + r / 64), UInt8.ofNat (0x80 + r % 64)]
  else if r > 0x10FFFF ∨ (0xD800 ≤ r ∧ r ≤ 0xDFFF) then [0xEF, 0xBF, 0xBD]
  else if r < 0x10000 then
    [UInt8.ofNat (0xE0 + r / 4096), UInt8.ofNat (0x80 + r / 64 % 64), UInt8.ofNat (0x80 + r % 64)]
  else
    [UInt8.ofNat (0xF0 + r / 262144), UInt8.ofNat (0x80 + r / 4096 % 64),
      UInt8.ofNat (0x80 + r / 64 % 64), UInt8.ofNat (0x80 + r % 64)]

/-- The ASCII branch of `strings.ToLower`: `'A'..'Z'` move to `'a'..'z'`. -/
def asciiLower (c : UInt8) : UInt8 :=
  if 65 ≤ c.toNat ∧ c.toNat ≤ 90 then UInt8.ofNat (c.toNat + 32) else c

/-- The function `strings.ToLower`. A string of ASCII bytes is mapped byte by byte;
any other string is decoded, mapped rune by rune through `unicode.ToLower`
(the parameter `unicodeToLower`) and encoded again. -/
def ToLower (unicodeToLower : Nat → Nat) (s : GoString) : GoString :=
  if s.all (fun c => decide (c.toNat < 0x80)) then s.map asciiLower
  else (decodeRunes s).flatMap (fun r => encodeRune (unicodeToLower r))

/-- Whether `sub` is a prefix of `s`. -/
def hasPrefix : GoString → GoString → Bool
  | _, [] => true
  | [], _ :: _ => false
  | a :: s, b :: sub => a == b && hasPrefix s sub

/-- The function `strings.Contains`: `sub` occurs somewhere in `s`. -/
def Contains : GoString → GoString → Bool
  | [], sub => sub.isEmpty
  | a :: s, sub => hasPrefix (a :: s) sub || Contains s sub

/-- A Go map with keys `κ`: an association list holding at most one pair per key. -/
abbrev GoMap (κ : Type) (ν : Type) := List (κ × ν)

/-- The lookup `m[k]` with its presence flag. -/
def GoMap.get? {κ ν : Type} [DecidableEq κ] (m : GoMap κ ν) (k : κ) : Option ν :=
  (m.find? (fun p => decide (p.1 = k))).map Prod.snd

/-- The assignment `m[k] = v`: an existing pair is updated in place, a new key is added. -/
def GoMap.set {κ ν : Type} [DecidableEq κ] : GoMap κ ν → κ → ν → GoMap κ ν
  | [], k, v => [(k, v)]
  | (k1, v1) :: m, k, v => if k1 = k then (k, v) :: m else (k1, v1) :: GoMap.set m k v

/-! ## The standard library pieces `BuildFingerprint` calls: `%d`, SHA-1, hex -/

/-- The verb `%d` of `fmt` applied to an `int`. -/
def formatInt (n : Int) : GoString :=
  (if n < 0 then str "-" else []) ++ (Nat.toDigits 10 n.natAbs).map (fun c => UInt8.ofNat c.toNat)

/-- Rotate the 32-bit word `x` left by `n` bits. -/
def rotl32 (x n : Nat) : Nat := ((x <<< n) ||| (x >>> (32 - n))) % 2 ^ 32

/-- The four big-endian bytes of a 32-bit word. -/
def be32 (w : Nat) : List UInt8 :=
  [UInt8.ofNat (w / 2 ^ 24 % 256), UInt8.ofNat (w / 2 ^ 16 % 256),
    UInt8.ofNat (w / 2 ^ 8 % 256), UInt8.ofNat (w % 256)]

/-- SHA-1 padding: a `0x80` byte, zeros up to 56 modulo 64, the bit length on 64 bits. -/
def sha1Pad (msg : List UInt8) : List UInt8 :=
  let bits := 8 * msg.length
  msg ++ [0x80] ++ List.replicate ((119 - msg.length % 64) % 64) 0
    ++ be32 (bits / 2 ^ 32 % 2 ^ 32) ++ be32 (bits % 2 ^ 32)

/-- Big-endian 32-bit words of a byte sequence. -/
def wordsOf : List UInt8 → List Nat
  | a :: b :: c :: d :: rest =>
    (a.toNat * 2 ^ 24 + b.toNat * 2 ^ 16 + c.toNat * 2 ^ 8 + d.toNat) :: wordsOf rest
  | _ => []

/-- The SHA-1 message schedule: `n` more words are appended to `w`. -/
def schedule : Nat → List Nat → List Nat
  | 0, w => w
  | n + 1, w =>
    let i := w.length
    schedule n (w ++ [rotl32 (w.getD (i - 3) 0 ^^^ w.getD (i - 8) 0 ^^^ w.getD (i - 14) 0
      ^^^ w.getD (i - 16) 0) 1])

/-- The five 32-bit chaining words of SHA-1. -/
structure Sha1State where
  h0 : Nat
  h1 : Nat
  h2 : Nat
  h3 : Nat
  h4 : Nat
deriving DecidableEq

/-- Round `i` of the SHA-1 compression function on schedule word `w`. -/
def sha1Round (i : Nat) (s : Sha1State) (w : Nat) : Sha1State :=
  let fk : Nat × Nat :=
    if i < 20 then ((s.h1 &&& s.h2) ||| ((s.h1 ^^^ 0xFFFFFFFF) &&& s.h3), 0x5A827999)
    else if i < 40 then (s.h1 ^^^ s.h2 ^^^ s.h3, 0x6ED9EBA1)
    else if i < 60 then ((s.h1 &&& s.h2) ||| (s.h1 &&& s.h3) ||| (s.h2 &&& s.h3), 0x8F1BBCDC)
    else (s.h1 ^^^ s.h2 ^^^ s.h3, 0xCA62C1D6)
  { h0 := (rotl32 s.h0 5 + fk.1 + s.h4 + fk.2 + w) % 2 ^ 32, h1 := s.h0,
    h2 := rotl32 s.h1 30, h3 := s.h2, h4 := s.h3 }

/-- The rounds of one block, numbered from `i`. -/
def sha1Rounds : Nat → Sha1State → List Nat → Sha1State
  | _, s, [] => s
  | i, s, w :: ws => sha1Rounds (i + 1) (sha1Round i s w) ws

/-- The compression of one 16-word block into the chaining state. -/
def sha1Block (s : Sha1State) (block : List Nat) : Sha1State :=
  let t := sha1Rounds 0 s (schedule 64 block)
  { h0 := (s.h0 + t.h0) % 2 ^ 32, h1 := (s.h1 + t.h1) % 2 ^ 32, h2 := (s.h2 + t.h2) % 2 ^ 32,
    h3 := (s.h3 + t.h3) % 2 ^ 32, h4 := (s.h4 + t.h4) % 2 ^ 32 }

/-- The compression of `n` successive blocks. -/
def sha1Blocks : Nat → Sha1State → List Nat → Sha1State
  | 0, s, _ => s
  | n + 1, s, ws => sha1Blocks n (sha1Block s (ws.take 16)) (ws.drop 16)

/-- The SHA-1 initial chaining value. -/
def sha1Init : Sha1State :=
  { h0 := 0x67452301, h1 := 0xEFCDAB89, h2 := 0x98BADCFE, h3 := 0x10325476, h4 := 0xC3D2E1F0 }

/-- The 20-byte SHA-1 digest of `msg`: what `h.Sum(nil)` returns once `msg` was written
to `sha1.New()`. -/
def sha1Sum (msg : List UInt8) : List UInt8 :=
  let ws := wordsOf (sha1Pad msg)
  let s := sha1Blocks (ws.length / 16) sha1Init ws
  be32 s.h0 ++ be32 s.h1 ++ be32 s.h2 ++ be32 s.h3 ++ be32 s.h4

/-- One lowercase hexadecimal digit. -/
def hexDigit (n : Nat) : UInt8 := if n < 10 then UInt8.ofNat (48 + n) else UInt8.ofNat (87 + n)

/-- The function `hex.EncodeToString`. -/
def hexEncode : List UInt8 → GoString
  | [] => []
  | b :: bs => hexDigit (b.toNat / 16) :: hexDigit (b.toNat % 16) :: hexEncode bs

/-! ## `scanner.Finding` and `baseline.go` -/

/-- The struct `scanner.Finding`; `F` is the carrier of `float64`; the field
`Type_` is the Go field `Type`. -/
structure Finding (F : Type) where
  File : GoString
  Line : Int
  RuleID : GoString
  Description : GoString
  Snippet : GoString
  Match : GoString
  Entropy : F
  Type_ : GoString
  Severity : GoString
  Tags : List GoString
  Fingerprint : GoString
deriving DecidableEq

/-- The bytes `fmt.Fprintf(h, "%s|%d|%s|%s", f.File, f.Line, f.RuleID, f.Match)` writes
into the hash. -/
def fingerprintInput {F : Type} (f : Finding F) : GoString :=
  f.File ++ str "|" ++ formatInt f.Line ++ str "|" ++ f.RuleID ++ str "|" ++ f.Match

/-- The function `BuildFingerprint`: the first 16 hex digits of the SHA-1 digest of
`fingerprintInput f`. -/
def BuildFingerprint {F : Type} (f : Finding F) : GoString :=
  (hexEncode (sha1Sum (fingerprintInput f))).take 16

/-- The struct `BaselineEntry`. -/
structure BaselineEntry where
  Fingerprint : GoString
  RuleID : GoString
  Comment : GoString
deriving DecidableEq

/-- The struct `Baseline`; `lookup` is the unexported index, absent from the JSON form. -/
structure Baseline where
  Version : Int
  Entries : List BaselineEntry
  lookup : GoMap GoString BaselineEntry
deriving DecidableEq

/-- The functions `json.MarshalIndent` and `json.Unmarshal` at type `Baseline`, over file
contents of type `C`. Marshalling a `Baseline` (strings and one integer) cannot fail. -/
structure JSONCodec (C : Type) where
  marshal : Baseline → C
  unmarshal : C → Except GoError Baseline

/-- The files `os.ReadFile` and `os.WriteFile` act on: the contents stored under each
path, and the paths that cannot be written. -/
structure FileStore (C : Type) where
  files : GoMap GoString C
  unwritable : List GoString

/-- The function `os.ReadFile`. -/
def FileStore.readFile {C : Type} (fs : FileStore C) (path : GoString) : Except GoError C :=
  match fs.files.get? path with
  | some data => .ok data
  | none => .error (str "open: no such file or directory")

/-- The function `os.WriteFile`: the file is created or replaced. -/
def FileStore.writeFile {C : Type} (fs : FileStore C) (path : GoString) (data : C) :
    Except GoError (FileStore C) :=
  if path ∈ fs.unwritable then .error (str "open: permission denied")
  else .ok { fs with files := fs.files.set path data }

/-- The loop `for _, e := range b.Entries { b.lookup[e.Fingerprint] = e }`. -/
def buildLookup (entries : List BaselineEntry) : GoMap GoString BaselineEntry :=
  entries.foldl (fun m e => m.set e.Fingerprint e) []

/-- The function `LoadBaseline`. -/
def LoadBaseline {C : Type} (codec : JSONCodec C) (fs : FileStore C) (path : GoString) :
    Except GoError Baseline :=
  match fs.readFile path with
  | .error err => .error err
  | .ok data =>
    match codec.unmarshal data with
    | .error err => .error err
    | .ok b => .ok { b with lookup := buildLookup b.Entries }

/-- The method `(*Baseline).IsIgnored`; `none` is the nil receiver. -/
def IsIgnored {F : Type} (b : Option Baseline) (f : Finding F) : Bool :=
  match b with
  | none => false
  | some b => (b.lookup.get? f.Fingerprint).isSome

/-- One iteration of the loop of `WriteBaseline` on the pair (`seen`, `b.Entries`):
`fp := f.Fingerprint; if fp == "" { fp = BuildFingerprint(f) }`, then the test of
`seen[fp]` and the `append`. -/
def writeStep {F : Type} (st : GoMap GoString Bool × List BaselineEntry) (f : Finding F) :
    GoMap GoString Bool × List BaselineEntry :=
  let fp0 := f.Fingerprint
  let fp := if fp0 = [] then BuildFingerprint f else fp0
  if (st.1.get? fp).getD false then st
  else (st.1.set fp true, st.2 ++ [{ Fingerprint := fp, RuleID := f.RuleID, Comment := [] }])

/-- The entries `WriteBaseline` accumulates in `b.Entries`. -/
def baselineEntries {F : Type} (findings : List (Finding F)) : List BaselineEntry :=
  (findings.foldl writeStep ([], [])).2

/-- The fingerprint a finding is to be filed under: its `Fingerprint`, or
`BuildFingerprint` of it when that is empty. -/
def effectiveFingerprint {F : Type} (f : Finding F) : GoString :=
  if f.Fingerprint = [] then BuildFingerprint f else f.Fingerprint

/-- The position in `findings` of the first finding to be filed under the fingerprint
`fp` (the length of the list when there is none). -/
def firstIndexOf {F : Type} (findings : List (Finding F)) (fp : GoString) : Nat :=
  findings.findIdx (fun f => decide (effectiveFingerprint f = fp))

/-- The value `b` that `WriteBaseline` marshals. -/
def baselineOf {F : Type} (findings : List (Finding F)) : Baseline :=
  { Version := 1, Entries := baselineEntries findings, lookup := [] }

/-- The function `WriteBaseline`: `.ok` carries the file store after the write. -/
def WriteBaseline {F C : Type} (codec : JSONCodec C) (fs : FileStore C) (path : GoString)
    (findings : List (Finding F)) : Except GoError (FileStore C) :=
  fs.writeFile path (codec.marshal (baselineOf findings))

/-- The string `encoding/json` reads back from the text it wrote for the string `s`.
Writing goes rune by rune: a byte that does not begin a well-formed UTF-8 sequence is
written as `\ufffd`, every other rune as itself or as an escape that stands for it;
reading gives back the runes written. -/
def jsonString (s : GoString) : GoString := (decodeRunes s).flatMap encodeRune

/-- The entry read back from the text written for `e`. -/
def jsonEntry (e : BaselineEntry) : BaselineEntry :=
  { Fingerprint := jsonString e.Fingerprint, RuleID := jsonString e.RuleID,
    Comment := jsonString e.Comment }

/-- The package `encoding/json` at type `Baseline`, a file being identified with the JSON
document its text denotes: `marshal` writes the exported fields `version` and
`entries`, every string as `jsonString` has it, and not the field `lookup`;
`unmarshal` reads the document into a fresh `Baseline`, whose `lookup` is nil. -/
def goJSON : JSONCodec Baseline where
  marshal := fun b => { Version := b.Version, Entries := b.Entries.map jsonEntry, lookup := [] }
  unmarshal := fun doc => .ok { Version := doc.Version, Entries := doc.Entries, lookup := [] }

/-- Whether `b` lies between `lo` and `hi`. -/
def byteIn (lo hi : Nat) (b : UInt8) : Bool := decide (lo ≤ b.toNat ∧ b.toNat ≤ hi)

/-- Whether a string is well-formed UTF-8 (the table of well-formed byte sequences of
the Unicode standard, which `utf8.ValidString` implements): no overlong form, no
surrogate, nothing past `U+10FFFF`, no truncated sequence. -/
def validUTF8 : GoString → Bool
  | [] => true
  | b0 :: rest =>
    if byteIn 0x00 0x7F b0 then validUTF8 rest
    else
      match rest with
      | [] => false
      | b1 :: rest1 =>
        if byteIn 0xC2 0xDF b0 then byteIn 0x80 0xBF b1 && validUTF8 rest1
        else
          match rest1 with
          | [] => false
          | b2 :: rest2 =>
            if byteIn 0xE0 0xE0 b0 then
              byteIn 0xA0 0xBF b1 && byteIn 0x80 0xBF b2 && validUTF8 rest2
            else if byteIn 0xE1 0xEC b0 then
              byteIn 0x80 0xBF b1 && byteIn 0x80 0xBF b2 && validUTF8 rest2
            else if byteIn 0xED 0xED b0 then
              byteIn 0x80 0x9F b1 && byteIn 0x80 0xBF b2 && validUTF8 rest2
            else if byteIn 0xEE 0xEF b0 then
              byteIn 0x80 0xBF b1 && byteIn 0x80 0xBF b2 && validUTF8 rest2
            else
              match rest2 with
              | [] => false
              | b3 :: rest3 =>
                if byteIn 0xF0 0xF0 b0 then
                  byteIn 0x90 0xBF b1 && byteIn 0x80 0xBF b2 && byteIn 0x80 0xBF b3
                    && validUTF8 rest3
                else if byteIn 0xF1 0xF3 b0 then
                  byteIn 0x80 0xBF b1 && byteIn 0x80 0xBF b2 && byteIn 0x80 0xBF b3
                    && validUTF8 rest3
                else if byteIn 0xF4 0xF4 b0 then
                  byteIn 0x80 0x8F b1 && byteIn 0x80 0xBF b2 && byteIn 0x80 0xBF b3
                    && validUTF8 rest3
                else false

/-! ## `internal/rules/rules.go` -/

/-- The `float64` operations the program uses. `ofInt` is the conversion `float64(n)`,
`log2` is `math.Log2`, `ge` is `>=`. -/
structure Float64Ops (F : Type) where
  ofInt : Int → F
  sub : F → F → F
  mul : F → F → F
  div : F → F → F
  log2 : F → F
  ge : F → F → Bool

/-- The package `regexp` on compiled expressions of type `Re`: `compile` is
`regexp.Compile`, `findAllString re s` is `re.FindAllString(s, -1)`. -/
structure Regexp (Re : Type) where
  compile : GoString → Except GoError Re
  findAllString : Re → GoString → List GoString

/-- The struct `PatternRuleConfig`. -/
structure PatternRuleConfig where
  ID : GoString
  Description : GoString
  Regex : GoString
  Severity : GoString
  Tags : List GoString
deriving DecidableEq

/-- The struct `EntropyRuleConfig`. -/
structure EntropyRuleConfig (F : Type) where
  ID : GoString
  Description : GoString
  MinLength : Int
  EntropyThreshold : F
  Severity : GoString
  Tags : List GoString

/-- The struct `PatternRule`; `Re` stands for `*regexp.Regexp`. -/
structure PatternRule (Re : Type) where
  ID : GoString
  Description : GoString
  Re : Re
  Severity : GoString
  Tags : List GoString

/-- The struct `EntropyRule`. -/
structure EntropyRule (F : Type) where
  ID : GoString
  Description : GoString
  MinLength : Int
  EntropyThreshold : F
  Severity : GoString
  Tags : List GoString

/-- The struct `RuleSet`. Its field `entropyTokenRe` always holds the compiled constant
expression of `NewRuleSet`; it is modelled by the function `entropyTokens`. -/
structure RuleSet (Re F : Type) where
  SensitiveFilenames : List GoString
  PatternRules : List (PatternRule Re)
  EntropyRules : List (EntropyRule F)

/-- The first loop body of `NewRuleSet`: the checks on one pattern configuration and the
rule it appends. -/
def newPatternRule {Re : Type} (rx : Regexp Re) (cfg : PatternRuleConfig) :
    Except GoError (PatternRule Re) :=
  if cfg.ID = [] ∨ cfg.Regex = [] then .error (str "pattern rule missing id or regex")
  else
    match rx.compile cfg.Regex with
    | .error err => .error err
    | .ok re =>
      .ok { ID := cfg.ID, Description := cfg.Description, Re := re, Severity := cfg.Severity,
            Tags := cfg.Tags }

/-- The second loop body of `NewRuleSet`: the checks on one entropy configuration and the
rule it appends. -/
def newEntropyRule {F : Type} (cfg : EntropyRuleConfig F) : Except GoError (EntropyRule F) :=
  if cfg.ID = [] ∨ cfg.MinLength ≤ 0 then .error (str "entropy rule missing id or min_length")
  else
    .ok { ID := cfg.ID, Description := cfg.Description, MinLength := cfg.MinLength,
          EntropyThreshold := cfg.EntropyThreshold, Severity := cfg.Severity, Tags := cfg.Tags }

/-- A `for` loop that appends `f cfg` to `acc` for each `cfg` and returns at the first
error. -/
def appendRules {α β : Type} (f : α → Except GoError β) : List α → List β → Except GoError (List β)
  | [], acc => .ok acc
  | cfg :: cfgs, acc =>
    match f cfg with
    | .error err => .error err
    | .ok r => appendRules f cfgs (acc ++ [r])

/-- The function `NewRuleSet`; `.error` is the result `(nil, err)`. -/
def NewRuleSet {Re F : Type} (rx : Regexp Re) (unicodeToLower : Nat → Nat)
    (files : List GoString) (patternCfgs : List PatternRuleConfig)
    (entropyCfgs : List (EntropyRuleConfig F)) : Except GoError (RuleSet Re F) :=
  let names := files.map (ToLower unicodeToLower)
  match appendRules (newPatternRule rx) patternCfgs [] with
  | .error err => .error err
  | .ok prs =>
    match appendRules newEntropyRule entropyCfgs [] with
    | .error err => .error err
    | .ok ers => .ok { SensitiveFilenames := names, PatternRules := prs, EntropyRules := ers }

/-- The method `IsSensitiveFilename`. -/
def IsSensitiveFilename {Re F : Type} (unicodeToLower : Nat → Nat) (rs : RuleSet Re F)
    (name : GoString) : Bool :=
  rs.SensitiveFilenames.any (fun f => Contains (ToLower unicodeToLower name) f)

/-- The struct `PatternMatch`. -/
structure PatternMatch where
  RuleID : GoString
  Description : GoString
  Match : GoString
  Severity : GoString
  Tags : List GoString
deriving DecidableEq

/-- The struct `EntropyMatch`. -/
structure EntropyMatch (F : Type) where
  RuleID : GoString
  Description : GoString
  Value : GoString
  Entropy : F
  Severity : GoString
  Tags : List GoString
deriving DecidableEq

/-- The method `MatchPatterns`: rules in order, and the matches of a rule in order. -/
def MatchPatterns {Re F : Type} (rx : Regexp Re) (rs : RuleSet Re F) (line : GoString) :
    List PatternMatch :=
  rs.PatternRules.flatMap (fun rule =>
    (rx.findAllString rule.Re line).map (fun m =>
      { RuleID := rule.ID, Description := rule.Description, Match := m,
        Severity := rule.Severity, Tags := rule.Tags }))

/-- The character class `[A-Za-z0-9+/=_\-]` of the token expression. -/
def isTokenByte (c : UInt8) : Bool :=
  decide ((65 ≤ c.toNat ∧ c.toNat ≤ 90) ∨ (97 ≤ c.toNat ∧ c.toNat ≤ 122)
    ∨ (48 ≤ c.toNat ∧ c.toNat ≤ 57) ∨ c.toNat = 43 ∨ c.toNat = 47 ∨ c.toNat = 61
    ∨ c.toNat = 95 ∨ c.toNat = 45)

/-- The scan behind `entropyTokens`: `cur` is the run of class bytes being read,
in reverse. A run that ends with 8 bytes or more is a match. -/
def entropyTokensAux : GoString → GoString → List GoString
  | [], cur => if 8 ≤ cur.length then [cur.reverse] else []
  | c :: rest, cur =>
    if isTokenByte c then entropyTokensAux rest (c :: cur)
    else if 8 ≤ cur.length then cur.reverse :: entropyTokensAux rest []
    else entropyTokensAux rest []

/-- The call `rs.entropyTokenRe.FindAllString(line, -1)` for the greedy expression
`[A-Za-z0-9+/=_\-]{8,}`: the maximal runs of class bytes that are 8 bytes long or more,
from left to right. Every byte of a non-ASCII or ill-formed rune is outside the class. -/
def entropyTokens (line : GoString) : List GoString := entropyTokensAux line []

/-- The increment `freq[ch]++`; a new key goes to the end of the list. -/
def freqIncr : GoMap Nat Int → Nat → GoMap Nat Int
  | [], ch => [(ch, 1)]
  | (k, c) :: m, ch => if k = ch then (k, c + 1) :: m else (k, c) :: freqIncr m ch

/-- The map `freq` of `shannonEntropy` after its first loop. -/
def runeFreq (s : GoString) : GoMap Nat Int := (decodeRunes s).foldl freqIncr []

/-- The order in which one `for _, c := range freq` statement visits a map. Go leaves it
unspecified and the runtime randomises it at every `range`, so it is a parameter: the
argument is the map with its entries in order of first insertion, the result the entries
in the order visited. -/
abbrev MapOrder := GoMap Nat Int → GoMap Nat Int

/-- The function `shannonEntropy`. The second loop ranges over the map `freq` in the order
`order` the runtime picks for this call; the sum it accumulates depends on that order
when `float64` subtraction rounds. -/
def shannonEntropy {F : Type} (ops : Float64Ops F) (order : MapOrder) (s : GoString) : F :=
  if s.length = 0 then ops.ofInt 0
  else
    let l := ops.ofInt s.length
    (order (runeFreq s)).foldl
      (fun entropy kc =>
        let p := ops.div (ops.ofInt kc.2) l
        ops.sub entropy (ops.mul p (ops.log2 p)))
      (ops.ofInt 0)

/-- The inner loop of `MatchEntropy` for one rule: the matches it appends, token by
token; `j` is the number of the first token of `tokens`, and `sched j` is the map order
of the call of `shannonEntropy` on token number `j`. -/
def entropyMatchesOfRule {F : Type} (ops : Float64Ops F) (sched : Nat → MapOrder)
    (rule : EntropyRule F) : Nat → List GoString → List (EntropyMatch F)
  | _, [] => []
  | j, t :: tokens =>
    if (t.length : Int) < rule.MinLength then entropyMatchesOfRule ops sched rule (j + 1) tokens
    else
      let e := shannonEntropy ops (sched j) t
      if ops.ge e rule.EntropyThreshold then
        { RuleID := rule.ID, Description := rule.Description, Value := t, Entropy := e,
          Severity := rule.Severity, Tags := rule.Tags }
          :: entropyMatchesOfRule ops sched rule (j + 1) tokens
      else entropyMatchesOfRule ops sched rule (j + 1) tokens

/-- The outer loop of `MatchEntropy`: `i` is the number of the first rule of `rules`, and
`sched i j` is the map order of the call for rule number `i` and token number `j`. -/
def entropyMatchesOfRules {F : Type} (ops : Float64Ops F) (sched : Nat → Nat → MapOrder)
    (tokens : List GoString) : Nat → List (EntropyRule F) → List (EntropyMatch F)
  | _, [] => []
  | i, rule :: rules =>
    entropyMatchesOfRule ops (sched i) rule 0 tokens
      ++ entropyMatchesOfRules ops sched tokens (i + 1) rules

/-- The method `MatchEntropy`; `sched i j` is the order in which the runtime ranges over
`freq` in the call of `shannonEntropy` for rule number `i` and token number `j`. -/
def MatchEntropy {Re F : Type} (ops : Float64Ops F) (sched : Nat → Nat → MapOrder)
    (rs : RuleSet Re F) (line : GoString) : List (EntropyMatch F) :=
  entropyMatchesOfRules ops sched (entropyTokens line) 0 rs.EntropyRules

/-- The rule list `rules` with the threshold of rule number `i` replaced by `t`. -/
def setThreshold {F : Type} : List (EntropyRule F) → Nat → F → List (EntropyRule F)
  | [], _, _ => []
  | r :: rules, 0, t => { r with EntropyThreshold := t } :: rules
  | r :: rules, i + 1, t => r :: setThreshold rules i t

/-- The rule set `rs` with the threshold of entropy rule number `i` replaced by `t`, and
nothing else changed. -/
def withThreshold {Re F : Type} (rs : RuleSet Re F) (i : Nat) (t : F) : RuleSet Re F :=
  { rs with EntropyRules := setThreshold rs.EntropyRules i t }

/-- Exact rational arithmetic as an instance of `Float64Ops`. `log2` is the exact
logarithm on powers of two and an integer approximation elsewhere. On the values
used below (small integers, their quotients by powers of two) `float64` arithmetic
and `math.Log2` are exact and agree with it. -/
def exactOps : Float64Ops ℚ where
  ofInt := fun n => (n : ℚ)
  sub := fun a b => a - b
  mul := fun a b => a * b
  div := fun a b => a / b
  log2 := fun a => (Nat.log2 a.num.natAbs : ℚ) - (Nat.log2 a.den : ℚ)
  ge := fun a b => decide (b ≤ a)

/-! ## `float64` with IEEE 754 rounding, and `math.Log2` -/

/-- The power of two `2^e` as a rational number. -/
def pow2 (e : Int) : ℚ :=
  if 0 ≤ e then ((2 ^ e.toNat : Nat) : ℚ) else 1 / ((2 ^ (-e).toNat : Nat) : ℚ)

/-- The number of binary digits of `n`, by repeated halving (at most `fuel` times). -/
def bitLengthAux : Nat → Nat → Nat
  | 0, _ => 0
  | fuel + 1, n => if n = 0 then 0 else bitLengthAux fuel (n / 2) + 1

/-- The number of binary digits of `n`: `0` for `0`, and `k + 1` for `2^k ≤ n < 2^(k+1)`. -/
def bitLength (n : Nat) : Nat := bitLengthAux n n

/-- The binary exponent of a positive rational `x`: the `e` with `2^e ≤ x < 2^(e+1)`. -/
def exponentOf (x : ℚ) : Int :=
  let e0 : Int := (bitLength x.num.natAbs : Int) - (bitLength x.den : Int)
  if pow2 e0 ≤ x then e0 else e0 - 1

/-- The integer nearest to the rational `m ≥ 0`; of two nearest ones, the even one. -/
def roundHalfEven (m : ℚ) : Nat :=
  let q := m.num.natAbs / m.den
  let r := m.num.natAbs % m.den
  if 2 * r < m.den then q
  else if m.den < 2 * r then q + 1
  else if q % 2 = 0 then q else q + 1

/-- The `float64` nearest to the real number `x` (round to nearest, ties to even): 53
significant bits, spaced `2^(e-52)` for `2^e ≤ |x| < 2^(e+1)` and `2^(-1074)` below
`2^(-1022)`. A finite `float64` is identified with the rational number it stands for;
overflow to infinity is left out (no value computed below comes near `2^1024`). -/
def roundF64 (x : ℚ) : ℚ :=
  if x = 0 then 0
  else
    let a := if x < 0 then -x else x
    let q := pow2 (max (exponentOf a) (-1022) - 52)
    let r := ((roundHalfEven (a / q) : Nat) : ℚ) * q
    if x < 0 then -r else r

/-- The constant `math.Ln2`. -/
def Ln2 : ℚ := 693147180559945309417232121458176568 / 10 ^ 36

/-- The constant `math.Sqrt2`. -/
def Sqrt2 : ℚ := 141421356237309504880168872420969808 / 10 ^ 35

/-- The function `math.Frexp` on a positive `float64`: the fraction in `[1/2, 1)` and
the exponent. -/
def Frexp (x : ℚ) : ℚ × Int :=
  let exp := exponentOf x + 1
  (x / pow2 exp, exp)

/-- The function `math.Log` on a positive `float64`, as `math/log.go` computes it (the
method of FreeBSD `e_log.c`), every operation rounded on its own. -/
def Log (x : ℚ) : ℚ :=
  let Ln2Hi : ℚ := roundF64 (693147180369123816490 / 10 ^ 21)
  let Ln2Lo : ℚ := roundF64 (190821492927058770002 / 10 ^ 30)
  let L1 : ℚ := roundF64 (6666666666666735130 / 10 ^ 19)
  let L2 : ℚ := roundF64 (3999999999940941908 / 10 ^ 19)
  let L3 : ℚ := roundF64 (2857142874366239149 / 10 ^ 19)
  let L4 : ℚ := roundF64 (2222219843214978396 / 10 ^ 19)
  let L5 : ℚ := roundF64 (1818357216161805012 / 10 ^ 19)
  let L6 : ℚ := roundF64 (1531383769920937332 / 10 ^ 19)
  let L7 : ℚ := roundF64 (1479819860511658591 / 10 ^ 19)
  let fr := Frexp x
  let small := decide (fr.1 < roundF64 (Sqrt2 / 2))
  let f1 := if small then roundF64 (fr.1 * 2) else fr.1
  let ki := if small then fr.2 - 1 else fr.2
  let f := roundF64 (f1 - 1)
  let k := roundF64 (ki : ℚ)
  let s := roundF64 (f / roundF64 (2 + f))
  let s2 := roundF64 (s * s)
  let s4 := roundF64 (s2 * s2)
  let t1 := roundF64 (s2 * roundF64 (L1 + roundF64 (s4 * roundF64 (L3 + roundF64 (s4 *
    roundF64 (L5 + roundF64 (s4 * L7)))))))
  let t2 := roundF64 (s4 * roundF64 (L2 + roundF64 (s4 * roundF64 (L4 + roundF64 (s4 * L6)))))
  let R := roundF64 (t1 + t2)
  let hfsq := roundF64 (roundF64 ((1 / 2) * f) * f)
  roundF64 (roundF64 (k * Ln2Hi)
    - roundF64 (roundF64 (hfsq - roundF64 (roundF64 (s * roundF64 (hfsq + R))
        + roundF64 (k * Ln2Lo))) - f))

/-- The function `math.Log2` on a positive `float64`, as `math/log10.go` computes it:
exact on the powers of two, `Log(frac)*(1/Ln2) + float64(exp)` elsewhere. -/
def Log2 (x : ℚ) : ℚ :=
  let fr := Frexp x
  if fr.1 = 1 / 2 then roundF64 ((fr.2 - 1 : Int) : ℚ)
  else roundF64 (roundF64 (Log fr.1 * roundF64 (1 / Ln2)) + roundF64 (fr.2 : ℚ))

/-- The `float64` operations of Go where the compiler does not fuse a multiplication
with an addition (`GOARCH=amd64`, for one): each result is the exact one, rounded.
`shannonEntropy` divides by a length that is not zero and calls `math.Log2` on a
quotient that is positive, and no value it computes overflows; division by zero, the
logarithm of a number that is not positive, infinities and NaN are left out (the
operations answer `0` there). -/
def binary64Ops : Float64Ops ℚ where
  ofInt := fun n => roundF64 (n : ℚ)
  sub := fun a b => roundF64 (a - b)
  mul := fun a b => roundF64 (a * b)
  div := fun a b => if b = 0 then 0 else roundF64 (a / b)
  log2 := fun a => if a ≤ 0 then 0 else Log2 a
  ge := fun a b => decide (b ≤ a)

/-! ## `internal/scanner/scanner.go` -/

/-- The struct `Options`. -/
structure Options where
  IgnoreDirs : List GoString
  MaxFileSizeBytes : Int
  Workers : Int
deriving DecidableEq

/-- The part of `fs.FileInfo` the scanner reads: `Name()` and `Size()`. -/
structure FileInfo where
  Name : GoString
  Size : Int
deriving DecidableEq

/-- The struct `job`. -/
structure job where
  path : GoString
  info : FileInfo
deriving DecidableEq

/-- The loop of `looksBinary` over `sample`: the final value of `nonText`. -/
def countNonText (sample : List UInt8) : Nat :=
  sample.foldl
    (fun nonText c =>
      if c.toNat = 9 ∨ c.toNat = 10 ∨ c.toNat = 13 then nonText
      else if c.toNat < 32 ∨ c.toNat > 126 then nonText + 1
      else nonText)
    0

/-- A byte is non-text when it is none of tab, LF and CR, and is below `0x20` or above
`0x7E`. -/
def isNonTextByte (c : UInt8) : Bool :=
  decide (c.toNat ≠ 9 ∧ c.toNat ≠ 10 ∧ c.toNat ≠ 13 ∧ (c.toNat < 0x20 ∨ c.toNat > 0x7E))

/-- The function `looksBinary`. -/
def looksBinary (b : List UInt8) : Bool :=
  if b.length = 0 then false
  else if b.contains 0x00 then true
  else
    let sample := if b.length > 8000 then b.take 8000 else b
    decide (countNonText sample > sample.length / 10)

/-- The predicate `unicode.IsSpace`. -/
def isSpaceRune (r : Nat) : Bool :=
  decide ((9 ≤ r ∧ r ≤ 13) ∨ r = 0x20 ∨ r = 0x85 ∨ r = 0xA0 ∨ r = 0x1680
    ∨ (0x2000 ≤ r ∧ r ≤ 0x200A) ∨ r = 0x2028 ∨ r = 0x2029 ∨ r = 0x202F ∨ r = 0x205F
    ∨ r = 0x3000)

/-- The six ASCII white-space bytes: tab, LF, VT, FF, CR and space. -/
def isAsciiSpace (c : UInt8) : Bool :=
  decide ((9 ≤ c.toNat ∧ c.toNat ≤ 13) ∨ c.toNat = 0x20)

/-- A string that decodes to white-space runes only. -/
def allSpace (s : GoString) : Bool := (decodeRunes s).all isSpaceRune

/-- The function `utf8.DecodeLastRuneInString` on the REVERSED string `rev`: the last
rune and its width. The start of the rune is searched among the four last bytes. -/
def decodeLastRune : GoString → Nat × Nat
  | [] => (RuneError, 0)
  | b :: rest =>
    if b.toNat < 0x80 then (b.toNat, 1)
    else
      match (rest.take 3).findIdx? (fun c => !isCont c) with
      | none => (RuneError, 1)
      | some k =>
        let rw := decodeRune ((b :: rest).take (k + 2)).reverse
        if rw.2 = k + 2 then rw else (RuneError, 1)

/-- Leading white space removed rune by rune; `fuel` bounds the number of runes. -/
def trimLeftSpace : Nat → GoString → GoString
  | 0, s => s
  | fuel + 1, s =>
    let rw := decodeRune s
    if rw.2 ≠ 0 ∧ isSpaceRune rw.1 then trimLeftSpace fuel (s.drop rw.2) else s

/-- Trailing white space removed rune by rune, on the reversed string. -/
def trimRightSpaceRev : Nat → GoString → GoString
  | 0, rev => rev
  | fuel + 1, rev =>
    let rw := decodeLastRune rev
    if rw.2 ≠ 0 ∧ isSpaceRune rw.1 then trimRightSpaceRev fuel (rev.drop rw.2) else rev

/-- The function `strings.TrimSpace`. -/
def TrimSpace (s : GoString) : GoString :=
  let t := trimLeftSpace s.length s
  (trimRightSpaceRev t.length t.reverse).reverse

/-- The function `trimLine`. -/
def trimLine (s : GoString) : GoString :=
  let t := TrimSpace s
  if t.length > 200 then t.take 200 ++ str "..." else t

/-- The constant `bufio.MaxScanTokenSize`. -/
def MaxScanTokenSize : Nat := 64 * 1024

/-- The error `bufio.ErrTooLong`. -/
def ErrTooLong : GoError := str "bufio.Scanner: token too long"

/-- The helper `dropCR` of `bufio.ScanLines`: one trailing carriage return is removed. -/
def dropCR (seg : GoString) : GoString :=
  if seg.getLast? = some 13 then seg.dropLast else seg

/-- The lines `scanner.Scan()` / `scanner.Text()` deliver on `data` and the final
`scanner.Err()`. A line ends at LF or at the end of the data; a line that does not
fit the 64 KiB buffer stops the scanner with `ErrTooLong`. -/
def scanLinesAux : Nat → List UInt8 → List GoString × Option GoError
  | 0, _ => ([], none)
  | fuel + 1, data =>
    if data = [] then ([], none)
    else
      let seg := data.takeWhile (fun c => c ≠ 10)
      if seg.length ≥ MaxScanTokenSize then ([], some ErrTooLong)
      else
        let r := scanLinesAux fuel (data.drop (seg.length + 1))
        (dropCR seg :: r.1, r.2)

/-- The lines of a whole file; each step consumes a byte, so `raw.length` steps of
fuel suffice. -/
def scanLines (raw : List UInt8) : List GoString × Option GoError :=
  scanLinesAux raw.length raw

/-- The findings the body of the line loop of `scanFile` appends for one line: the
pattern matches first, then the entropy matches; `sched` gives the map orders of the
calls of `shannonEntropy` made for this line. -/
def lineFindings {Re F : Type} (ops : Float64Ops F) (sched : Nat → Nat → MapOrder)
    (rx : Regexp Re) (rs : RuleSet Re F)
    (path : GoString) (lineNum : Int) (line : GoString) : List (Finding F) :=
  (MatchPatterns rx rs line).map (fun m =>
    { File := path, Line := lineNum, RuleID := m.RuleID, Description := m.Description,
      Snippet := trimLine line, Match := m.Match, Entropy := ops.ofInt 0, Type_ := str "pattern",
      Severity := m.Severity, Tags := m.Tags, Fingerprint := [] })
  ++ (MatchEntropy ops sched rs line).map (fun em =>
    { File := path, Line := lineNum, RuleID := em.RuleID, Description := em.Description,
      Snippet := trimLine line, Match := em.Value, Entropy := em.Entropy, Type_ := str "entropy",
      Severity := em.Severity, Tags := em.Tags, Fingerprint := [] })

/-- The line loop of `scanFile`: `lineNum` is the number of the first line of `lines`, and
`sched n` gives the map orders of the calls made for line number `n`. -/
def linesFindings {Re F : Type} (ops : Float64Ops F) (sched : Nat → Nat → Nat → MapOrder)
    (rx : Regexp Re) (rs : RuleSet Re F)
    (path : GoString) : Int → List GoString → List (Finding F)
  | _, [] => []
  | lineNum, line :: lines =>
    lineFindings ops (sched lineNum.toNat) rx rs path lineNum line
      ++ linesFindings ops sched rx rs path (lineNum + 1) lines

/-- The function `scanFile`; `readFile` is `os.ReadFile`, and `sched n i j` is the map
order of the call of `shannonEntropy` for line `n`, rule number `i` and token number `j`. -/
def scanFile {Re F : Type} (ops : Float64Ops F) (sched : Nat → Nat → Nat → MapOrder)
    (rx : Regexp Re) (unicodeToLower : Nat → Nat)
    (readFile : GoString → Except GoError (List UInt8))
    (path : GoString) (info : FileInfo) (rs : RuleSet Re F) (_opts : Options) : List (Finding F) :=
  let out : List (Finding F) :=
    if IsSensitiveFilename unicodeToLower rs info.Name then
      [{ File := path, Line := 0, RuleID := str "sensitive_filename",
         Description := str "Suspicious filename", Snippet := info.Name, Match := [],
         Entropy := ops.ofInt 0, Type_ := str "filename", Severity := str "medium",
         Tags := [str "filename"], Fingerprint := [] }]
    else []
  match readFile path with
  | .error err =>
    out ++ [{ File := path, Line := 0, RuleID := str "read_error", Description := err,
              Snippet := [], Match := [], Entropy := ops.ofInt 0, Type_ := str "error",
              Severity := str "low", Tags := [], Fingerprint := [] }]
  | .ok raw =>
    if looksBinary raw then out
    else
      let ls := scanLines raw
      let out1 := out ++ linesFindings ops sched rx rs path 1 ls.1
      match ls.2 with
      | none => out1
      | some err =>
        out1 ++ [{ File := path, Line := 0, RuleID := str "scan_error",
                   Description := str "Error scanning file: " ++ err, Snippet := [], Match := [],
                   Entropy := ops.ofInt 0, Type_ := str "error", Severity := str "low",
                   Tags := [], Fingerprint := [] }]

/-- A finding is line-level when its type is `pattern` or `entropy`: the findings the
line loop of `scanFile` appends. -/
def isLineLevel {F : Type} (f : Finding F) : Bool :=
  decide (f.Type_ = str "pattern" ∨ f.Type_ = str "entropy")

/-- The number of characters (runes) of a string, `utf8.RuneCountInString`. -/
def runeCount (s : GoString) : Nat := (decodeRunes s).length

/-- An entry of the tree `filepath.WalkDir` visits. A `file` is any entry that is not a
directory, with the result of its `d.Info()`. A `dir` carries the outcome of
`os.ReadDir` on it: the entries read, in the order returned, and the error if any. -/
inductive FSNode where
  | file (name : GoString) (info : Except GoError FileInfo)
  | dir (name : GoString) (readDirErr : Option GoError) (children : List FSNode)

/-- The method `d.Name()`. -/
def FSNode.Name : FSNode → GoString
  | .file name _ => name
  | .dir name _ _ => name

/-- The method `d.IsDir()`. -/
def FSNode.IsDir : FSNode → Bool
  | .file _ _ => false
  | .dir _ _ _ => true

/-- What a `fs.WalkDirFunc` returns: `nil`, `filepath.SkipDir`, or another error. -/
inductive WalkResult where
  | nil
  | SkipDir
  | err (e : GoError)
deriving DecidableEq

/-- The operating system under `Scan`: `lstat` is `os.Lstat` on the root (the tree found
there, or the error), `join` is `filepath.Join`, `readFile` is `os.ReadFile`. -/
structure OS where
  lstat : GoString → Except GoError FSNode
  join : GoString → GoString → GoString
  readFile : GoString → Except GoError (List UInt8)

mutual
/-- The function `walkDir` of `path/filepath` with callback `fn` acting on a state `σ`. -/
def walkDir {σ : Type} (join : GoString → GoString → GoString)
    (fn : σ → GoString → Option FSNode → Option GoError → σ × WalkResult)
    (path : GoString) (d : FSNode) (st : σ) : σ × WalkResult :=
  match d with
  | .file name info =>
    fn st path (some (.file name info)) none
  | .dir name readDirErr children =>
    let r := fn st path (some (.dir name readDirErr children)) none
    match r.2 with
    | .SkipDir => (r.1, .nil)
    | .err e => (r.1, .err e)
    | .nil =>
      match readDirErr with
      | none => walkEntries join fn path children r.1
      | some e =>
        let r2 := fn r.1 path (some (.dir name readDirErr children)) (some e)
        match r2.2 with
        | .SkipDir => (r2.1, .nil)
        | .err e2 => (r2.1, .err e2)
        | .nil => walkEntries join fn path children r2.1
/-- The loop `for _, d1 := range dirs` of `walkDir`. -/
def walkEntries {σ : Type} (join : GoString → GoString → GoString)
    (fn : σ → GoString → Option FSNode → Option GoError → σ × WalkResult)
    (path : GoString) (dirs : List FSNode) (st : σ) : σ × WalkResult :=
  match dirs with
  | [] => (st, .nil)
  | d1 :: rest =>
    let r := walkDir join fn (join path d1.Name) d1 st
    match r.2 with
    | .SkipDir => (r.1, .nil)
    | .err e => (r.1, .err e)
    | .nil => walkEntries join fn path rest r.1
end

/-- The function `filepath.WalkDir`: a root that cannot be examined is reported to the
callback with a nil entry; `SkipDir` from the top level is not an error. -/
def WalkDir {σ : Type} (os : OS)
    (fn : σ → GoString → Option FSNode → Option GoError → σ × WalkResult)
    (root : GoString) (st : σ) : σ × Option GoError :=
  let r :=
    match os.lstat root with
    | .error e => fn st root none (some e)
    | .ok d => walkDir os.join fn root d st
  match r.2 with
  | .err e => (r.1, some e)
  | _ => (r.1, none)

/-- What the walk callback of `Scan` changes: the jobs sent on `jobCh`, in the order
sent, and the variable `walkErr`. -/
structure WalkState where
  jobs : List job
  walkErr : Option GoError
deriving DecidableEq

/-- The callback `Scan` passes to `filepath.WalkDir`. (A nil entry only ever comes with
an error, so the branch `none, none` is not reached.) -/
def scanWalkFn (opts : Options) (st : WalkState) (path : GoString) (d : Option FSNode)
    (err : Option GoError) : WalkState × WalkResult :=
  match err, d with
  | some e, _ => ({ st with walkErr := some e }, .nil)
  | none, none => (st, .nil)
  | none, some (.dir name _ _) => if name ∈ opts.IgnoreDirs then (st, .SkipDir) else (st, .nil)
  | none, some (.file _ info) =>
    match info with
    | .error _ => (st, .nil)
    | .ok info =>
      if opts.MaxFileSizeBytes > 0 ∧ info.Size > opts.MaxFileSizeBytes then (st, .nil)
      else ({ st with jobs := st.jobs ++ [{ path := path, info := info }] }, .nil)

/-- The tree walk of `Scan`: the final callback state and the error of `WalkDir`. -/
def scanWalk (os : OS) (root : GoString) (opts : Options) : WalkState × Option GoError :=
  WalkDir os (scanWalkFn opts) root { jobs := [], walkErr := none }

/-- The callback of `Scan` with a log: besides what `scanWalkFn` does, the error of
every call that comes with one is appended to the second component. -/
def scanWalkFnLogged (opts : Options) (s : WalkState × List GoError) (path : GoString)
    (d : Option FSNode) (err : Option GoError) : (WalkState × List GoError) × WalkResult :=
  let r := scanWalkFn opts s.1 path d err
  ((r.1, s.2 ++ err.toList), r.2)

/-- The per-entry traversal errors the tree walk of `Scan` meets, in the order met: the
errors `filepath.WalkDir` hands to the callback. -/
def traversalErrors (os : OS) (root : GoString) (opts : Options) : List GoError :=
  (WalkDir os (scanWalkFnLogged opts) root ({ jobs := [], walkErr := none }, [])).1.2

mutual
/-- The files the walk of `Scan` reaches below (and including) the entry `d` found at
`path`, with their `Info()`, in walk order: every entry that is not a directory, whose
`Info()` succeeds, and that lies in no directory named in `IgnoreDirs`. -/
def reachedFiles (join : GoString → GoString → GoString) (opts : Options) (path : GoString)
    (d : FSNode) : List job :=
  match d with
  | .file _ (.ok info) => [{ path := path, info := info }]
  | .file _ (.error _) => []
  | .dir name _ children =>
    if name ∈ opts.IgnoreDirs then [] else reachedFilesIn join opts path children
/-- The files the walk reaches in the entries `dirs` of the directory at `path`. -/
def reachedFilesIn (join : GoString → GoString → GoString) (opts : Options) (path : GoString)
    (dirs : List FSNode) : List job :=
  match dirs with
  | [] => []
  | d1 :: rest =>
    reachedFiles join opts (join path d1.Name) d1 ++ reachedFilesIn join opts path rest
end

/-- The files the walk of `Scan` reaches from `root`. -/
def reachedFromRoot (os : OS) (root : GoString) (opts : Options) : List job :=
  match os.lstat root with
  | .error _ => []
  | .ok d => reachedFiles os.join opts root d

/-- The size cutoff: the limit is not positive, or the size is within it. -/
def withinLimit (opts : Options) (j : job) : Bool :=
  decide (opts.MaxFileSizeBytes ≤ 0 ∨ j.info.Size ≤ opts.MaxFileSizeBytes)

/-- The findings of the workers on the jobs `jobs`, of which the first has number `k`:
`scanFile` on every job, the results appended in the order of the jobs; `sched k` gives
the map orders of the calls made for job number `k`. -/
def scanJobs {Re F : Type} (ops : Float64Ops F) (sched : Nat → Nat → Nat → Nat → MapOrder)
    (rx : Regexp Re) (unicodeToLower : Nat → Nat)
    (readFile : GoString → Except GoError (List UInt8)) (rs : RuleSet Re F) (opts : Options) :
    Nat → List job → List (Finding F)
  | _, [] => []
  | k, j :: jobs =>
    scanFile ops (sched k) rx unicodeToLower readFile j.path j.info rs opts
      ++ scanJobs ops sched rx unicodeToLower readFile rs opts (k + 1) jobs

/-- The function `Scan`. The workers run `scanFile` on every job sent; the order in which
their results are appended depends on the schedule, and the one modelled appends
them in the order the jobs were sent. `sched k n i j` is the map order of the call of
`shannonEntropy` for job `k`, line `n`, rule `i` and token `j`. `WalkDir` never returns
`fs.SkipDir`, so the test `err != fs.SkipDir` holds whenever `err != nil`. -/
def Scan {Re F : Type} (ops : Float64Ops F) (sched : Nat → Nat → Nat → Nat → MapOrder)
    (rx : Regexp Re) (unicodeToLower : Nat → Nat)
    (os : OS) (root : GoString) (rs : RuleSet Re F) (opts : Options) :
    List (Finding F) × Option GoError :=
  let opts1 : Options := if opts.Workers ≤ 0 then { opts with Workers := 4 } else opts
  let w := scanWalk os root opts1
  let findings := scanJobs ops sched rx unicodeToLower os.readFile rs opts1 0 w.1.jobs
  match w.2 with
  | some err => (findings, some err)
  | none => (findings, w.1.walkErr)

/-! ## `cmd/superscan/main.go` -/

/-- The loop at the end of `main`: the pair (`criticalCount`, `highCount`). -/
def severityCounts {F : Type} (unicodeToLower : Nat → Nat) (filtered : List (Finding F)) :
    Nat × Nat :=
  filtered.foldl
    (fun cnt f =>
      let sev := ToLower unicodeToLower f.Severity
      if sev = str "critical" then (cnt.1 + 1, cnt.2)
      else if sev = str "high" then (cnt.1, cnt.2 + 1)
      else cnt)
    (0, 0)

/-- The exit status `main` ends with once the report is printed: `os.Exit(2)`,
`os.Exit(1)`, or the return from `main` (status 0). -/
def exitCode {F : Type} (unicodeToLower : Nat → Nat) (filtered : List (Finding F)) : Nat :=
  let cnt := severityCounts unicodeToLower filtered
  if cnt.1 > 0 then 2
  else if cnt.2 > 0 then 1
  else 0

/-- The slice `filtered` of `main`: the findings the baseline does not ignore (all of
them when no baseline is loaded). -/
def filterBaseline {F : Type} (baseline : Option Baseline) (findings : List (Finding F)) :
    List (Finding F) :=
  match baseline with
  | none => findings
  | some b => findings.filter (fun f => !IsIgnored (some b) f)

/-! ## Notions the statements below are phrased in -/

/-- Equality of two strings ignoring letter case: they have the same number of
characters, and the characters at each position have the same lowercase form under
the lowercase mapping `lower` of Unicode. -/
def equalsIgnoringCase (lower : Nat → Nat) (s t : GoString) : Prop :=
  (decodeRunes s).map lower = (decodeRunes t).map lower

/-! ## Concrete inputs used by the closed statements below -/

/-- A finding of rule `b|c` with match `d` at `a:1`. -/
def findingA : Finding ℚ :=
  { File := str "a", Line := 1, RuleID := str "b|c", Description := [], Snippet := [],
    Match := str "d", Entropy := 0, Type_ := str "pattern", Severity := str "high", Tags := [],
    Fingerprint := [] }

/-- A finding of rule `b` with match `c|d` at `a:1`. -/
def findingB : Finding ℚ :=
  { File := str "a", Line := 1, RuleID := str "b", Description := [], Snippet := [],
    Match := str "c|d", Entropy := 0, Type_ := str "pattern", Severity := str "high", Tags := [],
    Fingerprint := [] }

/-- The finding `findingA` with another description and severity. -/
def findingA2 : Finding ℚ :=
  { findingA with Description := str "other", Severity := str "low" }

/-- The finding `findingA` once `main` has attached its fingerprint. -/
def findingC : Finding ℚ :=
  { findingA with Fingerprint := str "4a6ce8371245d34c" }

/-- The finding `findingA` with a fingerprint that is not UTF-8: the single byte `FF`. -/
def findingD : Finding ℚ :=
  { findingA with Fingerprint := [0xFF] }

/-- The finding `findingA` with the fingerprint `clé-1`, which is UTF-8 and not ASCII. -/
def findingE : Finding ℚ :=
  { findingA with Fingerprint := str "clé-1" }

/-- A file store with no file, where every path can be written. -/
def emptyStore : FileStore Baseline := { files := [], unwritable := [] }

/-- A regular expression engine with one expression, which never matches. -/
def noRegexp : Regexp Unit where
  compile := fun _ => .ok ()
  findAllString := fun _ _ => []

/-- A rule set with the sensitive file name `id_rsa` and no other rule. -/
def filenameRules : RuleSet Unit ℚ :=
  { SensitiveFilenames := [str "id_rsa"], PatternRules := [], EntropyRules := [] }

/-- Path concatenation with a slash. -/
def slashJoin (a b : GoString) : GoString := a ++ str "/" ++ b

/-- A tree in which two directories cannot be read to the end: `r` fails with `e1` after
the entries `a` and `d`, and `r/d` fails with `e2` after the entry `b`. -/
def failingOS : OS where
  lstat := fun _ =>
    .ok (.dir (str "r") (some (str "e1"))
      [.file (str "a") (.ok { Name := str "a", Size := 5 }),
       .dir (str "d") (some (str "e2")) [.file (str "b") (.ok { Name := str "b", Size := 7 })]])
  join := slashJoin
  readFile := fun _ => .ok (str "text")

/-- A directory `r` with the files `id_rsa` of 10 bytes and `id_rsa.bak` of 11 bytes. -/
def sizesOS : OS where
  lstat := fun _ =>
    .ok (.dir (str "r") none
      [.file (str "id_rsa") (.ok { Name := str "id_rsa", Size := 10 }),
       .file (str "id_rsa.bak") (.ok { Name := str "id_rsa.bak", Size := 11 })])
  join := slashJoin
  readFile := fun _ => .ok (str "0123456789")

/-- Options with a size limit of 10 bytes. -/
def limit10 : Options := { IgnoreDirs := [], MaxFileSizeBytes := 10, Workers := 0 }

/-- Options with a size limit of 11 bytes. -/
def limit11 : Options := { IgnoreDirs := [], MaxFileSizeBytes := 11, Workers := 0 }

/-- The map order that visits the entries in order of insertion. -/
def insertionOrder : MapOrder := fun m => m

/-- The map order that starts at entry number `k` and wraps around, as the Go runtime
does on a small map when it starts the iteration at a random slot. -/
def rotatedOrder (k : Nat) : MapOrder := fun m => m.drop k ++ m.take k

/-- A rule set with the single entropy rule `ent`: 8 bytes or more, entropy 1 or more. -/
def entropyRules1 : RuleSet Unit ℚ :=
  { SensitiveFilenames := [], PatternRules := [],
    EntropyRules := [{ ID := str "ent", Description := [], MinLength := 8, EntropyThreshold := 1,
                       Severity := str "high", Tags := [] }] }

/-- The `float64` with bits `0x3FFC0B1F2D26AD75`, about `1.752715279`. -/
def thresholdLow : ℚ := 7893527877299573 / 4503599627370496

/-- The next `float64` above `thresholdLow`, with bits `0x3FFC0B1F2D26AD76`. -/
def thresholdHigh : ℚ := 7893527877299574 / 4503599627370496

/-- A rule set with the single entropy rule `ent`: 8 bytes or more, entropy
`thresholdLow` or more. -/
def entropyRulesLow : RuleSet Unit ℚ :=
  { SensitiveFilenames := [], PatternRules := [],
    EntropyRules := [{ ID := str "ent", Description := [], MinLength := 8,
                       EntropyThreshold := thresholdLow, Severity := str "high", Tags := [] }] }

/-- A lowercase mapping that agrees with `unicode.ToLower` on ASCII, on the dotted
capital `U+0130` and on the Kelvin sign `U+212A`, and leaves every other rune alone. -/
def sampleToLower (r : Nat) : Nat :=
  if 65 ≤ r ∧ r ≤ 90 then r + 32
  else if r = 0x130 then 0x69
  else if r = 0x212A then 0x6B
  else r

/-- The occurrences of the non-empty byte string `pat` in `s`, from left to right and
without overlap; `fuel` bounds the number of positions tried. -/
def findLiteralAux : Nat → GoString → GoString → List GoString
  | 0, _, _ => []
  | _, _, [] => []
  | fuel + 1, pat, c :: s =>
    if hasPrefix (c :: s) pat then pat :: findLiteralAux fuel pat ((c :: s).drop pat.length)
    else findLiteralAux fuel pat s

/-- A regular expression engine for expressions that are plain byte strings without
metacharacters: such an expression matches its own occurrences. -/
def literalRegexp : Regexp GoString where
  compile := fun s => .ok s
  findAllString := fun re s => if re = [] then [] else findLiteralAux s.length re s

/-- A rule set with the sensitive file name `id_rsa`, the pattern rule `aws` for the
text `AKIA`, and the entropy rule `ent` (8 bytes or more, entropy 1 or more). -/
def demoRules : RuleSet GoString ℚ :=
  { SensitiveFilenames := [str "id_rsa"],
    PatternRules := [{ ID := str "aws", Description := [], Re := str "AKIA",
                       Severity := str "high", Tags := [] }],
    EntropyRules := [{ ID := str "ent", Description := [], MinLength := 8, EntropyThreshold := 1,
                       Severity := str "low", Tags := [] }] }

/-- A file of three lines; the first and the third hold pattern and entropy matches. -/
def demoContent : List UInt8 := str "x AKIA aaaabbbb AKIA\nplain\naaaabbbb AKIA\n"

/-- The `os.ReadFile` that returns `demoContent` for every path. -/
def demoReadFile : GoString → Except GoError (List UInt8) := fun _ => .ok demoContent

/-- The file information of `id_rsa`. -/
def demoInfo : FileInfo := { Name := str "id_rsa", Size := 41 }

/-- A line of 150 characters `é`, each of two bytes: 300 bytes. -/
def accentedLine : GoString := (List.replicate 150 (str "é")).flatten

/-- The letter `a` followed by 150 characters `é`: byte 200 falls inside a character. -/
def oddAccentedLine : GoString := str "a" ++ accentedLine

/-! # Theorems -/

/-! ## Fingerprints -/

/-- The model of SHA-1 and of the rendering agrees with the reference digest of
`a|1|b|c|d`, whose first 16 hex digits are `4a6ce8371245d34c`. -/
theorem BuildFingerprint_findingA : BuildFingerprint findingA = str "4a6ce8371245d34c" := by
  decide!

theorem hexEncode_length (bs : List UInt8) : (hexEncode bs).length = 2 * bs.length := by
  induction bs with
  | nil => rfl
  | cons b bs ih => simp [hexEncode, ih]; omega

theorem sha1Sum_length (msg : List UInt8) : (sha1Sum msg).length = 20 := by
  simp [sha1Sum, be32]

theorem BuildFingerprint_length {F : Type} (f : Finding F) : (BuildFingerprint f).length = 16 := by
  simp [BuildFingerprint, hexEncode_length, sha1Sum_length]

/-- C1, as stated, fails: `findingA` and `findingB` differ in RuleID and in Match, and
`BuildFingerprint` gives both the same string, because both render to `a|1|b|c|d`. -/
theorem BuildFingerprint_collision :
    findingA.RuleID ≠ findingB.RuleID ∧ findingA.Match ≠ findingB.Match
      ∧ BuildFingerprint findingA = BuildFingerprint findingB := by
  refine ⟨by decide, by decide, ?_⟩
  have h : fingerprintInput findingA = fingerprintInput findingB := by decide
  simp only [BuildFingerprint, h]

/-- C1, amended: two findings that agree on File, Line, RuleID and Match have the same
fingerprint, and a fingerprint is 16 bytes long. -/
theorem BuildFingerprint_deterministic {F : Type} (f g : Finding F)
    (hFile : f.File = g.File) (hLine : f.Line = g.Line) (hRule : f.RuleID = g.RuleID)
    (hMatch : f.Match = g.Match) :
    BuildFingerprint f = BuildFingerprint g ∧ (BuildFingerprint f).length = 16 := by
  refine ⟨?_, BuildFingerprint_length f⟩
  simp only [BuildFingerprint, fingerprintInput, hFile, hLine, hRule, hMatch]

/-- Witness of C1: `findingA` and `findingA2` differ in Description and Severity only. -/
theorem BuildFingerprint_deterministic_witness :
    findingA ≠ findingA2
      ∧ BuildFingerprint findingA = BuildFingerprint findingA2
      ∧ (BuildFingerprint findingA).length = 16 :=
  ⟨by decide, BuildFingerprint_deterministic findingA findingA2 rfl rfl rfl rfl⟩

/-! ## The baseline: `WriteBaseline`, `LoadBaseline`, `IsIgnored` -/

theorem GoMap.get?_set_self {κ ν : Type} [DecidableEq κ] (m : GoMap κ ν) (k : κ) (v : ν) :
    (GoMap.set m k v).get? k = some v := by
  induction m with
  | nil => simp [GoMap.set, GoMap.get?]
  | cons p m ih =>
    obtain ⟨k1, v1⟩ := p
    by_cases h : k1 = k
    · simp [GoMap.set, GoMap.get?, h]
    · simp only [GoMap.get?] at ih
      simp [GoMap.set, GoMap.get?, h, ih]

theorem GoMap.get?_set_ne {κ ν : Type} [DecidableEq κ] (m : GoMap κ ν) (k k' : κ) (v : ν)
    (h : k' ≠ k) : (GoMap.set m k v).get? k' = m.get? k' := by
  induction m with
  | nil => simp [GoMap.set, GoMap.get?, Ne.symm h]
  | cons p m ih =>
    obtain ⟨k1, v1⟩ := p
    by_cases h1 : k1 = k
    · subst h1
      simp [GoMap.set, GoMap.get?, Ne.symm h]
    · simp only [GoMap.get?] at ih
      by_cases h2 : k1 = k'
      · subst h2
        simp [GoMap.set, GoMap.get?, h1]
      · simp [GoMap.set, GoMap.get?, h1, h2, ih]

/-- The state of the loop of `WriteBaseline` after the findings `fs`. -/
theorem writeLoop_snoc {F : Type} (pre : List (Finding F)) (f : Finding F) :
    (pre ++ [f]).foldl writeStep ([], []) = writeStep (pre.foldl writeStep ([], [])) f := by
  simp

theorem firstIndexOf_snoc_of_mem {F : Type} (pre : List (Finding F)) (f : Finding F)
    (a : GoString) (h : a ∈ pre.map effectiveFingerprint) :
    firstIndexOf (pre ++ [f]) a = firstIndexOf pre a ∧ firstIndexOf pre a < pre.length := by
  have hlt : pre.findIdx (fun g => decide (effectiveFingerprint g = a)) < pre.length := by
    apply List.findIdx_lt_length_of_exists
    obtain ⟨x, hx, hxa⟩ := List.mem_map.1 h
    exact ⟨x, hx, by simpa using hxa⟩
  simp [firstIndexOf, List.findIdx_append, hlt]

theorem firstIndexOf_snoc_of_not_mem {F : Type} (pre : List (Finding F)) (f : Finding F)
    (h : effectiveFingerprint f ∉ pre.map effectiveFingerprint) :
    firstIndexOf (pre ++ [f]) (effectiveFingerprint f) = pre.length := by
  have hge : pre.findIdx (fun g => decide (effectiveFingerprint g = effectiveFingerprint f))
      = pre.length := by
    apply List.findIdx_eq_length_of_false
    intro x hx
    simp only [decide_eq_false_iff_not]
    exact fun hxa => h (List.mem_map.2 ⟨x, hx, hxa⟩)
  simp [firstIndexOf, List.findIdx_append, hge, List.findIdx_cons]

/-- The loop body of `WriteBaseline` files `f` under `effectiveFingerprint f`. -/
theorem writeStep_eq {F : Type} (st : GoMap GoString Bool × List BaselineEntry) (f : Finding F) :
    writeStep st f
      = if (st.1.get? (effectiveFingerprint f)).getD false then st
        else (st.1.set (effectiveFingerprint f) true,
          st.2 ++ [{ Fingerprint := effectiveFingerprint f, RuleID := f.RuleID, Comment := [] }]) :=
  rfl

theorem writeLoop_inv {F : Type} (findings : List (Finding F)) :
    (∀ fp, ((findings.foldl writeStep ([], [])).1.get? fp).getD false = true
        ↔ fp ∈ (baselineEntries findings).map (fun e => e.Fingerprint))
    ∧ ((baselineEntries findings).map (fun e => e.Fingerprint)).Nodup
    ∧ (∀ fp, fp ∈ (baselineEntries findings).map (fun e => e.Fingerprint)
        ↔ fp ∈ findings.map effectiveFingerprint)
    ∧ ((baselineEntries findings).map (fun e => e.Fingerprint)).Pairwise
        (fun a b => firstIndexOf findings a < firstIndexOf findings b)
    ∧ (∀ e ∈ baselineEntries findings, e.Comment = [] ∧
        ∃ f, findings.find? (fun f => decide (effectiveFingerprint f = e.Fingerprint)) = some f
          ∧ e.RuleID = f.RuleID) := by
  induction findings using List.reverseRecOn with
  | nil => simp [baselineEntries, GoMap.get?]
  | append_singleton pre f ih =>
    obtain ⟨i1, i2, i3, i4, i5⟩ := ih
    simp only [baselineEntries] at i1 i2 i3 i4 i5 ⊢
    rw [writeLoop_snoc]
    generalize pre.foldl writeStep ([], []) = st at i1 i2 i3 i4 i5 ⊢
    by_cases hs : (st.1.get? (effectiveFingerprint f)).getD false = true
    · have hw : writeStep st f = st := by simp [writeStep_eq, hs]
      rw [hw]
      have he : effectiveFingerprint f ∈ st.2.map (fun e => e.Fingerprint) := (i1 _).1 hs
      refine ⟨i1, i2, ?_, ?_, ?_⟩
      · intro fp
        rw [i3]
        simp only [List.map_append, List.mem_append, List.map_cons, List.map_nil,
          List.mem_singleton]
        constructor
        · exact Or.inl
        · rintro (h | h)
          · exact h
          · rw [h]; exact (i3 _).1 he
      · refine i4.imp_of_mem ?_
        intro a b ha hb hab
        rw [(firstIndexOf_snoc_of_mem pre f a ((i3 a).1 ha)).1,
          (firstIndexOf_snoc_of_mem pre f b ((i3 b).1 hb)).1]
        exact hab
      · intro e hmem
        obtain ⟨hc, g, hg, hr⟩ := i5 e hmem
        exact ⟨hc, g, by simp [List.find?_append, hg], hr⟩
    · have hw : writeStep st f = (st.1.set (effectiveFingerprint f) true,
          st.2 ++ [{ Fingerprint := effectiveFingerprint f, RuleID := f.RuleID, Comment := [] }]) := by
        simp [writeStep_eq, hs]
      rw [hw]
      have he : effectiveFingerprint f ∉ st.2.map (fun e => e.Fingerprint) :=
        fun h => hs ((i1 _).2 h)
      have he' : effectiveFingerprint f ∉ pre.map effectiveFingerprint :=
        fun h => he ((i3 _).2 h)
      refine ⟨?_, ?_, ?_, ?_, ?_⟩
      · intro fp
        by_cases hfp : fp = effectiveFingerprint f
        · subst hfp
          simp [GoMap.get?_set_self]
        · rw [GoMap.get?_set_ne _ _ _ _ hfp, i1]
          simp [hfp]
      · simp only [List.map_append, List.map_cons, List.map_nil]
        rw [List.nodup_append]
        exact ⟨i2, List.nodup_singleton _, by
          intro a ha hb
          rw [List.mem_singleton] at hb
          exact he (hb ▸ ha)⟩
      · intro fp
        simp only [List.map_append, List.mem_append, List.map_cons, List.map_nil,
          List.mem_singleton, i3]
      · simp only [List.map_append, List.map_cons, List.map_nil]
        rw [List.pairwise_append]
        refine ⟨?_, List.pairwise_singleton _ _, ?_⟩
        · refine i4.imp_of_mem ?_
          intro a b ha hb hab
          rw [(firstIndexOf_snoc_of_mem pre f a ((i3 a).1 ha)).1,
            (firstIndexOf_snoc_of_mem pre f b ((i3 b).1 hb)).1]
          exact hab
        · intro a ha b hb
          rw [List.mem_singleton] at hb
          subst hb
          rw [(firstIndexOf_snoc_of_mem pre f a ((i3 a).1 ha)).1,
            firstIndexOf_snoc_of_not_mem pre f he']
          exact (firstIndexOf_snoc_of_mem pre f a ((i3 a).1 ha)).2
      · intro e hmem
        rw [List.mem_append, List.mem_singleton] at hmem
        rcases hmem with hmem | hmem
        · obtain ⟨hc, g, hg, hr⟩ := i5 e hmem
          exact ⟨hc, g, by simp [List.find?_append, hg], hr⟩
        · subst hmem
          refine ⟨rfl, f, ?_, rfl⟩
          have hnone : pre.find? (fun g => decide (effectiveFingerprint g = effectiveFingerprint f)) = none := by
            rw [List.find?_eq_none]
            intro x hx hpx
            exact he' (List.mem_map.2 ⟨x, hx, by simpa using hpx⟩)
          simp [List.find?_append, hnone]


theorem foldl_set_get?_isSome (entries : List BaselineEntry) (m0 : GoMap GoString BaselineEntry)
    (k : GoString) :
    ((entries.foldl (fun m e => m.set e.Fingerprint e) m0).get? k).isSome = true
      ↔ (m0.get? k).isSome = true ∨ k ∈ entries.map (fun e => e.Fingerprint) := by
  induction entries generalizing m0 with
  | nil => simp
  | cons e es ih =>
    rw [List.foldl_cons, ih]
    by_cases hk : k = e.Fingerprint
    · subst hk
      simp [GoMap.get?_set_self]
    · rw [GoMap.get?_set_ne _ _ _ _ hk]
      simp [hk]

theorem buildLookup_get?_isSome (entries : List BaselineEntry) (k : GoString) :
    ((buildLookup entries).get? k).isSome = true ↔ k ∈ entries.map (fun e => e.Fingerprint) := by
  rw [buildLookup, foldl_set_get?_isSome]
  simp [GoMap.get?]

theorem readFile_writeFile {C : Type} (fs fs1 : FileStore C) (path : GoString) (data : C)
    (h : fs.writeFile path data = .ok fs1) : fs1.readFile path = .ok data := by
  unfold FileStore.writeFile at h
  split at h
  · cases h
  · cases h
    simp [FileStore.readFile, GoMap.get?_set_self]

/-- C3: the entries `WriteBaseline` builds have pairwise distinct fingerprints. Every
finding with a non-empty Fingerprint has that Fingerprint among them, every finding
with an empty Fingerprint has `BuildFingerprint` of it among them, and every entry
arises in one of these two ways. The entries stand in the order in which their
fingerprint first occurs among the findings; each carries an empty comment and the
RuleID of the first finding with its fingerprint. The value written has version 1 and
these entries, and it is what the file holds after a successful write. For the
findings `findingB`, `findingE`, `findingA`, `findingB`, of which the first and the
third have no Fingerprint and the same `BuildFingerprint`, two entries are built. -/
theorem WriteBaseline_entries {F : Type} (findings : List (Finding F)) :
    ((baselineEntries findings).map (fun e => e.Fingerprint)).Nodup
    ∧ (∀ f ∈ findings, f.Fingerprint ≠ [] →
        f.Fingerprint ∈ (baselineEntries findings).map (fun e => e.Fingerprint))
    ∧ (∀ f ∈ findings, f.Fingerprint = [] →
        BuildFingerprint f ∈ (baselineEntries findings).map (fun e => e.Fingerprint))
    ∧ (∀ e ∈ baselineEntries findings, ∃ f ∈ findings,
        (f.Fingerprint ≠ [] ∧ e.Fingerprint = f.Fingerprint)
          ∨ (f.Fingerprint = [] ∧ e.Fingerprint = BuildFingerprint f))
    ∧ ((baselineEntries findings).map (fun e => e.Fingerprint)).Pairwise
        (fun a b =>
          findings.findIdx (fun f =>
              decide ((if f.Fingerprint = [] then BuildFingerprint f else f.Fingerprint) = a))
            < findings.findIdx (fun f =>
              decide ((if f.Fingerprint = [] then BuildFingerprint f else f.Fingerprint) = b)))
    ∧ (∀ e ∈ baselineEntries findings, e.Comment = [] ∧
        ∃ f, findings.find? (fun f =>
              decide ((if f.Fingerprint = [] then BuildFingerprint f else f.Fingerprint)
                = e.Fingerprint)) = some f
          ∧ e.RuleID = f.RuleID)
    ∧ (baselineOf findings).Version = 1
    ∧ (baselineOf findings).Entries = baselineEntries findings
    ∧ (∀ (C : Type) (codec : JSONCodec C) (fs fs1 : FileStore C) (path : GoString),
        WriteBaseline codec fs path findings = .ok fs1 →
          fs1.readFile path = .ok (codec.marshal (baselineOf findings)))
    ∧ baselineEntries [findingB, findingE, findingA, findingB]
        = [{ Fingerprint := str "4a6ce8371245d34c", RuleID := str "b", Comment := [] },
           { Fingerprint := str "clé-1", RuleID := str "b|c", Comment := [] }] := by
  obtain ⟨_, i2, i3, i4, i5⟩ := writeLoop_inv findings
  refine ⟨i2, ?_, ?_, ?_, i4, i5, rfl, rfl, ?_, by decide!⟩
  · intro f hf hne
    refine (i3 _).2 (List.mem_map.2 ⟨f, hf, ?_⟩)
    simp [effectiveFingerprint, hne]
  · intro f hf he
    refine (i3 _).2 (List.mem_map.2 ⟨f, hf, ?_⟩)
    simp [effectiveFingerprint, he]
  · intro e he
    obtain ⟨f, hf, hfe⟩ := List.mem_map.1 ((i3 _).1 (List.mem_map.2 ⟨e, he, rfl⟩))
    refine ⟨f, hf, ?_⟩
    by_cases h : f.Fingerprint = []
    · right
      refine ⟨h, ?_⟩
      rw [← hfe]
      simp [effectiveFingerprint, h]
    · left
      refine ⟨h, ?_⟩
      rw [← hfe]
      simp [effectiveFingerprint, h]
  · intro C codec fs fs1 path h
    exact readFile_writeFile fs fs1 path _ h

theorem UInt8.ofNat_toNat_self (b : UInt8) : UInt8.ofNat b.toNat = b := by
  cases b with
  | mk v => simp [UInt8.ofNat, UInt8.toNat]

theorem byteIn_iff (lo hi : Nat) (b : UInt8) :
    byteIn lo hi b = true ↔ lo ≤ b.toNat ∧ b.toNat ≤ hi := by
  simp [byteIn]

theorem isCont_iff (b : UInt8) : isCont b = true ↔ 0x80 ≤ b.toNat ∧ b.toNat ≤ 0xBF := by
  simp [isCont]

/-- A byte below `0x80` decodes to itself and is encoded as itself. -/
theorem encodeRune_decode1 (b0 : UInt8) (h0 : b0.toNat < 0x80) :
    encodeRune b0.toNat = [b0] := by
  simp [encodeRune, h0, UInt8.ofNat_toNat_self]

/-- A well-formed sequence of two bytes is the encoding of the rune it decodes to. -/
theorem encodeRune_decode2 (b0 b1 : UInt8) (h0 : 0xC2 ≤ b0.toNat ∧ b0.toNat ≤ 0xDF)
    (h1 : 0x80 ≤ b1.toNat ∧ b1.toNat ≤ 0xBF) :
    encodeRune ((b0.toNat % 32) * 64 + b1.toNat % 64) = [b0, b1] := by
  have e0 : 0xC0 + ((b0.toNat % 32) * 64 + b1.toNat % 64) / 64 = b0.toNat := by omega
  have e1 : 0x80 + ((b0.toNat % 32) * 64 + b1.toNat % 64) % 64 = b1.toNat := by omega
  have r1 : ¬ (b0.toNat % 32) * 64 + b1.toNat % 64 < 0x80 := by omega
  have r2 : (b0.toNat % 32) * 64 + b1.toNat % 64 < 0x800 := by omega
  simp only [encodeRune, r1, r2, if_true, if_false, e0, e1, UInt8.ofNat_toNat_self]

/-- A well-formed sequence of three bytes is the encoding of the rune it decodes to. -/
theorem encodeRune_decode3 (b0 b1 b2 : UInt8) (h0 : 0xE0 ≤ b0.toNat ∧ b0.toNat ≤ 0xEF)
    (h1 : 0x80 ≤ b1.toNat ∧ b1.toNat ≤ 0xBF) (h2 : 0x80 ≤ b2.toNat ∧ b2.toNat ≤ 0xBF)
    (hlo : b0.toNat = 0xE0 → 0xA0 ≤ b1.toNat) (hhi : b0.toNat = 0xED → b1.toNat ≤ 0x9F) :
    encodeRune ((b0.toNat % 16) * 4096 + (b1.toNat % 64) * 64 + b2.toNat % 64)
      = [b0, b1, b2] := by
  have e0 : 0xE0 + ((b0.toNat % 16) * 4096 + (b1.toNat % 64) * 64 + b2.toNat % 64) / 4096
      = b0.toNat := by omega
  have e1 : 0x80 + ((b0.toNat % 16) * 4096 + (b1.toNat % 64) * 64 + b2.toNat % 64) / 64 % 64
      = b1.toNat := by omega
  have e2 : 0x80 + ((b0.toNat % 16) * 4096 + (b1.toNat % 64) * 64 + b2.toNat % 64) % 64
      = b2.toNat := by omega
  have r1 : ¬ (b0.toNat % 16) * 4096 + (b1.toNat % 64) * 64 + b2.toNat % 64 < 0x80 := by omega
  have r2 : ¬ (b0.toNat % 16) * 4096 + (b1.toNat % 64) * 64 + b2.toNat % 64 < 0x800 := by omega
  have r3 : ¬ ((b0.toNat % 16) * 4096 + (b1.toNat % 64) * 64 + b2.toNat % 64 > 0x10FFFF
      ∨ (0xD800 ≤ (b0.toNat % 16) * 4096 + (b1.toNat % 64) * 64 + b2.toNat % 64
        ∧ (b0.toNat % 16) * 4096 + (b1.toNat % 64) * 64 + b2.toNat % 64 ≤ 0xDFFF)) := by omega
  have r4 : (b0.toNat % 16) * 4096 + (b1.toNat % 64) * 64 + b2.toNat % 64 < 0x10000 := by omega
  simp only [encodeRune, r1, r2, r3, r4, if_true, if_false, e0, e1, e2, UInt8.ofNat_toNat_self]

/-- A well-formed sequence of four bytes is the encoding of the rune it decodes to. -/
theorem encodeRune_decode4 (b0 b1 b2 b3 : UInt8) (h0 : 0xF0 ≤ b0.toNat ∧ b0.toNat ≤ 0xF4)
    (h1 : 0x80 ≤ b1.toNat ∧ b1.toNat ≤ 0xBF) (h2 : 0x80 ≤ b2.toNat ∧ b2.toNat ≤ 0xBF)
    (h3 : 0x80 ≤ b3.toNat ∧ b3.toNat ≤ 0xBF)
    (hlo : b0.toNat = 0xF0 → 0x90 ≤ b1.toNat) (hhi : b0.toNat = 0xF4 → b1.toNat ≤ 0x8F) :
    encodeRune ((b0.toNat % 8) * 262144 + (b1.toNat % 64) * 4096 + (b2.toNat % 64) * 64
        + b3.toNat % 64)
      = [b0, b1, b2, b3] := by
  have e0 : 0xF0 + ((b0.toNat % 8) * 262144 + (b1.toNat % 64) * 4096 + (b2.toNat % 64) * 64
      + b3.toNat % 64) / 262144 = b0.toNat := by omega
  have e1 : 0x80 + ((b0.toNat % 8) * 262144 + (b1.toNat % 64) * 4096 + (b2.toNat % 64) * 64
      + b3.toNat % 64) / 4096 % 64 = b1.toNat := by omega
  have e2 : 0x80 + ((b0.toNat % 8) * 262144 + (b1.toNat % 64) * 4096 + (b2.toNat % 64) * 64
      + b3.toNat % 64) / 64 % 64 = b2.toNat := by omega
  have e3 : 0x80 + ((b0.toNat % 8) * 262144 + (b1.toNat % 64) * 4096 + (b2.toNat % 64) * 64
      + b3.toNat % 64) % 64 = b3.toNat := by omega
  have r1 : ¬ (b0.toNat % 8) * 262144 + (b1.toNat % 64) * 4096 + (b2.toNat % 64) * 64
      + b3.toNat % 64 < 0x80 := by omega
  have r2 : ¬ (b0.toNat % 8) * 262144 + (b1.toNat % 64) * 4096 + (b2.toNat % 64) * 64
      + b3.toNat % 64 < 0x800 := by omega
  have r3 : ¬ ((b0.toNat % 8) * 262144 + (b1.toNat % 64) * 4096 + (b2.toNat % 64) * 64
      + b3.toNat % 64 > 0x10FFFF
      ∨ (0xD800 ≤ (b0.toNat % 8) * 262144 + (b1.toNat % 64) * 4096 + (b2.toNat % 64) * 64
          + b3.toNat % 64
        ∧ (b0.toNat % 8) * 262144 + (b1.toNat % 64) * 4096 + (b2.toNat % 64) * 64
          + b3.toNat % 64 ≤ 0xDFFF)) := by omega
  have r4 : ¬ (b0.toNat % 8) * 262144 + (b1.toNat % 64) * 4096 + (b2.toNat % 64) * 64
      + b3.toNat % 64 < 0x10000 := by omega
  simp only [encodeRune, r1, r2, r3, r4, if_true, if_false, e0, e1, e2, e3,
    UInt8.ofNat_toNat_self]

/-- The first rune of a non-empty well-formed string: it decodes without error, its
encoding is the bytes it was decoded from, and the rest is well formed. -/
theorem validUTF8_step (b0 : UInt8) (rest : GoString) (h : validUTF8 (b0 :: rest) = true) :
    ∃ tail, (b0 :: rest) = encodeRune (decodeRune (b0 :: rest)).1 ++ tail
      ∧ (b0 :: rest).drop (decodeRune (b0 :: rest)).2 = tail
      ∧ validUTF8 tail = true ∧ tail.length < (b0 :: rest).length := by
  unfold validUTF8 at h
  by_cases c1 : byteIn 0x00 0x7F b0 = true
  · rw [if_pos c1] at h
    rw [byteIn_iff] at c1
    have hx : b0.toNat < 0x80 := by omega
    refine ⟨rest, ?_, ?_, h, by simp⟩
    · simp [decodeRune, hx, encodeRune_decode1 b0 hx]
    · simp [decodeRune, hx]
  · rw [if_neg c1] at h
    rw [byteIn_iff] at c1
    cases rest with
    | nil => simp at h
    | cons b1 rest1 =>
      dsimp only at h
      by_cases c2 : byteIn 0xC2 0xDF b0 = true
      · rw [if_pos c2] at h
        rw [byteIn_iff] at c2
        simp only [Bool.and_eq_true, byteIn_iff] at h
        have hd : decodeRune (b0 :: b1 :: rest1)
            = ((b0.toNat % 32) * 64 + b1.toNat % 64, 2) := by
          have n1 : ¬ b0.toNat < 0x80 := by omega
          simp [decodeRune, n1, c2, isCont, h.1]
        refine ⟨rest1, ?_, ?_, h.2, by simp only [List.length_cons]; omega⟩
        · rw [hd]
          simp [encodeRune_decode2 b0 b1 c2 h.1]
        · rw [hd]
          simp
      · rw [if_neg c2] at h
        rw [byteIn_iff] at c2
        cases rest1 with
        | nil => simp at h
        | cons b2 rest2 =>
          dsimp only at h
          have three : ∀ (h0 : 0xE0 ≤ b0.toNat ∧ b0.toNat ≤ 0xEF)
              (h1 : 0x80 ≤ b1.toNat ∧ b1.toNat ≤ 0xBF) (h2 : 0x80 ≤ b2.toNat ∧ b2.toNat ≤ 0xBF)
              (hlo : b0.toNat = 0xE0 → 0xA0 ≤ b1.toNat) (hhi : b0.toNat = 0xED → b1.toNat ≤ 0x9F)
              (hv : validUTF8 rest2 = true),
              ∃ tail, (b0 :: b1 :: b2 :: rest2)
                  = encodeRune (decodeRune (b0 :: b1 :: b2 :: rest2)).1 ++ tail
                ∧ (b0 :: b1 :: b2 :: rest2).drop (decodeRune (b0 :: b1 :: b2 :: rest2)).2 = tail
                ∧ validUTF8 tail = true ∧ tail.length < (b0 :: b1 :: b2 :: rest2).length := by
            intro h0 h1 h2 hlo hhi hv
            have hd : decodeRune (b0 :: b1 :: b2 :: rest2)
                = ((b0.toNat % 16) * 4096 + (b1.toNat % 64) * 64 + b2.toNat % 64, 3) := by
              have n1 : ¬ b0.toNat < 0x80 := by omega
              have n2 : ¬ (0xC2 ≤ b0.toNat ∧ b0.toNat ≤ 0xDF) := by omega
              have hr : (if b0.toNat = 0xE0 then 0xA0 else 0x80) ≤ b1.toNat
                  ∧ b1.toNat ≤ (if b0.toNat = 0xED then 0x9F else 0xBF) := by
                constructor
                · split
                  · exact hlo (by assumption)
                  · exact h1.1
                · split
                  · exact hhi (by assumption)
                  · exact h1.2
              simp only [decodeRune, n1, n2, h0, isCont, h2, hr, and_self, if_true, if_false,
                decide_True]
            refine ⟨rest2, ?_, ?_, hv, by simp only [List.length_cons]; omega⟩
            · rw [hd]
              simp [encodeRune_decode3 b0 b1 b2 h0 h1 h2 hlo hhi]
            · rw [hd]
              simp
          by_cases c3 : byteIn 0xE0 0xE0 b0 = true
          · rw [if_pos c3] at h
            rw [byteIn_iff] at c3
            simp only [Bool.and_eq_true, byteIn_iff] at h
            exact three (by omega) (by omega) h.1.2 (fun _ => h.1.1.1) (fun _ => by omega) h.2
          · rw [if_neg c3] at h
            rw [byteIn_iff] at c3
            by_cases c4 : byteIn 0xE1 0xEC b0 = true
            · rw [if_pos c4] at h
              rw [byteIn_iff] at c4
              simp only [Bool.and_eq_true, byteIn_iff] at h
              exact three (by omega) h.1.1 h.1.2 (fun _ => by omega) (fun _ => by omega) h.2
            · rw [if_neg c4] at h
              rw [byteIn_iff] at c4
              by_cases c5 : byteIn 0xED 0xED b0 = true
              · rw [if_pos c5] at h
                rw [byteIn_iff] at c5
                simp only [Bool.and_eq_true, byteIn_iff] at h
                exact three (by omega) (by omega) h.1.2 (fun _ => by omega) (fun _ => h.1.1.2) h.2
              · rw [if_neg c5] at h
                rw [byteIn_iff] at c5
                by_cases c6 : byteIn 0xEE 0xEF b0 = true
                · rw [if_pos c6] at h
                  rw [byteIn_iff] at c6
                  simp only [Bool.and_eq_true, byteIn_iff] at h
                  exact three (by omega) h.1.1 h.1.2 (fun _ => by omega) (fun _ => by omega) h.2
                · rw [if_neg c6] at h
                  rw [byteIn_iff] at c6
                  cases rest2 with
                  | nil => simp at h
                  | cons b3 rest3 =>
                    dsimp only at h
                    have four : ∀ (h0 : 0xF0 ≤ b0.toNat ∧ b0.toNat ≤ 0xF4)
                        (h1 : 0x80 ≤ b1.toNat ∧ b1.toNat ≤ 0xBF)
                        (h2 : 0x80 ≤ b2.toNat ∧ b2.toNat ≤ 0xBF)
                        (h3 : 0x80 ≤ b3.toNat ∧ b3.toNat ≤ 0xBF)
                        (hlo : b0.toNat = 0xF0 → 0x90 ≤ b1.toNat)
                        (hhi : b0.toNat = 0xF4 → b1.toNat ≤ 0x8F)
                        (hv : validUTF8 rest3 = true),
                        ∃ tail, (b0 :: b1 :: b2 :: b3 :: rest3)
                            = encodeRune (decodeRune (b0 :: b1 :: b2 :: b3 :: rest3)).1 ++ tail
                          ∧ (b0 :: b1 :: b2 :: b3 :: rest3).drop
                              (decodeRune (b0 :: b1 :: b2 :: b3 :: rest3)).2 = tail
                          ∧ validUTF8 tail = true
                          ∧ tail.length < (b0 :: b1 :: b2 :: b3 :: rest3).length := by
                      intro h0 h1 h2 h3 hlo hhi hv
                      have hd : decodeRune (b0 :: b1 :: b2 :: b3 :: rest3)
                          = ((b0.toNat % 8) * 262144 + (b1.toNat % 64) * 4096
                              + (b2.toNat % 64) * 64 + b3.toNat % 64, 4) := by
                        have n1 : ¬ b0.toNat < 0x80 := by omega
                        have n2 : ¬ (0xC2 ≤ b0.toNat ∧ b0.toNat ≤ 0xDF) := by omega
                        have n3 : ¬ (0xE0 ≤ b0.toNat ∧ b0.toNat ≤ 0xEF) := by omega
                        have hr : (if b0.toNat = 0xF0 then 0x90 else 0x80) ≤ b1.toNat
                            ∧ b1.toNat ≤ (if b0.toNat = 0xF4 then 0x8F else 0xBF) := by
                          constructor
                          · split
                            · exact hlo (by assumption)
                            · exact h1.1
                          · split
                            · exact hhi (by assumption)
                            · exact h1.2
                        simp only [decodeRune, n1, n2, n3, h0, isCont, h2, h3, hr, and_self,
                          if_true, if_false, decide_True]
                      refine ⟨rest3, ?_, ?_, hv, by simp only [List.length_cons]; omega⟩
                      · rw [hd]
                        simp [encodeRune_decode4 b0 b1 b2 b3 h0 h1 h2 h3 hlo hhi]
                      · rw [hd]
                        simp
                    by_cases c7 : byteIn 0xF0 0xF0 b0 = true
                    · rw [if_pos c7] at h
                      rw [byteIn_iff] at c7
                      simp only [Bool.and_eq_true, byteIn_iff] at h
                      exact four (by omega) (by omega) h.1.1.2 h.1.2 (fun _ => h.1.1.1.1)
                        (fun _ => by omega) h.2
                    · rw [if_neg c7] at h
                      rw [byteIn_iff] at c7
                      by_cases c8 : byteIn 0xF1 0xF3 b0 = true
                      · rw [if_pos c8] at h
                        rw [byteIn_iff] at c8
                        simp only [Bool.and_eq_true, byteIn_iff] at h
                        exact four (by omega) h.1.1.1 h.1.1.2 h.1.2 (fun _ => by omega)
                          (fun _ => by omega) h.2
                      · rw [if_neg c8] at h
                        rw [byteIn_iff] at c8
                        by_cases c9 : byteIn 0xF4 0xF4 b0 = true
                        · rw [if_pos c9] at h
                          rw [byteIn_iff] at c9
                          simp only [Bool.and_eq_true, byteIn_iff] at h
                          exact four (by omega) (by omega) h.1.1.2 h.1.2 (fun _ => by omega)
                            (fun _ => h.1.1.1.2) h.2
                        · rw [if_neg c9] at h
                          simp at h

theorem decodeRunesAux_encode_of_valid (n : Nat) :
    ∀ (s : GoString) (fuel : Nat), s.length ≤ n → s.length ≤ fuel → validUTF8 s = true →
      (decodeRunesAux fuel s).flatMap encodeRune = s := by
  induction n with
  | zero =>
    intro s fuel hn _ _
    have hs : s = [] := List.length_eq_zero.1 (Nat.le_zero.1 hn)
    subst hs
    cases fuel <;> simp [decodeRunesAux]
  | succ n ih =>
    intro s fuel hn hfuel hv
    cases s with
    | nil => cases fuel <;> simp [decodeRunesAux]
    | cons b0 rest =>
      cases fuel with
      | zero => simp at hfuel
      | succ fuel =>
        obtain ⟨tail, h1, h2, h3, h4⟩ := validUTF8_step b0 rest hv
        simp only [List.length_cons] at hn hfuel h4
        simp only [decodeRunesAux, List.flatMap_cons]
        rw [h2, ih tail fuel (by omega) (by omega) h3]
        exact h1.symm

/-- The package `encoding/json` reads a well-formed UTF-8 string back as it was. -/
theorem jsonString_of_validUTF8 (s : GoString) (h : validUTF8 s = true) : jsonString s = s :=
  decodeRunesAux_encode_of_valid s.length s s.length (Nat.le_refl _) (Nat.le_refl _) h

/-- After `WriteBaseline` and `LoadBaseline` through `encoding/json`, the fingerprints
`IsIgnored` answers true for are those of the entries built, as `encoding/json` reads
them back. -/
theorem roundtrip_ignored_iff {F G : Type} (fs fs1 : FileStore Baseline) (path : GoString)
    (findings : List (Finding F)) (b : Baseline)
    (hwrite : WriteBaseline goJSON fs path findings = .ok fs1)
    (hload : LoadBaseline goJSON fs1 path = .ok b) (g : Finding G) :
    IsIgnored (some b) g = true
      ↔ ∃ e ∈ baselineEntries findings, g.Fingerprint = jsonString e.Fingerprint := by
  have hread := readFile_writeFile fs fs1 path _ hwrite
  simp only [LoadBaseline, hread, goJSON] at hload
  cases hload
  simp only [IsIgnored, buildLookup_get?_isSome, baselineOf, List.map_map, List.mem_map,
    Function.comp, jsonEntry]
  constructor
  · rintro ⟨e, he, h⟩
    exact ⟨e, he, h.symm⟩
  · rintro ⟨e, he, h⟩
    exact ⟨e, he, h.symm⟩

/-- C2, as stated, fails: `findingA` has no fingerprint yet; it is written to an empty
store under the fingerprint `BuildFingerprint` computes, the baseline is loaded back, and
`IsIgnored` looks up the empty string and answers false. -/
theorem baseline_roundtrip_unfingerprinted :
    ∃ fs1 b, WriteBaseline goJSON emptyStore (str "baseline.json") [findingA] = .ok fs1
      ∧ LoadBaseline goJSON fs1 (str "baseline.json") = .ok b
      ∧ IsIgnored (some b) findingA = false :=
  ⟨_, _, rfl, rfl, by decide!⟩

/-- A second way for C2 to fail: the fingerprint of `findingD` is the byte `FF`, which
is not UTF-8; `encoding/json` writes `U+FFFD` in its place, the entry read back has the
fingerprint `EF BF BD`, and `IsIgnored` answers false for `findingD`. -/
theorem baseline_roundtrip_not_utf8 :
    ∃ fs1 b, WriteBaseline goJSON emptyStore (str "baseline.json") [findingD] = .ok fs1
      ∧ LoadBaseline goJSON fs1 (str "baseline.json") = .ok b
      ∧ b.Entries.map (fun e => e.Fingerprint) = [[0xEF, 0xBF, 0xBD]]
      ∧ validUTF8 findingD.Fingerprint = false
      ∧ IsIgnored (some b) findingD = false :=
  ⟨_, _, rfl, rfl, by decide!, by decide, by decide!⟩

/-- C2, amended: if `WriteBaseline` succeeds and `LoadBaseline` then returns `b`, the
file being read back as written through `encoding/json`, then `b.IsIgnored(f)` holds
for every finding `f` of the list whose Fingerprint is not empty and is well-formed
UTF-8. -/
theorem baseline_roundtrip {F : Type} (fs fs1 : FileStore Baseline) (path : GoString)
    (findings : List (Finding F)) (b : Baseline)
    (hwrite : WriteBaseline goJSON fs path findings = .ok fs1)
    (hload : LoadBaseline goJSON fs1 path = .ok b)
    (f : Finding F) (hf : f ∈ findings) (hfp : f.Fingerprint ≠ [])
    (hutf : validUTF8 f.Fingerprint = true) :
    IsIgnored (some b) f = true := by
  rw [roundtrip_ignored_iff fs fs1 path findings b hwrite hload f]
  have heff : effectiveFingerprint f = f.Fingerprint := by simp [effectiveFingerprint, hfp]
  obtain ⟨_, _, i3, _, _⟩ := writeLoop_inv findings
  obtain ⟨e, he, hfe⟩ := List.mem_map.1 ((i3 _).2 (List.mem_map.2 ⟨f, hf, heff⟩))
  exact ⟨e, he, by rw [hfe, jsonString_of_validUTF8 _ hutf]⟩

/-- Witness of C2: `findingC` carries a hexadecimal fingerprint and `findingE` a
fingerprint with the two-byte character `é`; written together to an empty store and
loaded back, both are ignored. -/
theorem baseline_roundtrip_witness :
    ∃ fs1 b,
      WriteBaseline goJSON emptyStore (str "baseline.json") [findingC, findingE] = .ok fs1
      ∧ LoadBaseline goJSON fs1 (str "baseline.json") = .ok b
      ∧ IsIgnored (some b) findingC = true
      ∧ IsIgnored (some b) findingE = true :=
  ⟨_, _, rfl, rfl,
    baseline_roundtrip emptyStore _ (str "baseline.json") [findingC, findingE] _ rfl rfl
      findingC (by simp) (by decide) (by decide),
    baseline_roundtrip emptyStore _ (str "baseline.json") [findingC, findingE] _ rfl rfl
      findingE (by simp) (by decide) (by decide)⟩

/-! ## Construction of the rule set -/

theorem except_ok_iff_not_error {α : Type} (x : Except GoError α) :
    (∃ a, x = .ok a) ↔ ¬ ∃ e, x = .error e := by
  cases x with
  | error e => simp
  | ok a => simp

theorem appendRules_error_iff {α β : Type} (f : α → Except GoError β) (cfgs : List α)
    (acc : List β) :
    (∃ e, appendRules f cfgs acc = .error e) ↔ ∃ c ∈ cfgs, ∃ e, f c = .error e := by
  induction cfgs generalizing acc with
  | nil => simp [appendRules]
  | cons c cs ih =>
    cases hc : f c with
    | error e => simp [appendRules, hc]
    | ok r => simp [appendRules, hc, ih]

theorem newPatternRule_error_iff {Re : Type} (rx : Regexp Re) (cfg : PatternRuleConfig) :
    (∃ e, newPatternRule rx cfg = .error e)
      ↔ cfg.ID = [] ∨ cfg.Regex = [] ∨ ∃ e, rx.compile cfg.Regex = .error e := by
  unfold newPatternRule
  by_cases h : cfg.ID = [] ∨ cfg.Regex = []
  · rw [if_pos h]
    constructor
    · intro _
      rcases h with h | h
      · exact Or.inl h
      · exact Or.inr (Or.inl h)
    · intro _
      exact ⟨_, rfl⟩
  · rw [if_neg h]
    have h1 : ¬ cfg.ID = [] := fun h1 => h (Or.inl h1)
    have h2 : ¬ cfg.Regex = [] := fun h2 => h (Or.inr h2)
    cases hc : rx.compile cfg.Regex with
    | error e => simp [h1, h2]
    | ok re => simp [h1, h2]

theorem newEntropyRule_error_iff {F : Type} (cfg : EntropyRuleConfig F) :
    (∃ e, newEntropyRule cfg = .error e) ↔ cfg.ID = [] ∨ cfg.MinLength ≤ 0 := by
  unfold newEntropyRule
  by_cases h : cfg.ID = [] ∨ cfg.MinLength ≤ 0
  · rw [if_pos h]
    exact ⟨fun _ => h, fun _ => ⟨_, rfl⟩⟩
  · rw [if_neg h]
    simp [h]

/-- C4: `NewRuleSet` returns an error (and no rule set) exactly when some pattern
configuration has an empty ID, an empty regex or a regex that does not compile, or some
entropy configuration has an empty ID or a MinLength that is zero or negative; it returns
a rule set (and no error) exactly when no configuration is of that kind. -/
theorem NewRuleSet_error_iff {Re F : Type} (rx : Regexp Re) (unicodeToLower : Nat → Nat)
    (files : List GoString) (patternCfgs : List PatternRuleConfig)
    (entropyCfgs : List (EntropyRuleConfig F)) :
    ((∃ e, NewRuleSet rx unicodeToLower files patternCfgs entropyCfgs = .error e)
      ↔ ((∃ c ∈ patternCfgs, c.ID = [] ∨ c.Regex = [] ∨ ∃ e, rx.compile c.Regex = .error e)
          ∨ (∃ c ∈ entropyCfgs, c.ID = [] ∨ c.MinLength ≤ 0)))
    ∧ ((∃ rs, NewRuleSet rx unicodeToLower files patternCfgs entropyCfgs = .ok rs)
      ↔ ¬ ((∃ c ∈ patternCfgs, c.ID = [] ∨ c.Regex = [] ∨ ∃ e, rx.compile c.Regex = .error e)
          ∨ (∃ c ∈ entropyCfgs, c.ID = [] ∨ c.MinLength ≤ 0))) := by
  have key : (∃ e, NewRuleSet rx unicodeToLower files patternCfgs entropyCfgs = .error e)
      ↔ ((∃ c ∈ patternCfgs, c.ID = [] ∨ c.Regex = [] ∨ ∃ e, rx.compile c.Regex = .error e)
          ∨ (∃ c ∈ entropyCfgs, c.ID = [] ∨ c.MinLength ≤ 0)) := by
    have hp := appendRules_error_iff (newPatternRule rx) patternCfgs []
    have he := appendRules_error_iff (newEntropyRule (F := F)) entropyCfgs []
    simp only [newPatternRule_error_iff] at hp
    simp only [newEntropyRule_error_iff] at he
    rw [← hp, ← he]
    unfold NewRuleSet
    cases h1 : appendRules (newPatternRule rx) patternCfgs [] with
    | error e => simp
    | ok prs =>
      cases h2 : appendRules newEntropyRule entropyCfgs [] with
      | error e => simp
      | ok ers => simp
  exact ⟨key, by rw [except_ok_iff_not_error, key]⟩

/-! ## Exit code -/

/-- An upper-case or mixed-case ASCII severity lowercases byte by byte, whatever the
Unicode table. -/
theorem ToLower_ascii_examples (lw : Nat → Nat) :
    ToLower lw (str "CRITICAL") = str "critical" ∧ ToLower lw (str "High") = str "high" :=
  ⟨rfl, rfl⟩

theorem str_critical_ne_high : str "critical" ≠ str "high" := by decide

theorem severityCounts_fold {F : Type} (lw : Nat → Nat) (fs : List (Finding F)) (init : Nat × Nat) :
    let cnt := fs.foldl
      (fun cnt f =>
        let sev := ToLower lw f.Severity
        if sev = str "critical" then (cnt.1 + 1, cnt.2)
        else if sev = str "high" then (cnt.1, cnt.2 + 1)
        else cnt) init
    (0 < cnt.1 ↔ 0 < init.1 ∨ ∃ f ∈ fs, ToLower lw f.Severity = str "critical")
    ∧ (0 < cnt.2 ↔ 0 < init.2 ∨ ∃ f ∈ fs, ToLower lw f.Severity = str "high") := by
  induction fs generalizing init with
  | nil => simp
  | cons f fs ih =>
    simp only [List.foldl_cons]
    by_cases hc : ToLower lw f.Severity = str "critical"
    · have hh : ToLower lw f.Severity ≠ str "high" := by
        rw [hc]; exact str_critical_ne_high
      have := ih (init.1 + 1, init.2)
      simp only [hc, if_true] at this ⊢
      simp only [List.mem_cons, exists_eq_or_imp, hc, true_or, or_true, iff_true]
      refine ⟨this.1.2 (Or.inl (Nat.succ_pos _)), ?_⟩
      rw [this.2]
      simp [hc, str_critical_ne_high]
    · by_cases hh : ToLower lw f.Severity = str "high"
      · have hne : ¬ str "high" = str "critical" := Ne.symm str_critical_ne_high
        have := ih (init.1, init.2 + 1)
        simp only [hh, hne, if_true, if_false] at this ⊢
        simp only [List.mem_cons, exists_eq_or_imp, hh, hne, true_or, or_true, iff_true,
          false_or]
        exact ⟨this.1, this.2.2 (Or.inl (Nat.succ_pos _))⟩
      · have := ih init
        simp only [hc, hh, if_false] at this ⊢
        simp only [List.mem_cons, exists_eq_or_imp, hc, hh, false_or]
        exact this

theorem decodeRunesAux_of_ascii (s : GoString) (hs : ∀ c ∈ s, c.toNat < 0x80) (fuel : Nat)
    (hfuel : s.length ≤ fuel) : decodeRunesAux fuel s = s.map (fun c => c.toNat) := by
  induction s generalizing fuel with
  | nil => cases fuel <;> simp [decodeRunesAux]
  | cons c s ih =>
    cases fuel with
    | zero => simp at hfuel
    | succ fuel =>
      have hc : c.toNat < 0x80 := hs c (List.mem_cons_self _ _)
      have hd : decodeRune (c :: s) = (c.toNat, 1) := by simp [decodeRune, hc]
      simp only [List.length_cons] at hfuel
      simp only [decodeRunesAux, hd, List.drop_succ_cons, List.drop_zero, List.map_cons]
      rw [ih (fun x hx => hs x (List.mem_cons_of_mem _ hx)) fuel (by omega)]

/-- The runes of an ASCII string are its bytes. -/
theorem decodeRunes_of_ascii (s : GoString) (hs : ∀ c ∈ s, c.toNat < 0x80) :
    decodeRunes s = s.map (fun c => c.toNat) :=
  decodeRunesAux_of_ascii s hs s.length (Nat.le_refl _)

theorem UInt8.toNat_ofNat_lt (n : Nat) (h : n < 256) : (UInt8.ofNat n).toNat = n := by
  simp [UInt8.ofNat, UInt8.toNat, Nat.mod_eq_of_lt h]

/-- The encoding of a rune that is not ASCII begins with a byte that is not ASCII. -/
theorem encodeRune_head (r : Nat) (hr : ¬ r < 0x80) :
    ∃ b tl, encodeRune r = b :: tl ∧ 0x80 ≤ b.toNat := by
  unfold encodeRune
  rw [if_neg hr]
  split
  · refine ⟨_, _, rfl, ?_⟩
    rw [UInt8.toNat_ofNat_lt _ (by omega)]
    omega
  · split
    · exact ⟨_, _, rfl, by decide⟩
    · split
      · refine ⟨_, _, rfl, ?_⟩
        rw [UInt8.toNat_ofNat_lt _ (by omega)]
        omega
      · refine ⟨_, _, rfl, ?_⟩
        rw [UInt8.toNat_ofNat_lt _ (by omega)]
        omega

/-- A list of runes is encoded as the ASCII string `w` exactly when it is the list of
the bytes of `w`. -/
theorem flatMap_encodeRune_eq_ascii (l : List Nat) (w : GoString)
    (hw : ∀ c ∈ w, c.toNat < 0x80) :
    l.flatMap encodeRune = w ↔ l = w.map (fun c => c.toNat) := by
  induction l generalizing w with
  | nil =>
    cases w with
    | nil => simp
    | cons c w => simp
  | cons r l ih =>
    by_cases hr : r < 0x80
    · have he : encodeRune r = [UInt8.ofNat r] := by simp [encodeRune, hr]
      cases w with
      | nil => simp [he]
      | cons c w =>
        have hc : c.toNat < 0x80 := hw c (List.mem_cons_self _ _)
        simp only [List.flatMap_cons, he, List.singleton_append, List.cons.injEq, List.map_cons]
        rw [ih w (fun x hx => hw x (List.mem_cons_of_mem _ hx))]
        constructor
        · rintro ⟨h1, h2⟩
          refine ⟨?_, h2⟩
          rw [← h1, UInt8.toNat_ofNat_lt r (by omega)]
        · rintro ⟨h1, h2⟩
          refine ⟨?_, h2⟩
          rw [h1]
          cases c with
          | mk v => simp [UInt8.ofNat, UInt8.toNat]
    · obtain ⟨b, tl, he, hb⟩ := encodeRune_head r hr
      cases w with
      | nil => simp [he]
      | cons c w =>
        have hc : c.toNat < 0x80 := hw c (List.mem_cons_self _ _)
        simp only [List.flatMap_cons, he, List.cons_append, List.cons.injEq, List.map_cons]
        constructor
        · rintro ⟨h1, _⟩
          rw [h1] at hb
          omega
        · rintro ⟨h1, _⟩
          omega

theorem map_toNat_injective (a b : GoString)
    (h : a.map (fun c => c.toNat) = b.map (fun c => c.toNat)) : a = b := by
  induction a generalizing b with
  | nil =>
    cases b with
    | nil => rfl
    | cons c b => simp at h
  | cons x a ih =>
    cases b with
    | nil => simp at h
    | cons c b =>
      simp only [List.map_cons, List.cons.injEq] at h
      rw [UInt8.ext h.1, ih b h.2]

/-- The function `strings.ToLower` gives the lowercase ASCII word `w` exactly on the
strings that equal `w` ignoring letter case, when `unicode.ToLower` acts on ASCII as it
does in Go: `A`..`Z` go to `a`..`z` and every other ASCII character stays. -/
theorem ToLower_eq_iff (lw : Nat → Nat)
    (hascii : ∀ r, r < 0x80 → lw r = if 65 ≤ r ∧ r ≤ 90 then r + 32 else r)
    (s w : GoString) (hw : ∀ c ∈ w, c.toNat < 0x80 ∧ ¬ (65 ≤ c.toNat ∧ c.toNat ≤ 90)) :
    ToLower lw s = w ↔ equalsIgnoringCase lw s w := by
  have hw1 : ∀ c ∈ w, c.toNat < 0x80 := fun c hc => (hw c hc).1
  have hwr : (decodeRunes w).map lw = w.map (fun c => c.toNat) := by
    rw [decodeRunes_of_ascii w hw1, List.map_map]
    apply List.map_congr_left
    intro c hc
    simp only [Function.comp]
    rw [hascii _ (hw c hc).1, if_neg (hw c hc).2]
  unfold equalsIgnoringCase
  rw [hwr]
  unfold ToLower
  by_cases hs : s.all (fun c => decide (c.toNat < 0x80)) = true
  · rw [if_pos hs]
    have hs1 : ∀ c ∈ s, c.toNat < 0x80 := by
      intro c hc
      simpa using (List.all_eq_true.1 hs) c hc
    have hm : (decodeRunes s).map lw = (s.map asciiLower).map (fun c => c.toNat) := by
      rw [decodeRunes_of_ascii s hs1, List.map_map, List.map_map]
      apply List.map_congr_left
      intro c hc
      simp only [Function.comp]
      rw [hascii _ (hs1 c hc)]
      unfold asciiLower
      split
      · have := hs1 c hc
        rw [UInt8.toNat_ofNat_lt _ (by omega)]
      · rfl
    rw [hm]
    constructor
    · intro h
      rw [h]
    · intro h
      exact map_toNat_injective _ _ h
  · rw [if_neg hs]
    have hf : (decodeRunes s).flatMap (fun r => encodeRune (lw r))
        = ((decodeRunes s).map lw).flatMap encodeRune := by
      rw [List.flatMap_map]
    rw [hf]
    exact flatMap_encodeRune_eq_ascii _ w hw1

theorem critical_lower : ∀ c ∈ str "critical", c.toNat < 0x80 ∧ ¬ (65 ≤ c.toNat ∧ c.toNat ≤ 90) := by
  decide

theorem high_lower : ∀ c ∈ str "high", c.toNat < 0x80 ∧ ¬ (65 ≤ c.toNat ∧ c.toNat ≤ 90) := by
  decide

/-- C5: let `unicode.ToLower` act on ASCII as it does in Go. The exit code computed from
the findings left after baseline filtering is 2 when the severity of some finding
equals `critical` ignoring letter case; when none does, it is 1 if the severity of some
finding equals `high` ignoring letter case; when neither occurs it is 0. Equality
ignoring letter case is that of `equalsIgnoringCase`: `CRITICAL` equals `critical` and
`High` equals `high`, while `highest` does not equal `high`, nor `critical` `high`. -/
theorem exitCode_policy {F : Type} (unicodeToLower : Nat → Nat)
    (hascii : ∀ r, r < 0x80 → unicodeToLower r = if 65 ≤ r ∧ r ≤ 90 then r + 32 else r)
    (baseline : Option Baseline) (findings : List (Finding F)) :
    ((∃ f ∈ filterBaseline baseline findings,
          equalsIgnoringCase unicodeToLower f.Severity (str "critical")) →
        exitCode unicodeToLower (filterBaseline baseline findings) = 2)
    ∧ ((¬ ∃ f ∈ filterBaseline baseline findings,
          equalsIgnoringCase unicodeToLower f.Severity (str "critical")) →
        (∃ f ∈ filterBaseline baseline findings,
          equalsIgnoringCase unicodeToLower f.Severity (str "high")) →
        exitCode unicodeToLower (filterBaseline baseline findings) = 1)
    ∧ ((¬ ∃ f ∈ filterBaseline baseline findings,
          equalsIgnoringCase unicodeToLower f.Severity (str "critical")) →
        (¬ ∃ f ∈ filterBaseline baseline findings,
          equalsIgnoringCase unicodeToLower f.Severity (str "high")) →
        exitCode unicodeToLower (filterBaseline baseline findings) = 0)
    ∧ equalsIgnoringCase unicodeToLower (str "CRITICAL") (str "critical")
    ∧ equalsIgnoringCase unicodeToLower (str "High") (str "high")
    ∧ ¬ equalsIgnoringCase unicodeToLower (str "highest") (str "high")
    ∧ ¬ equalsIgnoringCase unicodeToLower (str "critical") (str "high") := by
  have hc : ∀ s, ToLower unicodeToLower s = str "critical"
      ↔ equalsIgnoringCase unicodeToLower s (str "critical") :=
    fun s => ToLower_eq_iff unicodeToLower hascii s _ critical_lower
  have hh : ∀ s, ToLower unicodeToLower s = str "high"
      ↔ equalsIgnoringCase unicodeToLower s (str "high") :=
    fun s => ToLower_eq_iff unicodeToLower hascii s _ high_lower
  refine ⟨?_, ?_, ?_, (hc _).1 rfl, (hh _).1 rfl, fun h => ?_, fun h => ?_⟩
  · generalize filterBaseline baseline findings = filtered
    obtain ⟨h1, h2⟩ := severityCounts_fold unicodeToLower filtered (0, 0)
    simp only [Nat.lt_irrefl, false_or] at h1 h2
    rintro ⟨f, hf, hfc⟩
    have := h1.2 ⟨f, hf, (hc _).2 hfc⟩
    simp only [exitCode, severityCounts, gt_iff_lt]
    rw [if_pos this]
  · generalize filterBaseline baseline findings = filtered
    obtain ⟨h1, h2⟩ := severityCounts_fold unicodeToLower filtered (0, 0)
    simp only [Nat.lt_irrefl, false_or] at h1 h2
    rintro hnc ⟨f, hf, hfh⟩
    have a : ¬ 0 < (filtered.foldl _ (0, 0)).1 := fun hpos =>
      hnc (by
        obtain ⟨g, hg, hgc⟩ := h1.1 hpos
        exact ⟨g, hg, (hc _).1 hgc⟩)
    have b := h2.2 ⟨f, hf, (hh _).2 hfh⟩
    simp only [exitCode, severityCounts, gt_iff_lt]
    rw [if_neg a, if_pos b]
  · generalize filterBaseline baseline findings = filtered
    obtain ⟨h1, h2⟩ := severityCounts_fold unicodeToLower filtered (0, 0)
    simp only [Nat.lt_irrefl, false_or] at h1 h2
    intro hnc hnh
    have a : ¬ 0 < (filtered.foldl _ (0, 0)).1 := fun hpos =>
      hnc (by
        obtain ⟨g, hg, hgc⟩ := h1.1 hpos
        exact ⟨g, hg, (hc _).1 hgc⟩)
    have b : ¬ 0 < (filtered.foldl _ (0, 0)).2 := fun hpos =>
      hnh (by
        obtain ⟨g, hg, hgh⟩ := h2.1 hpos
        exact ⟨g, hg, (hh _).1 hgh⟩)
    simp only [exitCode, severityCounts, gt_iff_lt]
    rw [if_neg a, if_neg b]
  · have e : ToLower unicodeToLower (str "highest") = str "highest" := rfl
    have := (hh _).2 h
    rw [e] at this
    exact absurd this (by decide)
  · have e : ToLower unicodeToLower (str "critical") = str "critical" := rfl
    have := (hh _).2 h
    rw [e] at this
    exact absurd this (by decide)

theorem sampleToLower_ascii (r : Nat) (hr : r < 0x80) :
    sampleToLower r = if 65 ≤ r ∧ r ≤ 90 then r + 32 else r := by
  unfold sampleToLower
  split
  · rfl
  · rw [if_neg (by omega), if_neg (by omega)]

/-- Witness of C5: of two findings with the severities `High` and `CRİTİCAL` (the
dotted capital `U+0130` twice), the second equals `critical` ignoring letter case and
the exit code is 2; with the severity `High` alone it is 1, and with `low` alone 0. -/
theorem exitCode_policy_witness :
    (∀ r, r < 0x80 → sampleToLower r = if 65 ≤ r ∧ r ≤ 90 then r + 32 else r)
    ∧ exitCode sampleToLower
        (filterBaseline none
          [{ findingA with Severity := str "High" }, { findingA with Severity := str "CRİTİCAL" }])
        = 2
    ∧ exitCode sampleToLower (filterBaseline none [{ findingA with Severity := str "High" }]) = 1
    ∧ exitCode sampleToLower (filterBaseline none [{ findingA with Severity := str "low" }]) = 0 :=
  ⟨sampleToLower_ascii,
    (exitCode_policy sampleToLower sampleToLower_ascii none
      [{ findingA with Severity := str "High" }, { findingA with Severity := str "CRİTİCAL" }]).1
      ⟨{ findingA with Severity := str "CRİTİCAL" }, by simp [filterBaseline],
        by simp only [equalsIgnoringCase]; decide⟩,
    by decide, by decide⟩

/-! ## The tree walk of `Scan` -/

mutual
theorem walkDir_inv {σ : Type} (P : σ → Prop) (join : GoString → GoString → GoString)
    (fn : σ → GoString → Option FSNode → Option GoError → σ × WalkResult)
    (hfn : ∀ st path d err, P st → P (fn st path d err).1)
    (path : GoString) (d : FSNode) (st : σ) (hst : P st) :
    P (walkDir join fn path d st).1 := by
  cases d with
  | file name info =>
    rw [walkDir]
    exact hfn _ _ _ _ hst
  | dir name readDirErr children =>
    have h1 := hfn st path (some (.dir name readDirErr children)) none hst
    cases readDirErr with
    | none =>
      rw [walkDir]
      split
      · exact h1
      · exact h1
      · exact walkEntries_inv P join fn hfn path children _ h1
    | some e =>
      rw [walkDir]
      have h2 := hfn _ path (some (.dir name (some e) children)) (some e) h1
      split
      · exact h1
      · exact h1
      · dsimp only
        split
        · exact h2
        · exact h2
        · exact walkEntries_inv P join fn hfn path children _ h2
theorem walkEntries_inv {σ : Type} (P : σ → Prop) (join : GoString → GoString → GoString)
    (fn : σ → GoString → Option FSNode → Option GoError → σ × WalkResult)
    (hfn : ∀ st path d err, P st → P (fn st path d err).1)
    (path : GoString) (dirs : List FSNode) (st : σ) (hst : P st) :
    P (walkEntries join fn path dirs st).1 := by
  cases dirs with
  | nil =>
    rw [walkEntries]
    exact hst
  | cons d1 rest =>
    rw [walkEntries]
    have h1 := walkDir_inv P join fn hfn (join path d1.Name) d1 st hst
    split
    · exact h1
    · exact h1
    · exact walkEntries_inv P join fn hfn path rest _ h1
end


mutual
theorem walkDir_no_err {σ : Type} (join : GoString → GoString → GoString)
    (fn : σ → GoString → Option FSNode → Option GoError → σ × WalkResult)
    (hfn : ∀ st path d err e, (fn st path d err).2 ≠ .err e)
    (path : GoString) (d : FSNode) (st : σ) (e : GoError) :
    (walkDir join fn path d st).2 ≠ .err e := by
  cases d with
  | file name info =>
    rw [walkDir]
    exact hfn _ _ _ _ e
  | dir name readDirErr children =>
    cases readDirErr with
    | none =>
      rw [walkDir]
      split
      · simp
      · rename_i e1 h1
        exact absurd h1 (hfn _ _ _ _ e1)
      · exact walkEntries_no_err join fn hfn path children _ e
    | some e0 =>
      rw [walkDir]
      split
      · simp
      · rename_i e1 h1
        exact absurd h1 (hfn _ _ _ _ e1)
      · dsimp only
        split
        · simp
        · rename_i e1 h1
          exact absurd h1 (hfn _ _ _ _ e1)
        · exact walkEntries_no_err join fn hfn path children _ e
theorem walkEntries_no_err {σ : Type} (join : GoString → GoString → GoString)
    (fn : σ → GoString → Option FSNode → Option GoError → σ × WalkResult)
    (hfn : ∀ st path d err e, (fn st path d err).2 ≠ .err e)
    (path : GoString) (dirs : List FSNode) (st : σ) (e : GoError) :
    (walkEntries join fn path dirs st).2 ≠ .err e := by
  cases dirs with
  | nil =>
    rw [walkEntries]
    simp
  | cons d1 rest =>
    rw [walkEntries]
    split
    · simp
    · rename_i e1 h1
      exact absurd h1 (walkDir_no_err join fn hfn _ d1 st e1)
    · exact walkEntries_no_err join fn hfn path rest _ e
end

mutual
theorem walkDir_sim {σ τ : Type} (proj : τ → σ) (join : GoString → GoString → GoString)
    (fn : σ → GoString → Option FSNode → Option GoError → σ × WalkResult)
    (fn2 : τ → GoString → Option FSNode → Option GoError → τ × WalkResult)
    (hfn : ∀ t path d err, fn (proj t) path d err = (proj (fn2 t path d err).1, (fn2 t path d err).2))
    (path : GoString) (d : FSNode) (t : τ) :
    walkDir join fn path d (proj t)
      = (proj (walkDir join fn2 path d t).1, (walkDir join fn2 path d t).2) := by
  cases d with
  | file name info =>
    rw [walkDir, walkDir]
    exact hfn _ _ _ _
  | dir name readDirErr children =>
    cases readDirErr with
    | none =>
      rw [walkDir, walkDir, hfn]
      dsimp only
      cases (fn2 t path (some (FSNode.dir name none children)) none).2 with
      | nil => exact walkEntries_sim proj join fn fn2 hfn path children _
      | SkipDir => rfl
      | err e => rfl
    | some e0 =>
      rw [walkDir, walkDir, hfn]
      dsimp only
      cases (fn2 t path (some (FSNode.dir name (some e0) children)) none).2 with
      | nil =>
        dsimp only
        rw [hfn]
        dsimp only
        cases (fn2 (fn2 t path (some (FSNode.dir name (some e0) children)) none).1 path
          (some (FSNode.dir name (some e0) children)) (some e0)).2 with
        | nil => exact walkEntries_sim proj join fn fn2 hfn path children _
        | SkipDir => rfl
        | err e => rfl
      | SkipDir => rfl
      | err e => rfl
theorem walkEntries_sim {σ τ : Type} (proj : τ → σ) (join : GoString → GoString → GoString)
    (fn : σ → GoString → Option FSNode → Option GoError → σ × WalkResult)
    (fn2 : τ → GoString → Option FSNode → Option GoError → τ × WalkResult)
    (hfn : ∀ t path d err, fn (proj t) path d err = (proj (fn2 t path d err).1, (fn2 t path d err).2))
    (path : GoString) (dirs : List FSNode) (t : τ) :
    walkEntries join fn path dirs (proj t)
      = (proj (walkEntries join fn2 path dirs t).1, (walkEntries join fn2 path dirs t).2) := by
  cases dirs with
  | nil =>
    rw [walkEntries, walkEntries]
  | cons d1 rest =>
    rw [walkEntries, walkEntries, walkDir_sim proj join fn fn2 hfn _ d1 t]
    dsimp only
    cases (walkDir join fn2 (join path d1.Name) d1 t).2 with
    | nil => exact walkEntries_sim proj join fn fn2 hfn path rest _
    | SkipDir => rfl
    | err e => rfl
end

theorem WalkDir_inv {σ : Type} (P : σ → Prop) (os : OS)
    (fn : σ → GoString → Option FSNode → Option GoError → σ × WalkResult)
    (hfn : ∀ st path d err, P st → P (fn st path d err).1)
    (root : GoString) (st : σ) (hst : P st) : P (WalkDir os fn root st).1 := by
  unfold WalkDir
  cases os.lstat root with
  | error e =>
    dsimp only
    have := hfn st root none (some e) hst
    split <;> exact this
  | ok d =>
    dsimp only
    have := walkDir_inv P os.join fn hfn root d st hst
    split <;> exact this

theorem WalkDir_no_err {σ : Type} (os : OS)
    (fn : σ → GoString → Option FSNode → Option GoError → σ × WalkResult)
    (hfn : ∀ st path d err e, (fn st path d err).2 ≠ .err e)
    (root : GoString) (st : σ) : (WalkDir os fn root st).2 = none := by
  unfold WalkDir
  cases os.lstat root with
  | error e0 =>
    dsimp only
    split
    · rename_i e h
      exact absurd h (hfn _ _ _ _ e)
    · rfl
  | ok d =>
    dsimp only
    split
    · rename_i e h
      exact absurd h (walkDir_no_err os.join fn hfn root d st e)
    · rfl

theorem WalkDir_sim {σ τ : Type} (proj : τ → σ) (os : OS)
    (fn : σ → GoString → Option FSNode → Option GoError → σ × WalkResult)
    (fn2 : τ → GoString → Option FSNode → Option GoError → τ × WalkResult)
    (hfn : ∀ t path d err, fn (proj t) path d err = (proj (fn2 t path d err).1, (fn2 t path d err).2))
    (root : GoString) (t : τ) :
    WalkDir os fn root (proj t)
      = (proj (WalkDir os fn2 root t).1, (WalkDir os fn2 root t).2) := by
  unfold WalkDir
  cases os.lstat root with
  | error e0 =>
    dsimp only
    rw [hfn]
    dsimp only
    cases (fn2 t root none (some e0)).2 <;> rfl
  | ok d =>
    dsimp only
    rw [walkDir_sim proj os.join fn fn2 hfn root d t]
    dsimp only
    cases (walkDir os.join fn2 root d t).2 <;> rfl

/-- The callback of `Scan` on a file whose `Info()` succeeds. -/
theorem scanWalkFn_file (opts : Options) (st : WalkState) (path name : GoString)
    (info : FileInfo) :
    scanWalkFn opts st path (some (.file name (.ok info))) none
      = if opts.MaxFileSizeBytes ≤ 0 ∨ info.Size ≤ opts.MaxFileSizeBytes then
          ({ st with jobs := st.jobs ++ [{ path := path, info := info }] }, .nil)
        else (st, .nil) := by
  simp only [scanWalkFn]
  by_cases h : opts.MaxFileSizeBytes > 0 ∧ info.Size > opts.MaxFileSizeBytes
  · rw [if_pos h, if_neg (by omega)]
  · rw [if_neg h, if_pos (by omega)]

theorem scanWalkFn_no_err (opts : Options) (st : WalkState) (path : GoString)
    (d : Option FSNode) (err : Option GoError) (e : GoError) :
    (scanWalkFn opts st path d err).2 ≠ .err e := by
  unfold scanWalkFn
  split
  · simp
  · simp
  · split <;> simp
  · split
    · simp
    · split <;> simp

theorem scanWalk_eq_logged (os : OS) (root : GoString) (opts : Options) :
    scanWalk os root opts
      = ((WalkDir os (scanWalkFnLogged opts) root ({ jobs := [], walkErr := none }, [])).1.1,
         (WalkDir os (scanWalkFnLogged opts) root ({ jobs := [], walkErr := none }, [])).2) :=
  WalkDir_sim Prod.fst os (scanWalkFn opts) (scanWalkFnLogged opts) (fun _ _ _ _ => rfl) root
    ({ jobs := [], walkErr := none }, [])

theorem scanWalkFnLogged_inv (opts : Options) (s : WalkState × List GoError) (path : GoString)
    (d : Option FSNode) (err : Option GoError) (hs : s.1.walkErr = s.2.getLast?) :
    (scanWalkFnLogged opts s path d err).1.1.walkErr
      = (scanWalkFnLogged opts s path d err).1.2.getLast? := by
  cases err with
  | some e => simp [scanWalkFnLogged, scanWalkFn]
  | none =>
    have : (scanWalkFn opts s.1 path d none).1.walkErr = s.1.walkErr := by
      unfold scanWalkFn
      split
      · rename_i h; cases h
      · rfl
      · split <;> rfl
      · split
        · rfl
        · split <;> rfl
    simp [scanWalkFnLogged, this, hs]

theorem scanWalk_walkErr (os : OS) (root : GoString) (opts : Options) :
    (scanWalk os root opts).1.walkErr = (traversalErrors os root opts).getLast?
      ∧ (scanWalk os root opts).2 = none := by
  refine ⟨?_, WalkDir_no_err os (scanWalkFn opts) (scanWalkFn_no_err opts) root _⟩
  rw [scanWalk_eq_logged]
  exact WalkDir_inv (fun s => s.1.walkErr = s.2.getLast?) os (scanWalkFnLogged opts)
    (fun s path d err hs => scanWalkFnLogged_inv opts s path d err hs) root
    ({ jobs := [], walkErr := none }, []) rfl

theorem scanWalk_workers (os : OS) (root : GoString) (opts : Options) (n : Int) :
    scanWalk os root { opts with Workers := n } = scanWalk os root opts := rfl

theorem scanWalkFn_dir (opts : Options) (st : WalkState) (path name : GoString)
    (readDirErr : Option GoError) (children : List FSNode) :
    scanWalkFn opts st path (some (.dir name readDirErr children)) none
      = if name ∈ opts.IgnoreDirs then (st, .SkipDir) else (st, .nil) := by
  simp only [scanWalkFn]

theorem scanWalkFn_err (opts : Options) (st : WalkState) (path : GoString) (d : Option FSNode)
    (e : GoError) :
    scanWalkFn opts st path d (some e) = ({ st with walkErr := some e }, .nil) := by
  simp [scanWalkFn]

mutual
theorem walkDir_jobs (join : GoString → GoString → GoString) (opts : Options)
    (path : GoString) (d : FSNode) (st : WalkState) :
    (walkDir join (scanWalkFn opts) path d st).2 = .nil
      ∧ (walkDir join (scanWalkFn opts) path d st).1.jobs
          = st.jobs ++ (reachedFiles join opts path d).filter (withinLimit opts) := by
  cases d with
  | file name info =>
    cases info with
    | error e => simp [walkDir, reachedFiles, scanWalkFn]
    | ok info =>
      rw [walkDir, scanWalkFn_file, reachedFiles]
      by_cases h : opts.MaxFileSizeBytes ≤ 0 ∨ info.Size ≤ opts.MaxFileSizeBytes
      · simp [h, withinLimit]
      · simp [h, withinLimit]
  | dir name readDirErr children =>
    by_cases hig : name ∈ opts.IgnoreDirs
    · cases readDirErr with
      | none => simp [walkDir, scanWalkFn_dir, reachedFiles, hig]
      | some e => simp [walkDir, scanWalkFn_dir, reachedFiles, hig]
    · cases readDirErr with
      | none =>
        rw [walkDir, scanWalkFn_dir, if_neg hig, reachedFiles, if_neg hig]
        exact walkEntries_jobs join opts path children st
      | some e =>
        rw [walkDir, scanWalkFn_dir, if_neg hig, reachedFiles, if_neg hig]
        dsimp only
        rw [scanWalkFn_err]
        exact walkEntries_jobs join opts path children _
theorem walkEntries_jobs (join : GoString → GoString → GoString) (opts : Options)
    (path : GoString) (dirs : List FSNode) (st : WalkState) :
    (walkEntries join (scanWalkFn opts) path dirs st).2 = .nil
      ∧ (walkEntries join (scanWalkFn opts) path dirs st).1.jobs
          = st.jobs ++ (reachedFilesIn join opts path dirs).filter (withinLimit opts) := by
  cases dirs with
  | nil => simp [walkEntries, reachedFilesIn]
  | cons d1 rest =>
    obtain ⟨h1, h2⟩ := walkDir_jobs join opts (join path d1.Name) d1 st
    obtain ⟨h3, h4⟩ := walkEntries_jobs join opts path rest
      (walkDir join (scanWalkFn opts) (join path d1.Name) d1 st).1
    rw [walkEntries, reachedFilesIn, h1]
    dsimp only
    rw [h3, h4, h2, List.filter_append, List.append_assoc]
    exact ⟨rfl, rfl⟩
end

theorem scanWalk_jobs (os : OS) (root : GoString) (opts : Options) :
    (scanWalk os root opts).1.jobs = (reachedFromRoot os root opts).filter (withinLimit opts) := by
  unfold scanWalk WalkDir reachedFromRoot
  cases os.lstat root with
  | error e =>
    dsimp only
    rw [scanWalkFn_err]
    rfl
  | ok d =>
    dsimp only
    obtain ⟨h1, h2⟩ := walkDir_jobs os.join opts root d { jobs := [], walkErr := none }
    rw [h1]
    dsimp only
    rw [h2]
    rfl

theorem linesFindings_File {Re F : Type} (ops : Float64Ops F)
    (sched : Nat → Nat → Nat → MapOrder) (rx : Regexp Re)
    (rs : RuleSet Re F) (path : GoString) (lines : List GoString) (lineNum : Int) :
    ∀ x ∈ linesFindings ops sched rx rs path lineNum lines, x.File = path := by
  induction lines generalizing lineNum with
  | nil => simp [linesFindings]
  | cons line lines ih =>
    intro x hx
    simp only [linesFindings, lineFindings, List.mem_append, List.mem_map] at hx
    rcases hx with (⟨m, _, rfl⟩ | ⟨m, _, rfl⟩) | hx
    · rfl
    · rfl
    · exact ih _ x hx

theorem scanFile_File {Re F : Type} (ops : Float64Ops F) (sched : Nat → Nat → Nat → MapOrder)
    (rx : Regexp Re)
    (unicodeToLower : Nat → Nat) (readFile : GoString → Except GoError (List UInt8))
    (path : GoString) (info : FileInfo) (rs : RuleSet Re F) (opts : Options) :
    ∀ x ∈ scanFile ops sched rx unicodeToLower readFile path info rs opts, x.File = path := by
  intro x hx
  unfold scanFile at hx
  have hout : ∀ y ∈ (if IsSensitiveFilename unicodeToLower rs info.Name then
      [({ File := path, Line := 0, RuleID := str "sensitive_filename",
          Description := str "Suspicious filename", Snippet := info.Name, Match := [],
          Entropy := ops.ofInt 0, Type_ := str "filename", Severity := str "medium",
          Tags := [str "filename"], Fingerprint := [] } : Finding F)]
      else []), y.File = path := by
    intro y hy
    split at hy
    · rw [List.mem_singleton] at hy
      rw [hy]
    · cases hy
  dsimp only at hx
  split at hx
  · rw [List.mem_append, List.mem_singleton] at hx
    rcases hx with hx | hx
    · exact hout x hx
    · rw [hx]
  · split at hx
    · exact hout x hx
    · split at hx
      · rw [List.mem_append] at hx
        rcases hx with hx | hx
        · exact hout x hx
        · exact linesFindings_File ops sched rx rs path _ _ x hx
      · rw [List.mem_append, List.mem_append, List.mem_singleton] at hx
        rcases hx with (hx | hx) | hx
        · exact hout x hx
        · exact linesFindings_File ops sched rx rs path _ _ x hx
        · rw [hx]

/-- The function `scanFile` does not read its argument `opts`. -/
theorem scanFile_opts {Re F : Type} (ops : Float64Ops F) (sched : Nat → Nat → Nat → MapOrder)
    (rx : Regexp Re) (unicodeToLower : Nat → Nat)
    (readFile : GoString → Except GoError (List UInt8))
    (path : GoString) (info : FileInfo) (rs : RuleSet Re F) (opts opts1 : Options) :
    scanFile ops sched rx unicodeToLower readFile path info rs opts
      = scanFile ops sched rx unicodeToLower readFile path info rs opts1 :=
  rfl

theorem scanJobs_opts {Re F : Type} (ops : Float64Ops F)
    (sched : Nat → Nat → Nat → Nat → MapOrder) (rx : Regexp Re) (unicodeToLower : Nat → Nat)
    (readFile : GoString → Except GoError (List UInt8)) (rs : RuleSet Re F)
    (opts opts1 : Options) (k : Nat) (jobs : List job) :
    scanJobs ops sched rx unicodeToLower readFile rs opts k jobs
      = scanJobs ops sched rx unicodeToLower readFile rs opts1 k jobs := by
  induction jobs generalizing k with
  | nil => rfl
  | cons j jobs ih =>
    simp only [scanJobs]
    rw [ih, scanFile_opts ops (sched k) rx unicodeToLower readFile j.path j.info rs opts opts1]

/-- The findings of the workers: those of `scanFile` on the job number `i`, for every
`i`, the calls for job `i` taking their map orders from `sched (k + i)`. -/
theorem mem_scanJobs {Re F : Type} (ops : Float64Ops F)
    (sched : Nat → Nat → Nat → Nat → MapOrder) (rx : Regexp Re) (unicodeToLower : Nat → Nat)
    (readFile : GoString → Except GoError (List UInt8)) (rs : RuleSet Re F)
    (opts : Options) (k : Nat) (jobs : List job) (x : Finding F) :
    x ∈ scanJobs ops sched rx unicodeToLower readFile rs opts k jobs
      ↔ ∃ i j, jobs[i]? = some j
          ∧ x ∈ scanFile ops (sched (k + i)) rx unicodeToLower readFile j.path j.info rs opts := by
  induction jobs generalizing k with
  | nil => simp [scanJobs]
  | cons j0 jobs ih =>
    simp only [scanJobs, List.mem_append, ih]
    constructor
    · rintro (h | ⟨i, j, hj, hx⟩)
      · exact ⟨0, j0, by simp, h⟩
      · refine ⟨i + 1, j, by simpa using hj, ?_⟩
        have e : k + (i + 1) = k + 1 + i := by omega
        rw [e]
        exact hx
    · rintro ⟨i, j, hj, hx⟩
      cases i with
      | zero =>
        simp only [List.getElem?_cons_zero, Option.some.injEq] at hj
        subst hj
        exact Or.inl hx
      | succ i =>
        simp only [List.getElem?_cons_succ] at hj
        refine Or.inr ⟨i, j, hj, ?_⟩
        have e : k + (i + 1) = k + 1 + i := by omega
        rw [← e]
        exact hx

theorem Scan_findings {Re F : Type} (ops : Float64Ops F)
    (sched : Nat → Nat → Nat → Nat → MapOrder) (rx : Regexp Re)
    (unicodeToLower : Nat → Nat) (os : OS) (root : GoString) (rs : RuleSet Re F)
    (opts : Options) :
    (Scan ops sched rx unicodeToLower os root rs opts).1
      = scanJobs ops sched rx unicodeToLower os.readFile rs opts 0
          (scanWalk os root opts).1.jobs := by
  unfold Scan
  by_cases hw : opts.Workers ≤ 0
  · simp only [hw, if_true, scanWalk_workers]
    rw [scanJobs_opts ops sched rx unicodeToLower os.readFile rs _ opts]
    split <;> rfl
  · simp only [hw, if_false]
    split <;> rfl

/-- An instance of the size cutoff: with a limit of 10 bytes, the 10-byte file `id_rsa`
is scanned and gives its filename finding; the 11-byte file `id_rsa.bak` gives none,
though its name holds `id_rsa` too: with a limit of 11 bytes it gives one. -/
theorem Scan_size_cutoff_example :
    ((Scan exactOps (fun _ _ _ _ => insertionOrder) noRegexp id sizesOS (str "r") filenameRules
          limit10).1.map (fun f => (f.File, f.RuleID)))
      = [(str "r/id_rsa", str "sensitive_filename")]
    ∧ ((Scan exactOps (fun _ _ _ _ => insertionOrder) noRegexp id sizesOS (str "r") filenameRules
          limit11).1.map (fun f => (f.File, f.RuleID)))
      = [(str "r/id_rsa", str "sensitive_filename"),
         (str "r/id_rsa.bak", str "sensitive_filename")] := by
  decide!

/-- C6: on a file whose size is known, the walk callback of `Scan` queues a job exactly
when `MaxFileSizeBytes` is zero or negative or the size is at most `MaxFileSizeBytes`,
and otherwise changes nothing; the jobs of a scan are exactly the files the walk reaches
that pass this test. The findings `Scan` returns are exactly the findings of `scanFile`
on these jobs: with a positive limit, a reached file of exactly `MaxFileSizeBytes`
bytes is a job and every finding of `scanFile` on it is returned, while a reached file
that is larger, by one byte or more, is not a job; every finding returned was produced
on a file within the limit and bears its path. In the tree `sizesOS` with the limit 10
the file of 10 bytes gives its filename finding and the file of 11 bytes gives none,
which it does once the limit is 11. -/
theorem Scan_size_cutoff {Re F : Type} (ops : Float64Ops F)
    (sched : Nat → Nat → Nat → Nat → MapOrder) (rx : Regexp Re)
    (unicodeToLower : Nat → Nat) (os : OS) (root : GoString) (rs : RuleSet Re F)
    (opts : Options) :
    (∀ (st : WalkState) (path name : GoString) (info : FileInfo),
      scanWalkFn opts st path (some (.file name (.ok info))) none
        = if opts.MaxFileSizeBytes ≤ 0 ∨ info.Size ≤ opts.MaxFileSizeBytes then
            ({ st with jobs := st.jobs ++ [{ path := path, info := info }] }, .nil)
          else (st, .nil))
    ∧ (scanWalk os root opts).1.jobs
        = (reachedFromRoot os root opts).filter
            (fun j => decide (opts.MaxFileSizeBytes ≤ 0 ∨ j.info.Size ≤ opts.MaxFileSizeBytes))
    ∧ (∀ x, x ∈ (Scan ops sched rx unicodeToLower os root rs opts).1
        ↔ ∃ k j,
            ((reachedFromRoot os root opts).filter
              (fun j => decide (opts.MaxFileSizeBytes ≤ 0
                ∨ j.info.Size ≤ opts.MaxFileSizeBytes)))[k]? = some j
            ∧ x ∈ scanFile ops (sched k) rx unicodeToLower os.readFile j.path j.info rs opts)
    ∧ (∀ j ∈ reachedFromRoot os root opts, 0 < opts.MaxFileSizeBytes →
        j.info.Size = opts.MaxFileSizeBytes →
        j ∈ (scanWalk os root opts).1.jobs
        ∧ ∃ k, ∀ x ∈ scanFile ops (sched k) rx unicodeToLower os.readFile j.path j.info rs opts,
            x ∈ (Scan ops sched rx unicodeToLower os root rs opts).1)
    ∧ (∀ j ∈ reachedFromRoot os root opts, 0 < opts.MaxFileSizeBytes →
        opts.MaxFileSizeBytes + 1 ≤ j.info.Size → j ∉ (scanWalk os root opts).1.jobs)
    ∧ (∀ x ∈ (Scan ops sched rx unicodeToLower os root rs opts).1,
        ∃ j ∈ reachedFromRoot os root opts,
          (opts.MaxFileSizeBytes ≤ 0 ∨ j.info.Size ≤ opts.MaxFileSizeBytes)
            ∧ x.File = j.path)
    ∧ ((Scan exactOps (fun _ _ _ _ => insertionOrder) noRegexp id sizesOS (str "r")
          filenameRules limit10).1.map (fun f => (f.File, f.RuleID)))
        = [(str "r/id_rsa", str "sensitive_filename")]
    ∧ ((Scan exactOps (fun _ _ _ _ => insertionOrder) noRegexp id sizesOS (str "r")
          filenameRules limit11).1.map (fun f => (f.File, f.RuleID)))
        = [(str "r/id_rsa", str "sensitive_filename"),
           (str "r/id_rsa.bak", str "sensitive_filename")] := by
  have hjobs : (scanWalk os root opts).1.jobs
      = (reachedFromRoot os root opts).filter
          (fun j => decide (opts.MaxFileSizeBytes ≤ 0 ∨ j.info.Size ≤ opts.MaxFileSizeBytes)) :=
    scanWalk_jobs os root opts
  have hmem : ∀ x, x ∈ (Scan ops sched rx unicodeToLower os root rs opts).1
      ↔ ∃ k j,
          ((reachedFromRoot os root opts).filter
            (fun j => decide (opts.MaxFileSizeBytes ≤ 0
              ∨ j.info.Size ≤ opts.MaxFileSizeBytes)))[k]? = some j
          ∧ x ∈ scanFile ops (sched k) rx unicodeToLower os.readFile j.path j.info rs opts := by
    intro x
    rw [Scan_findings, mem_scanJobs, hjobs]
    simp only [Nat.zero_add]
  refine ⟨scanWalkFn_file opts, hjobs, hmem, ?_, ?_, ?_, Scan_size_cutoff_example.1,
    Scan_size_cutoff_example.2⟩
  · intro j hj hpos hsize
    have hin : j ∈ (reachedFromRoot os root opts).filter
        (fun j => decide (opts.MaxFileSizeBytes ≤ 0
          ∨ j.info.Size ≤ opts.MaxFileSizeBytes)) := by
      rw [List.mem_filter]
      exact ⟨hj, by simp [hsize]⟩
    refine ⟨by rw [hjobs]; exact hin, ?_⟩
    obtain ⟨k, hk⟩ := List.getElem?_of_mem hin
    exact ⟨k, fun x hx => (hmem x).2 ⟨k, j, hk, hx⟩⟩
  · intro j _ hpos hsize hin
    rw [hjobs, List.mem_filter] at hin
    have := hin.2
    simp only [decide_eq_true_eq] at this
    omega
  · intro x hx
    obtain ⟨k, j, hk, hxj⟩ := (hmem x).1 hx
    have hin := List.getElem?_mem hk
    rw [List.mem_filter] at hin
    refine ⟨j, hin.1, ?_,
      scanFile_File ops (sched k) rx unicodeToLower os.readFile j.path j.info rs opts x hxj⟩
    simpa using hin.2

/-- C7, as stated, fails: in `failingOS` the walk meets the error `e1` and then the error
`e2`, queues both files, and `Scan` returns `e2`, which is not the first error. -/
theorem Scan_returns_not_first_error :
    traversalErrors failingOS (str "r") limit10 = [str "e1", str "e2"]
      ∧ (scanWalk failingOS (str "r") limit10).1.jobs.map (fun j => j.path)
          = [str "r/a", str "r/d/b"]
      ∧ (Scan exactOps (fun _ _ _ _ => insertionOrder) noRegexp id failingOS (str "r")
            filenameRules limit10).2
          = some (str "e2")
      ∧ (Scan exactOps (fun _ _ _ _ => insertionOrder) noRegexp id failingOS (str "r")
            filenameRules limit10).2
          ≠ (traversalErrors failingOS (str "r") limit10).head? := by
  decide!

/-- C7, amended: the callback of `Scan` answers every per-entry error with `nil`, and
`WalkDir` itself reports no error, so that the walk goes on: the jobs queued are the files
of the tree within the size limit whatever errors were met. The error `Scan` returns is
the last per-entry error the walk met (none when it met none). -/
theorem Scan_returns_last_error {Re F : Type} (ops : Float64Ops F)
    (sched : Nat → Nat → Nat → Nat → MapOrder) (rx : Regexp Re)
    (unicodeToLower : Nat → Nat) (os : OS) (root : GoString) (rs : RuleSet Re F)
    (opts : Options) :
    (∀ (st : WalkState) (path : GoString) (d : Option FSNode) (e : GoError),
      scanWalkFn opts st path d (some e) = ({ st with walkErr := some e }, .nil))
    ∧ (scanWalk os root opts).2 = none
    ∧ (scanWalk os root opts).1.jobs = (reachedFromRoot os root opts).filter (withinLimit opts)
    ∧ (Scan ops sched rx unicodeToLower os root rs opts).2
        = (traversalErrors os root opts).getLast? := by
  obtain ⟨h1, h2⟩ := scanWalk_walkErr os root opts
  refine ⟨scanWalkFn_err opts, h2, scanWalk_jobs os root opts, ?_⟩
  unfold Scan
  by_cases hw : opts.Workers ≤ 0
  · simp only [hw, if_true, scanWalk_workers, h2, h1]
  · simp only [hw, if_false, h2, h1]

/-! ## Entropy matching -/

/-- The matches of one rule do not depend on the map orders as long as the entropies
computed for the tokens do not. -/
theorem entropyMatchesOfRule_congr {F : Type} (ops : Float64Ops F) (s1 s2 : Nat → MapOrder)
    (rule : EntropyRule F) (tokens : List GoString) (j : Nat)
    (hsame : ∀ i t, tokens[i]? = some t →
      shannonEntropy ops (s2 (j + i)) t = shannonEntropy ops (s1 (j + i)) t) :
    entropyMatchesOfRule ops s2 rule j tokens = entropyMatchesOfRule ops s1 rule j tokens := by
  induction tokens generalizing j with
  | nil => rfl
  | cons t tokens ih =>
    have h0 : shannonEntropy ops (s2 j) t = shannonEntropy ops (s1 j) t := by
      have := hsame 0 t (by simp)
      simpa using this
    have hrest : ∀ i u, tokens[i]? = some u →
        shannonEntropy ops (s2 (j + 1 + i)) u = shannonEntropy ops (s1 (j + 1 + i)) u := by
      intro i u hu
      have := hsame (i + 1) u (by simpa using hu)
      have e : j + (i + 1) = j + 1 + i := by omega
      rw [e] at this
      exact this
    simp only [entropyMatchesOfRule, h0, ih (j + 1) hrest]

theorem entropyMatchesOfRule_raise {F : Type} (ops : Float64Ops F)
    (htrans : ∀ a b c, ops.ge a b = true → ops.ge b c = true → ops.ge a c = true)
    (s1 s2 : Nat → MapOrder) (rule : EntropyRule F) (t2 : F)
    (hge : ops.ge t2 rule.EntropyThreshold = true) (tokens : List GoString) (j : Nat)
    (hsame : ∀ i t, tokens[i]? = some t →
      shannonEntropy ops (s2 (j + i)) t = shannonEntropy ops (s1 (j + i)) t) :
    (entropyMatchesOfRule ops s2 { rule with EntropyThreshold := t2 } j tokens).Sublist
      (entropyMatchesOfRule ops s1 rule j tokens) := by
  induction tokens generalizing j with
  | nil => exact List.Sublist.refl _
  | cons t tokens ih =>
    have h0 : shannonEntropy ops (s2 j) t = shannonEntropy ops (s1 j) t := by
      have := hsame 0 t (by simp)
      simpa using this
    have hrest : ∀ i u, tokens[i]? = some u →
        shannonEntropy ops (s2 (j + 1 + i)) u = shannonEntropy ops (s1 (j + 1 + i)) u := by
      intro i u hu
      have := hsame (i + 1) u (by simpa using hu)
      have e : j + (i + 1) = j + 1 + i := by omega
      rw [e] at this
      exact this
    have ih1 := ih (j + 1) hrest
    simp only [entropyMatchesOfRule, h0]
    by_cases hlen : (t.length : Int) < rule.MinLength
    · simp only [hlen, if_true]
      exact ih1
    · simp only [hlen, if_false]
      by_cases h2 : ops.ge (shannonEntropy ops (s1 j) t) t2 = true
      · have h1 := htrans _ _ _ h2 hge
        simp only [h1, h2, if_true]
        exact ih1.cons₂ _
      · simp only [h2, if_false]
        by_cases h1 : ops.ge (shannonEntropy ops (s1 j) t) rule.EntropyThreshold = true
        · simp only [h1, if_true]
          exact ih1.cons _
        · simp only [h1, if_false]
          exact ih1

theorem entropyMatchesOfRules_raise {F : Type} (ops : Float64Ops F)
    (htrans : ∀ a b c, ops.ge a b = true → ops.ge b c = true → ops.ge a c = true)
    (sched1 sched2 : Nat → Nat → MapOrder) (tokens : List GoString)
    (hsame : ∀ r j t, tokens[j]? = some t →
      shannonEntropy ops (sched2 r j) t = shannonEntropy ops (sched1 r j) t)
    (rules : List (EntropyRule F)) (k i : Nat) (rule : EntropyRule F)
    (hrule : rules[i]? = some rule) (t2 : F) (hge : ops.ge t2 rule.EntropyThreshold = true) :
    (entropyMatchesOfRules ops sched2 tokens k (setThreshold rules i t2)).Sublist
      (entropyMatchesOfRules ops sched1 tokens k rules) := by
  have hcongr : ∀ (r : Nat) (rl : EntropyRule F),
      entropyMatchesOfRule ops (sched2 r) rl 0 tokens
        = entropyMatchesOfRule ops (sched1 r) rl 0 tokens := by
    intro r rl
    apply entropyMatchesOfRule_congr
    intro j t ht
    simpa using hsame r j t ht
  have hall : ∀ (rs : List (EntropyRule F)) (k : Nat),
      entropyMatchesOfRules ops sched2 tokens k rs
        = entropyMatchesOfRules ops sched1 tokens k rs := by
    intro rs
    induction rs with
    | nil => intro k; rfl
    | cons r rs ih =>
      intro k
      simp only [entropyMatchesOfRules, hcongr, ih]
  induction rules generalizing k i with
  | nil => simp at hrule
  | cons r rules ih =>
    cases i with
    | zero =>
      simp only [List.getElem?_cons_zero, Option.some.injEq] at hrule
      subst hrule
      simp only [setThreshold, entropyMatchesOfRules]
      rw [hall]
      refine List.Sublist.append ?_ (List.Sublist.refl _)
      apply entropyMatchesOfRule_raise ops htrans _ _ _ _ hge
      intro j t ht
      simpa using hsame k j t ht
    | succ i =>
      simp only [List.getElem?_cons_succ] at hrule
      simp only [setThreshold, entropyMatchesOfRules]
      rw [hcongr]
      exact (List.Sublist.refl _).append (ih (k + 1) i hrule)

/-- C8, as stated, fails. The token `abccccddd` has the character counts 1, 1, 4, 3 in
order of insertion. Summed in that order the entropy is `thresholdHigh`; summed from the
second entry on and around, which is another order the runtime can choose, it is
two units in the last place less, below `thresholdLow`. So with the threshold
`thresholdLow` one call of `MatchEntropy` reports no match, and with the threshold
raised to `thresholdHigh` another call reports one. -/
theorem MatchEntropy_threshold_not_monotone :
    entropyTokens (str "abccccddd") = [str "abccccddd"]
    ∧ runeFreq (str "abccccddd") = [(97, 1), (98, 1), (99, 4), (100, 3)]
    ∧ rotatedOrder 1 (runeFreq (str "abccccddd")) = [(98, 1), (99, 4), (100, 3), (97, 1)]
    ∧ shannonEntropy binary64Ops insertionOrder (str "abccccddd") = thresholdHigh
    ∧ shannonEntropy binary64Ops (rotatedOrder 1) (str "abccccddd")
        = 7893527877299572 / 4503599627370496
    ∧ binary64Ops.ge thresholdHigh thresholdLow = true
    ∧ (MatchEntropy binary64Ops (fun _ _ => rotatedOrder 1) entropyRulesLow
        (str "abccccddd")).length = 0
    ∧ (MatchEntropy binary64Ops (fun _ _ => insertionOrder)
        (withThreshold entropyRulesLow 0 thresholdHigh) (str "abccccddd")).length = 1 := by
  refine ⟨by decide, by decide, by decide, by decide!, by decide!, by decide!, by decide!,
    by decide!⟩

/-- C8, amended: let `>=` on `float64` be transitive, and let two evaluations compute the
same entropy for every token of the line (as they do when they range over the
frequency maps in the same order). When the threshold of entropy rule number `i` is
raised from its value `t1` to some `t2 >= t1`, the rule set being otherwise unchanged,
the matches of that rule on the line are a sub-list of its matches before, and so are
the matches `MatchEntropy` reports in all; neither count grows. -/
theorem MatchEntropy_threshold_monotone {Re F : Type} (ops : Float64Ops F)
    (htrans : ∀ a b c, ops.ge a b = true → ops.ge b c = true → ops.ge a c = true)
    (sched1 sched2 : Nat → Nat → MapOrder)
    (rs : RuleSet Re F) (i : Nat) (rule : EntropyRule F)
    (hrule : rs.EntropyRules[i]? = some rule) (t2 : F)
    (hge : ops.ge t2 rule.EntropyThreshold = true) (line : GoString)
    (hsame : ∀ r j t, (entropyTokens line)[j]? = some t →
      shannonEntropy ops (sched2 r j) t = shannonEntropy ops (sched1 r j) t) :
    (entropyMatchesOfRule ops (sched2 i) { rule with EntropyThreshold := t2 } 0
        (entropyTokens line)).Sublist
        (entropyMatchesOfRule ops (sched1 i) rule 0 (entropyTokens line))
    ∧ (entropyMatchesOfRule ops (sched2 i) { rule with EntropyThreshold := t2 } 0
        (entropyTokens line)).length
        ≤ (entropyMatchesOfRule ops (sched1 i) rule 0 (entropyTokens line)).length
    ∧ (MatchEntropy ops sched2 (withThreshold rs i t2) line).Sublist
        (MatchEntropy ops sched1 rs line)
    ∧ (MatchEntropy ops sched2 (withThreshold rs i t2) line).length
        ≤ (MatchEntropy ops sched1 rs line).length := by
  have h1 : (entropyMatchesOfRule ops (sched2 i) { rule with EntropyThreshold := t2 } 0
      (entropyTokens line)).Sublist
      (entropyMatchesOfRule ops (sched1 i) rule 0 (entropyTokens line)) := by
    apply entropyMatchesOfRule_raise ops htrans _ _ _ _ hge
    intro j t ht
    simpa using hsame i j t ht
  have h2 : (MatchEntropy ops sched2 (withThreshold rs i t2) line).Sublist
      (MatchEntropy ops sched1 rs line) :=
    entropyMatchesOfRules_raise ops htrans sched1 sched2 (entropyTokens line) hsame
      rs.EntropyRules 0 i rule hrule t2 hge
  exact ⟨h1, h1.length_le, h2, h2.length_le⟩

theorem binary64Ops_ge_trans (a b c : ℚ) (h1 : binary64Ops.ge a b = true)
    (h2 : binary64Ops.ge b c = true) : binary64Ops.ge a c = true := by
  simp only [binary64Ops, decide_eq_true_eq] at *
  exact le_trans h2 h1

/-- Witness of C8: the token `aaaabbbb` has entropy 1 in `float64` in whichever order
its two counts are summed; it matches the rule `ent` at threshold 1 and no longer
matches once the threshold is raised to 2. -/
theorem MatchEntropy_threshold_monotone_witness :
    binary64Ops.ge 2 1 = true
    ∧ (MatchEntropy binary64Ops (fun _ _ => insertionOrder) entropyRules1
        (str "x aaaabbbb")).length = 1
    ∧ (MatchEntropy binary64Ops (fun _ _ => rotatedOrder 1) (withThreshold entropyRules1 0 2)
        (str "x aaaabbbb")).length = 0
    ∧ (MatchEntropy binary64Ops (fun _ _ => rotatedOrder 1) (withThreshold entropyRules1 0 2)
        (str "x aaaabbbb")).Sublist
        (MatchEntropy binary64Ops (fun _ _ => insertionOrder) entropyRules1
          (str "x aaaabbbb")) :=
  ⟨by decide, by decide!, by decide!,
    (MatchEntropy_threshold_monotone binary64Ops binary64Ops_ge_trans
      (fun _ _ => insertionOrder) (fun _ _ => rotatedOrder 1) entropyRules1 0 _ rfl 2
      (by decide) (str "x aaaabbbb")
      (by
        intro r j t ht
        have htok : entropyTokens (str "x aaaabbbb") = [str "aaaabbbb"] := by decide
        rw [htok] at ht
        cases j with
        | zero =>
          simp only [List.getElem?_cons_zero, Option.some.injEq] at ht
          subst ht
          show shannonEntropy binary64Ops (rotatedOrder 1) (str "aaaabbbb")
            = shannonEntropy binary64Ops insertionOrder (str "aaaabbbb")
          decide!
        | succ j => simp at ht)).2.2.1⟩

/-! ## Shannon entropy -/

theorem decodeRunesAux_replicate_ascii (c : UInt8) (hc : c.toNat < 0x80) (n fuel : Nat)
    (hfuel : n ≤ fuel) :
    decodeRunesAux fuel (List.replicate n c) = List.replicate n c.toNat := by
  induction n generalizing fuel with
  | zero => cases fuel <;> simp [decodeRunesAux]
  | succ n ih =>
    cases fuel with
    | zero => omega
    | succ fuel =>
      have hd : decodeRune (c :: List.replicate n c) = (c.toNat, 1) := by
        simp [decodeRune, hc]
      simp only [List.replicate_succ, decodeRunesAux, hd, List.drop_succ_cons, List.drop_zero]
      rw [ih fuel (by omega)]

theorem foldl_freqIncr_replicate (r : Nat) (k : Int) (m : Nat) :
    (List.replicate m r).foldl freqIncr [(r, k)] = [(r, k + m)] := by
  induction m generalizing k with
  | zero => simp
  | succ m ih =>
    simp only [List.replicate_succ, List.foldl_cons, freqIncr, if_true]
    rw [ih]
    congr 2
    push_cast
    ring

theorem runeFreq_replicate_ascii (c : UInt8) (hc : c.toNat < 0x80) (n : Nat) :
    runeFreq (List.replicate (n + 1) c) = [(c.toNat, ((n + 1 : Nat) : Int))] := by
  unfold runeFreq decodeRunes
  rw [decodeRunesAux_replicate_ascii c hc _ _ (by simp)]
  simp only [List.replicate_succ, List.foldl_cons, freqIncr]
  rw [foldl_freqIncr_replicate]
  congr 2
  push_cast
  ring

/-- On a string made of `n + 1` copies of one ASCII byte, `shannonEntropy` computes
`0 - p * log2(p)` with `p = float64(n+1) / float64(n+1)`: the map has one entry, and
every order visits it once. -/
theorem shannonEntropy_ascii_repeat {F : Type} (ops : Float64Ops F) (order : MapOrder)
    (horder : ∀ m, (order m).Perm m) (c : UInt8)
    (hc : c.toNat < 0x80) (n : Nat) :
    shannonEntropy ops order (List.replicate (n + 1) c)
      = ops.sub (ops.ofInt 0)
          (ops.mul (ops.div (ops.ofInt ((n + 1 : Nat) : Int)) (ops.ofInt ((n + 1 : Nat) : Int)))
            (ops.log2
              (ops.div (ops.ofInt ((n + 1 : Nat) : Int)) (ops.ofInt ((n + 1 : Nat) : Int))))) := by
  unfold shannonEntropy
  rw [runeFreq_replicate_ascii c hc n]
  have h1 : order [(c.toNat, ((n + 1 : Nat) : Int))] = [(c.toNat, ((n + 1 : Nat) : Int))] :=
    List.perm_singleton.1 (horder _)
  rw [h1]
  simp

/-- The same in exact arithmetic: the entropy of a repeated ASCII byte is `0`. -/
theorem shannonEntropy_ascii_repeat_exact (order : MapOrder) (horder : ∀ m, (order m).Perm m)
    (c : UInt8) (hc : c.toNat < 0x80) (n : Nat) :
    shannonEntropy exactOps order (List.replicate (n + 1) c) = 0 := by
  rw [shannonEntropy_ascii_repeat exactOps order horder c hc n]
  have h : (((n + 1 : Nat) : Int) : ℚ) ≠ 0 := by
    have : (0 : ℚ) < (((n + 1 : Nat) : Int) : ℚ) := by exact_mod_cast Nat.succ_pos n
    exact ne_of_gt this
  show (((0 : Int) : ℚ)) - ((((n + 1 : Nat) : Int) : ℚ) / (((n + 1 : Nat) : Int) : ℚ))
      * ((Nat.log2 ((((n + 1 : Nat) : Int) : ℚ) / (((n + 1 : Nat) : Int) : ℚ)).num.natAbs : ℚ)
        - (Nat.log2 ((((n + 1 : Nat) : Int) : ℚ) / (((n + 1 : Nat) : Int) : ℚ)).den : ℚ)) = 0
  rw [div_self h]
  simp

theorem pow2_eq_zpow (e : Int) : pow2 e = (2 : ℚ) ^ e := by
  unfold pow2
  split
  · rename_i h
    obtain ⟨k, rfl⟩ := Int.eq_ofNat_of_zero_le h
    simp
  · rename_i h
    have h1 : 0 ≤ -e := by omega
    obtain ⟨k, hk⟩ := Int.eq_ofNat_of_zero_le h1
    have he : e = -(k : Int) := by omega
    subst he
    simp

theorem pow2_pos (e : Int) : 0 < pow2 e := by
  rw [pow2_eq_zpow]
  positivity

theorem pow2_mono (a b : Int) (h : a ≤ b) : pow2 a ≤ pow2 b := by
  rw [pow2_eq_zpow, pow2_eq_zpow]
  exact zpow_le_zpow_right₀ (by norm_num) h

theorem bitLengthAux_zero (fuel : Nat) : bitLengthAux fuel 0 = 0 := by
  cases fuel <;> simp [bitLengthAux]

/-- A positive number `n` has `k + 1` binary digits with `2^k ≤ n`. -/
theorem bitLengthAux_spec (fuel : Nat) :
    ∀ n, 1 ≤ n → n ≤ fuel → 1 ≤ bitLengthAux fuel n ∧ 2 ^ (bitLengthAux fuel n - 1) ≤ n := by
  induction fuel with
  | zero => intro n h1 h2; omega
  | succ fuel ih =>
    intro n h1 h2
    have hn : n ≠ 0 := by omega
    simp only [bitLengthAux, hn, if_false, Nat.add_sub_cancel]
    refine ⟨by omega, ?_⟩
    by_cases hh : n / 2 = 0
    · rw [hh, bitLengthAux_zero]
      simpa using h1
    · have h3 : 1 ≤ n / 2 := by omega
      have h4 : n / 2 ≤ fuel := by omega
      obtain ⟨i1, i2⟩ := ih (n / 2) h3 h4
      have e : bitLengthAux fuel (n / 2) = (bitLengthAux fuel (n / 2) - 1) + 1 := by omega
      rw [e, pow_succ]
      omega

/-- Rounding a positive integer to `float64` does not give zero. -/
theorem roundF64_natCast_ne_zero (n : Nat) : roundF64 ((n + 1 : Nat) : ℚ) ≠ 0 := by
  have hx : (0 : ℚ) < ((n + 1 : Nat) : ℚ) := by exact_mod_cast Nat.succ_pos n
  have hbl := bitLengthAux_spec (n + 1) (n + 1) (by omega) (Nat.le_refl _)
  have hnum : (((n + 1 : Nat) : ℚ)).num.natAbs = n + 1 := by
    rw [Rat.num_natCast, Int.natAbs_ofNat]
  have hden : (((n + 1 : Nat) : ℚ)).den = 1 := Rat.den_natCast _
  have hb1 : bitLength 1 = 1 := by decide
  have he0 : pow2 ((bitLength (n + 1) : Int) - 1) ≤ ((n + 1 : Nat) : ℚ) := by
    rw [pow2_eq_zpow]
    have e : ((bitLength (n + 1) : Int) - 1) = ((bitLength (n + 1) - 1 : Nat) : Int) := by
      have := hbl.1
      unfold bitLength
      omega
    rw [e, zpow_natCast]
    have := hbl.2
    unfold bitLength
    exact_mod_cast this
  have hexp : exponentOf ((n + 1 : Nat) : ℚ) = (bitLength (n + 1) : Int) - 1 := by
    unfold exponentOf
    simp only [hnum, hden, hb1]
    rw [if_pos (by simpa using he0)]
    rfl
  have hq : pow2 (max (exponentOf ((n + 1 : Nat) : ℚ)) (-1022) - 52) ≤ ((n + 1 : Nat) : ℚ) := by
    have h0 : (0 : Int) ≤ (bitLength (n + 1) : Int) - 1 := by
      have := hbl.1
      unfold bitLength
      omega
    rw [hexp, max_eq_left (by omega)]
    exact le_trans (pow2_mono _ _ (by omega)) he0
  unfold roundF64
  rw [if_neg (ne_of_gt hx)]
  simp only [if_neg (not_lt.2 (le_of_lt hx))]
  have hqpos := pow2_pos (max (exponentOf ((n + 1 : Nat) : ℚ)) (-1022) - 52)
  generalize pow2 (max (exponentOf ((n + 1 : Nat) : ℚ)) (-1022) - 52) = q at hq hqpos
  have hm : (1 : ℚ) ≤ ((n + 1 : Nat) : ℚ) / q := by
    rw [le_div_iff₀ hqpos]
    simpa using hq
  generalize ((n + 1 : Nat) : ℚ) / q = m at hm
  have hr : 1 ≤ roundHalfEven m := by
    have hmpos : (0 : ℚ) < m := lt_of_lt_of_le one_pos hm
    have hnumpos : 0 < m.num := Rat.num_pos.2 hmpos
    have hle : (m.den : Int) ≤ m.num := by
      have h1 : (1 : ℚ) ≤ (m.num : ℚ) / (m.den : ℚ) := by rw [Rat.num_div_den]; exact hm
      have hd : (0 : ℚ) < (m.den : ℚ) := by exact_mod_cast m.den_pos
      rw [le_div_iff₀ hd, one_mul] at h1
      exact_mod_cast h1
    have hdiv : 1 ≤ m.num.natAbs / m.den := by
      apply Nat.div_pos _ m.den_pos
      omega
    unfold roundHalfEven
    dsimp only
    split
    · exact hdiv
    · split
      · omega
      · split
        · exact hdiv
        · omega
  have hrq : (0 : ℚ) < ((roundHalfEven m : Nat) : ℚ) := by exact_mod_cast hr
  exact ne_of_gt (mul_pos hrq hqpos)

theorem roundF64_one : roundF64 1 = 1 := by decide!

theorem roundF64_zero : roundF64 0 = 0 := by decide!

theorem Log2_one : Log2 1 = 0 := by decide!

/-- C9, as stated, fails on the function: the string `éé` is one character repeated
twice; the loop counts 2 runes, the length is 4 bytes, and `shannonEntropy` computes
`0 - p * log2(p)` with `p = float64(2) / float64(4)`, which is `0.5` and not `0`,
whatever the order of the map. No call of `MatchEntropy` passes such a string: its
tokens are ASCII. -/
theorem shannonEntropy_nonASCII_repeat :
    str "éé" = [0xC3, 0xA9, 0xC3, 0xA9]
    ∧ runeFreq (str "éé") = [(0xE9, 2)]
    ∧ (∀ (F : Type) (ops : Float64Ops F) (order : MapOrder), (∀ m, (order m).Perm m) →
        shannonEntropy ops order (str "éé")
          = ops.sub (ops.ofInt 0)
              (ops.mul (ops.div (ops.ofInt 2) (ops.ofInt 4))
                (ops.log2 (ops.div (ops.ofInt 2) (ops.ofInt 4)))))
    ∧ shannonEntropy binary64Ops insertionOrder (str "éé") = 1 / 2
    ∧ entropyTokens (str "éééééééééé") = [] := by
  refine ⟨by decide, by decide, ?_, by decide!, by decide⟩
  intro F ops order horder
  have h0 : runeFreq (str "éé") = [(0xE9, 2)] := by decide
  have h1 : order [(0xE9, 2)] = [(0xE9, 2)] := List.perm_singleton.1 (horder _)
  unfold shannonEntropy
  rw [h0, h1]
  rfl

/-- C9, amended: on every non-empty string made of one ASCII character repeated,
`shannonEntropy` returns `0` in `float64`, in whichever order the runtime ranges over
the map. These are the strings of one repeated character that `MatchEntropy` passes
to it. -/
theorem shannonEntropy_ascii_repeat_zero (order : MapOrder) (horder : ∀ m, (order m).Perm m)
    (c : UInt8) (hc : c.toNat < 0x80) (n : Nat) :
    shannonEntropy binary64Ops order (List.replicate (n + 1) c) = 0 := by
  rw [shannonEntropy_ascii_repeat binary64Ops order horder c hc n]
  have hne := roundF64_natCast_ne_zero n
  have hcast : (((n + 1 : Nat) : Int) : ℚ) = ((n + 1 : Nat) : ℚ) := by push_cast; rfl
  have hdiv : binary64Ops.div (binary64Ops.ofInt ((n + 1 : Nat) : Int))
      (binary64Ops.ofInt ((n + 1 : Nat) : Int)) = 1 := by
    show (if roundF64 (((n + 1 : Nat) : Int) : ℚ) = 0 then 0
      else roundF64 (roundF64 (((n + 1 : Nat) : Int) : ℚ) / roundF64 (((n + 1 : Nat) : Int) : ℚ)))
      = 1
    rw [hcast, if_neg hne, div_self hne, roundF64_one]
  rw [hdiv]
  show roundF64 (roundF64 ((0 : Int) : ℚ) - roundF64 (1 * (if (1 : ℚ) ≤ 0 then 0 else Log2 1)))
    = 0
  rw [if_neg (by norm_num), Log2_one]
  simp [roundF64_zero]

/-- Witness of C9: the token `aaaaaaaa`, summed in insertion order. -/
theorem shannonEntropy_ascii_repeat_zero_witness :
    (∀ m, (insertionOrder m).Perm m) ∧ (97 : UInt8).toNat < 0x80
    ∧ List.replicate 8 (97 : UInt8) = str "aaaaaaaa"
    ∧ shannonEntropy binary64Ops insertionOrder (List.replicate 8 97) = 0 :=
  ⟨fun m => List.Perm.refl m, by decide, by decide,
    shannonEntropy_ascii_repeat_zero insertionOrder (fun m => List.Perm.refl m) 97 (by decide) 7⟩

/-! ## Binary detection -/

theorem countNonText_foldl (sample : List UInt8) (n : Nat) :
    sample.foldl
      (fun nonText c =>
        if c.toNat = 9 ∨ c.toNat = 10 ∨ c.toNat = 13 then nonText
        else if c.toNat < 32 ∨ c.toNat > 126 then nonText + 1
        else nonText) n
      = n + sample.countP isNonTextByte := by
  induction sample generalizing n with
  | nil => simp
  | cons c cs ih =>
    rw [List.foldl_cons, ih, List.countP_cons]
    by_cases h1 : c.toNat = 9 ∨ c.toNat = 10 ∨ c.toNat = 13
    · have : isNonTextByte c = false := by
        simp only [isNonTextByte, decide_eq_false_iff_not]
        omega
      simp [h1, this]
    · by_cases h2 : c.toNat < 32 ∨ c.toNat > 126
      · have : isNonTextByte c = true := by
          simp only [isNonTextByte, decide_eq_true_eq]
          omega
        simp only [h1, h2, if_false, if_true, this]
        omega
      · have : isNonTextByte c = false := by
          simp only [isNonTextByte, decide_eq_false_iff_not]
          omega
        simp [h1, h2, this]

theorem countNonText_eq_countP (sample : List UInt8) :
    countNonText sample = sample.countP isNonTextByte := by
  rw [countNonText, countNonText_foldl, Nat.zero_add]

/-- C10: `looksBinary b` holds exactly when `b` contains a NUL byte or more than 10% of
the first `min (len b) 8000` bytes are non-text; the integer test of the code,
`nonText > len(sample)/10`, agrees with `10 * nonText > len(sample)` on every count and
length; the empty buffer is not binary. -/
theorem looksBinary_iff (b : List UInt8) :
    (looksBinary b = true
      ↔ (0 ∈ b
          ∨ 10 * (b.take (min b.length 8000)).countP isNonTextByte
              > (b.take (min b.length 8000)).length))
    ∧ (∀ nonText len : Nat, nonText > len / 10 ↔ 10 * nonText > len)
    ∧ looksBinary [] = false := by
  refine ⟨?_, fun nonText len => by omega, rfl⟩
  unfold looksBinary
  by_cases h0 : b.length = 0
  · have hb : b = [] := List.length_eq_zero.1 h0
    subst hb
    simp
  · rw [if_neg h0]
    by_cases hnul : (0 : UInt8) ∈ b
    · have : b.contains 0x00 = true := by simpa using hnul
      rw [if_pos this]
      simp [hnul]
    · have : ¬ (b.contains 0x00 = true) := by simpa using hnul
      rw [if_neg this]
      have hsample : (if b.length > 8000 then b.take 8000 else b) = b.take (min b.length 8000) := by
        by_cases hl : b.length > 8000
        · rw [if_pos hl, Nat.min_eq_right (by omega)]
        · rw [if_neg hl, Nat.min_eq_left (by omega), List.take_length]
      simp only [hsample, countNonText_eq_countP, decide_eq_true_eq, hnul, false_or]
      omega

/-! ## Order of the findings of `scanFile` -/

theorem str_types_ne :
    str "pattern" ≠ str "entropy" ∧ str "pattern" ≠ str "filename" ∧ str "pattern" ≠ str "error"
      ∧ str "entropy" ≠ str "filename" ∧ str "entropy" ≠ str "error"
      ∧ str "filename" ≠ str "error" := by
  decide

/-- What the line loop appends for one line: findings of that line and path, with the
trimmed line as snippet, of type `pattern` or `entropy`. -/
theorem lineFindings_mem {Re F : Type} (ops : Float64Ops F)
    (sched : Nat → Nat → MapOrder) (rx : Regexp Re)
    (rs : RuleSet Re F) (path : GoString) (n : Int) (line : GoString) (x : Finding F)
    (hx : x ∈ lineFindings ops sched rx rs path n line) :
    x.Line = n ∧ x.Snippet = trimLine line ∧ x.File = path
      ∧ (x.Type_ = str "pattern" ∨ x.Type_ = str "entropy") := by
  simp only [lineFindings, List.mem_append, List.mem_map] at hx
  rcases hx with ⟨m, _, rfl⟩ | ⟨m, _, rfl⟩
  · exact ⟨rfl, rfl, rfl, Or.inl rfl⟩
  · exact ⟨rfl, rfl, rfl, Or.inr rfl⟩

/-- Within one line no `entropy` finding stands before a `pattern` finding. -/
theorem lineFindings_order {Re F : Type} (ops : Float64Ops F)
    (sched : Nat → Nat → MapOrder) (rx : Regexp Re)
    (rs : RuleSet Re F) (path : GoString) (n : Int) (line : GoString) :
    (lineFindings ops sched rx rs path n line).Pairwise
      (fun a b => a.Type_ = str "entropy" → b.Type_ = str "pattern" → False) := by
  unfold lineFindings
  rw [List.pairwise_append]
  refine ⟨?_, ?_, ?_⟩
  · rw [List.pairwise_map]
    exact List.pairwise_of_forall (fun _ _ h _ => str_types_ne.1 h)
  · rw [List.pairwise_map]
    exact List.pairwise_of_forall (fun _ _ _ h => str_types_ne.1 h.symm)
  · intro a ha b hb h _
    obtain ⟨m, _, rfl⟩ := List.mem_map.1 ha
    exact str_types_ne.1 h

theorem linesFindings_mem {Re F : Type} (ops : Float64Ops F)
    (sched : Nat → Nat → Nat → MapOrder) (rx : Regexp Re)
    (rs : RuleSet Re F) (path : GoString) (lines : List GoString) (n : Int) (x : Finding F)
    (hx : x ∈ linesFindings ops sched rx rs path n lines) :
    ∃ (i : Nat) (line : GoString), lines[i]? = some line ∧ x.Line = n + i
      ∧ x ∈ lineFindings ops (sched (n + i).toNat) rx rs path (n + i) line := by
  induction lines generalizing n with
  | nil => simp [linesFindings] at hx
  | cons l ls ih =>
    simp only [linesFindings, List.mem_append] at hx
    rcases hx with hx | hx
    · refine ⟨0, l, by simp, ?_, ?_⟩
      · simpa using (lineFindings_mem ops (sched n.toNat) rx rs path n l x hx).1
      · simpa using hx
    · obtain ⟨i, line, hi, hl, hm⟩ := ih (n + 1) hx
      refine ⟨i + 1, line, by simpa using hi, ?_, ?_⟩
      · rw [hl]; push_cast; ring
      · have : n + ((i + 1 : Nat) : Int) = n + 1 + (i : Int) := by push_cast; ring
        rw [this]; exact hm

theorem linesFindings_sorted {Re F : Type} (ops : Float64Ops F)
    (sched : Nat → Nat → Nat → MapOrder) (rx : Regexp Re)
    (rs : RuleSet Re F) (path : GoString) (lines : List GoString) (n : Int) :
    (linesFindings ops sched rx rs path n lines).Pairwise (fun a b => a.Line ≤ b.Line)
      ∧ (linesFindings ops sched rx rs path n lines).Pairwise
          (fun a b => a.Type_ = str "entropy" → b.Type_ = str "pattern" → a.Line < b.Line) := by
  induction lines generalizing n with
  | nil => simp [linesFindings]
  | cons l ls ih =>
    simp only [linesFindings]
    obtain ⟨ih1, ih2⟩ := ih (n + 1)
    have hcross : ∀ a ∈ lineFindings ops (sched n.toNat) rx rs path n l,
        ∀ b ∈ linesFindings ops sched rx rs path (n + 1) ls, a.Line < b.Line := by
      intro a ha b hb
      obtain ⟨i, line, _, hl, _⟩ := linesFindings_mem ops sched rx rs path ls (n + 1) b hb
      rw [(lineFindings_mem ops (sched n.toNat) rx rs path n l a ha).1, hl]
      omega
    constructor
    · rw [List.pairwise_append]
      refine ⟨?_, ih1, fun a ha b hb => le_of_lt (hcross a ha b hb)⟩
      apply List.pairwise_of_forall_mem_list
      intro a ha b hb
      rw [(lineFindings_mem ops (sched n.toNat) rx rs path n l a ha).1,
        (lineFindings_mem ops (sched n.toNat) rx rs path n l b hb).1]
    · rw [List.pairwise_append]
      refine ⟨?_, ih2, fun a ha b hb _ _ => hcross a ha b hb⟩
      exact (lineFindings_order ops (sched n.toNat) rx rs path n l).imp (fun h h1 h2 => (h h1 h2).elim)

/-- The shape of the result of `scanFile` on a file that is read and is not binary: the
filename finding if the name is sensitive, the findings of the lines, and the
`scan_error` finding if the scanner stopped on an error. -/
theorem scanFile_readable {Re F : Type} (ops : Float64Ops F)
    (sched : Nat → Nat → Nat → MapOrder) (rx : Regexp Re)
    (unicodeToLower : Nat → Nat) (readFile : GoString → Except GoError (List UInt8))
    (path : GoString) (info : FileInfo) (rs : RuleSet Re F) (opts : Options)
    (raw : List UInt8) (hread : readFile path = .ok raw) (hbin : looksBinary raw = false) :
    ∃ pre post : List (Finding F),
      scanFile ops sched rx unicodeToLower readFile path info rs opts
        = pre ++ linesFindings ops sched rx rs path 1 (scanLines raw).1 ++ post
      ∧ (∀ f ∈ pre, f.Type_ = str "filename" ∧ f.Line = 0)
      ∧ pre.length ≤ 1
      ∧ (IsSensitiveFilename unicodeToLower rs info.Name = true → pre ≠ [])
      ∧ (∀ f ∈ post, f.Type_ = str "error") := by
  unfold scanFile
  simp only [hread, hbin, Bool.false_eq_true, if_false]
  by_cases hs : IsSensitiveFilename unicodeToLower rs info.Name = true
  · simp only [hs, if_true]
    cases (scanLines raw).2 with
    | none =>
      refine ⟨_, [], (List.append_nil _).symm, ?_, ?_, ?_, ?_⟩
      · intro f hf
        rw [List.mem_singleton] at hf
        rw [hf]
        exact ⟨rfl, rfl⟩
      · simp
      · intro _
        simp
      · intro f hf
        cases hf
    | some err =>
      refine ⟨_, _, rfl, ?_, ?_, ?_, ?_⟩
      · intro f hf
        rw [List.mem_singleton] at hf
        rw [hf]
        exact ⟨rfl, rfl⟩
      · simp
      · intro _
        simp
      · intro f hf
        rw [List.mem_singleton] at hf
        rw [hf]
  · simp only [hs, if_false]
    cases (scanLines raw).2 with
    | none =>
      refine ⟨[], [], (List.append_nil _).symm, ?_, ?_, ?_, ?_⟩
      · intro f hf
        cases hf
      · simp
      · intro h
        cases h
      · intro f hf
        cases hf
    | some err =>
      refine ⟨[], _, rfl, ?_, ?_, ?_, ?_⟩
      · intro f hf
        cases hf
      · simp
      · intro h
        cases h
      · intro f hf
        rw [List.mem_singleton] at hf
        rw [hf]


/-- C11: on a file that is read and is not binary, every line-level finding of `scanFile`
names a line from 1 on and was produced from that very line; the line numbers of the
line-level findings never decrease; an `entropy` finding stands before a `pattern` finding
only when its line is smaller, so within one line the `pattern` findings come first; no
`filename` finding stands after another finding, it has line 0, and it heads the result
whenever the name is sensitive. -/
theorem scanFile_order {Re F : Type} (ops : Float64Ops F)
    (sched : Nat → Nat → Nat → MapOrder) (rx : Regexp Re)
    (unicodeToLower : Nat → Nat) (readFile : GoString → Except GoError (List UInt8))
    (path : GoString) (info : FileInfo) (rs : RuleSet Re F) (opts : Options)
    (raw : List UInt8) (hread : readFile path = .ok raw) (hbin : looksBinary raw = false) :
    (∀ x ∈ scanFile ops sched rx unicodeToLower readFile path info rs opts,
        isLineLevel x = true →
        1 ≤ x.Line ∧ ∃ line, (scanLines raw).1[(x.Line - 1).toNat]? = some line
          ∧ x ∈ lineFindings ops (sched x.Line.toNat) rx rs path x.Line line)
    ∧ ((scanFile ops sched rx unicodeToLower readFile path info rs opts).filter
        isLineLevel).Pairwise
        (fun a b => a.Line ≤ b.Line)
    ∧ (scanFile ops sched rx unicodeToLower readFile path info rs opts).Pairwise
        (fun a b => a.Type_ = str "entropy" → b.Type_ = str "pattern" → a.Line < b.Line)
    ∧ (scanFile ops sched rx unicodeToLower readFile path info rs opts).Pairwise
        (fun _ b => b.Type_ ≠ str "filename")
    ∧ (∀ x ∈ scanFile ops sched rx unicodeToLower readFile path info rs opts,
        x.Type_ = str "filename" → x.Line = 0)
    ∧ (IsSensitiveFilename unicodeToLower rs info.Name = true →
        ∃ f rest, scanFile ops sched rx unicodeToLower readFile path info rs opts = f :: rest
          ∧ f.Type_ = str "filename" ∧ f.Line = 0) := by
  obtain ⟨pre, post, heq, hpre, hlen, hsens, hpost⟩ :=
    scanFile_readable ops sched rx unicodeToLower readFile path info rs opts raw hread hbin
  obtain ⟨t1, t2, t3, t4, t5, t6⟩ := str_types_ne
  rw [heq]
  have hmid : ∀ x ∈ linesFindings ops sched rx rs path 1 (scanLines raw).1,
      (x.Type_ = str "pattern" ∨ x.Type_ = str "entropy") ∧ 1 ≤ x.Line
        ∧ ∃ line, (scanLines raw).1[(x.Line - 1).toNat]? = some line
          ∧ x ∈ lineFindings ops (sched x.Line.toNat) rx rs path x.Line line := by
    intro x hx
    obtain ⟨i, line, hi, hl, hm⟩ := linesFindings_mem ops sched rx rs path _ 1 x hx
    refine ⟨(lineFindings_mem ops _ rx rs path _ line x hm).2.2.2, by omega, line, ?_, ?_⟩
    · have : (x.Line - 1).toNat = i := by omega
      rw [this]; exact hi
    · rw [hl]; exact hm
  have hpreNL : ∀ x ∈ pre, isLineLevel x = false := by
    intro x hx
    simp [isLineLevel, (hpre x hx).1, Ne.symm t2, Ne.symm t4]
  have hpostNL : ∀ x ∈ post, isLineLevel x = false := by
    intro x hx
    simp [isLineLevel, hpost x hx, Ne.symm t3, Ne.symm t5]
  obtain ⟨hs1, hs2⟩ := linesFindings_sorted ops sched rx rs path (scanLines raw).1 1
  refine ⟨?_, ?_, ?_, ?_, ?_, ?_⟩
  · intro x hx hll
    simp only [List.mem_append] at hx
    rcases hx with (hx | hx) | hx
    · rw [hpreNL x hx] at hll; cases hll
    · exact (hmid x hx).2
    · rw [hpostNL x hx] at hll; cases hll
  · have h1 : pre.filter isLineLevel = [] := by
      rw [List.filter_eq_nil_iff]
      intro x hx; simp [hpreNL x hx]
    have h2 : post.filter isLineLevel = [] := by
      rw [List.filter_eq_nil_iff]
      intro x hx; simp [hpostNL x hx]
    rw [List.filter_append, List.filter_append, h1, h2, List.nil_append, List.append_nil]
    exact hs1.filter _
  · rw [List.pairwise_append, List.pairwise_append]
    refine ⟨⟨?_, hs2, ?_⟩, ?_, ?_⟩
    · apply List.pairwise_of_forall_mem_list
      intro a ha b _ h
      rw [(hpre a ha).1] at h
      exact absurd h (Ne.symm t4)
    · intro a ha b _ h
      rw [(hpre a ha).1] at h
      exact absurd h (Ne.symm t4)
    · apply List.pairwise_of_forall_mem_list
      intro a _ b hb _ h
      rw [hpost b hb] at h
      exact absurd h (Ne.symm t3)
    · intro a _ b hb _ h
      rw [hpost b hb] at h
      exact absurd h (Ne.symm t3)
  · rw [List.pairwise_append, List.pairwise_append]
    refine ⟨⟨?_, ?_, ?_⟩, ?_, ?_⟩
    · match pre, hlen with
      | [], _ => exact List.Pairwise.nil
      | [f], _ => exact List.pairwise_singleton _ _
      | _ :: _ :: _, h => simp at h
    · apply List.pairwise_of_forall_mem_list
      intro _ _ b hb h
      rcases (hmid b hb).1 with hp | hp
      · rw [hp] at h; exact t2 h
      · rw [hp] at h; exact t4 h
    · intro _ _ b hb h
      rcases (hmid b hb).1 with hp | hp
      · rw [hp] at h; exact t2 h
      · rw [hp] at h; exact t4 h
    · apply List.pairwise_of_forall_mem_list
      intro _ _ b hb h
      rw [hpost b hb] at h
      exact t6 h.symm
    · intro _ _ b hb h
      rw [hpost b hb] at h
      exact t6 h.symm
  · intro x hx hty
    simp only [List.mem_append] at hx
    rcases hx with (hx | hx) | hx
    · exact (hpre x hx).2
    · rcases (hmid x hx).1 with hp | hp
      · rw [hp] at hty; exact absurd hty t2
      · rw [hp] at hty; exact absurd hty t4
    · rw [hpost x hx] at hty
      exact absurd hty.symm t6
  · intro hs
    match pre, hpre, hlen, hsens hs with
    | [f], hp, _, _ => exact ⟨f, _, rfl, hp f (List.mem_singleton.2 rfl)⟩
    | _ :: _ :: _, _, h, _ => simp at h

/-- Witness of C11: `scanFile` on the three-line file `demoContent` named `id_rsa`. The
findings are, in order: the filename finding (line 0), two pattern findings and one
entropy finding of line 1, one pattern finding and one entropy finding of line 3. -/
theorem scanFile_order_witness :
    demoReadFile (str "r/id_rsa") = .ok demoContent
    ∧ looksBinary demoContent = false
    ∧ (scanFile exactOps (fun _ _ _ => insertionOrder) literalRegexp id demoReadFile (str "r/id_rsa") demoInfo demoRules
          limit10).map (fun f => (f.Line, f.Type_))
        = [(0, str "filename"), (1, str "pattern"), (1, str "pattern"), (1, str "entropy"),
           (3, str "pattern"), (3, str "entropy")]
    ∧ ((scanFile exactOps (fun _ _ _ => insertionOrder) literalRegexp id demoReadFile (str "r/id_rsa") demoInfo demoRules
          limit10).filter isLineLevel).Pairwise (fun a b => a.Line ≤ b.Line)
    ∧ (scanFile exactOps (fun _ _ _ => insertionOrder) literalRegexp id demoReadFile (str "r/id_rsa") demoInfo demoRules
          limit10).Pairwise
        (fun a b => a.Type_ = str "entropy" → b.Type_ = str "pattern" → a.Line < b.Line) :=
  ⟨rfl, by decide!, by decide!,
    (scanFile_order exactOps (fun _ _ _ => insertionOrder) literalRegexp id demoReadFile (str "r/id_rsa") demoInfo demoRules
      limit10 demoContent rfl (by decide!)).2.1,
    (scanFile_order exactOps (fun _ _ _ => insertionOrder) literalRegexp id demoReadFile (str "r/id_rsa") demoInfo demoRules
      limit10 demoContent rfl (by decide!)).2.2.1⟩

/-! ## The function `strings.TrimSpace` -/

theorem decodeRunesAux_length_le (fuel : Nat) (s : GoString) :
    (decodeRunesAux fuel s).length ≤ fuel := by
  induction fuel generalizing s with
  | zero => simp [decodeRunesAux]
  | succ fuel ih =>
    cases s with
    | nil => simp [decodeRunesAux]
    | cons b bs =>
      simp only [decodeRunesAux, List.length_cons]
      exact Nat.succ_le_succ (ih _)

/-- A string has at most as many characters as bytes. -/
theorem runeCount_le_length (s : GoString) : runeCount s ≤ s.length :=
  decodeRunesAux_length_le s.length s

theorem trimLeftSpace_suffix (fuel : Nat) (s : GoString) : trimLeftSpace fuel s <:+ s := by
  induction fuel generalizing s with
  | zero => exact List.suffix_refl s
  | succ fuel ih =>
    simp only [trimLeftSpace]
    split
    · exact (ih _).trans (List.drop_suffix _ _)
    · exact List.suffix_refl s

theorem trimRightSpaceRev_suffix (fuel : Nat) (rev : GoString) :
    trimRightSpaceRev fuel rev <:+ rev := by
  induction fuel generalizing rev with
  | zero => exact List.suffix_refl rev
  | succ fuel ih =>
    simp only [trimRightSpaceRev]
    split
    · exact (ih _).trans (List.drop_suffix _ _)
    · exact List.suffix_refl rev

/-- The result of `TrimSpace` is a contiguous part of its argument. -/
theorem TrimSpace_contiguous (s : GoString) : TrimSpace s <:+: s := by
  unfold TrimSpace
  have h1 := trimLeftSpace_suffix s.length s
  have h2 := trimRightSpaceRev_suffix (trimLeftSpace s.length s).length
    (trimLeftSpace s.length s).reverse
  have h3 : (trimRightSpaceRev (trimLeftSpace s.length s).length
      (trimLeftSpace s.length s).reverse).reverse <+: trimLeftSpace s.length s := by
    rw [← List.reverse_suffix, List.reverse_reverse]
    exact h2
  exact h3.isInfix.trans h1.isInfix

theorem isSpaceRune_ascii (b : UInt8) (hb : b.toNat < 0x80) :
    isSpaceRune b.toNat = isAsciiSpace b := by
  simp only [isSpaceRune, isAsciiSpace]
  congr 1
  apply propext
  constructor
  · intro h; omega
  · intro h; omega

theorem decodeRune_ascii (b : UInt8) (rest : GoString) (hb : b.toNat < 0x80) :
    decodeRune (b :: rest) = (b.toNat, 1) := by
  simp [decodeRune, hb]

theorem decodeLastRune_ascii (b : UInt8) (rest : GoString) (hb : b.toNat < 0x80) :
    decodeLastRune (b :: rest) = (b.toNat, 1) := by
  simp [decodeLastRune, hb]

theorem trimLeftSpace_ascii (fuel : Nat) (s : GoString) (hfuel : s.length ≤ fuel)
    (hs : ∀ c ∈ s, c.toNat < 0x80) : trimLeftSpace fuel s = s.dropWhile isAsciiSpace := by
  induction fuel generalizing s with
  | zero =>
    have : s = [] := List.length_eq_zero.1 (by omega)
    subst this
    rfl
  | succ fuel ih =>
    cases s with
    | nil => simp [trimLeftSpace, decodeRune]
    | cons b rest =>
      have hb := hs b (List.mem_cons_self _ _)
      simp only [trimLeftSpace, decodeRune_ascii b rest hb, isSpaceRune_ascii b hb,
        List.dropWhile_cons]
      by_cases hsp : isAsciiSpace b = true
      · simp only [hsp, ne_eq, one_ne_zero, not_false_eq_true, and_self, if_true,
          List.drop_succ_cons, List.drop_zero]
        exact ih rest (by simpa using hfuel) (fun c hc => hs c (List.mem_cons_of_mem _ hc))
      · simp [hsp]

theorem trimRightSpaceRev_ascii (fuel : Nat) (rev : GoString) (hfuel : rev.length ≤ fuel)
    (hs : ∀ c ∈ rev, c.toNat < 0x80) :
    trimRightSpaceRev fuel rev = rev.dropWhile isAsciiSpace := by
  induction fuel generalizing rev with
  | zero =>
    have : rev = [] := List.length_eq_zero.1 (by omega)
    subst this
    rfl
  | succ fuel ih =>
    cases rev with
    | nil => simp [trimRightSpaceRev, decodeLastRune]
    | cons b rest =>
      have hb := hs b (List.mem_cons_self _ _)
      simp only [trimRightSpaceRev, decodeLastRune_ascii b rest hb, isSpaceRune_ascii b hb,
        List.dropWhile_cons]
      by_cases hsp : isAsciiSpace b = true
      · simp only [hsp, ne_eq, one_ne_zero, not_false_eq_true, and_self, if_true,
          List.drop_succ_cons, List.drop_zero]
        exact ih rest (by simpa using hfuel) (fun c hc => hs c (List.mem_cons_of_mem _ hc))
      · simp [hsp]

/-- On a line of ASCII bytes `TrimSpace` drops the white-space bytes at both ends and
nothing else. -/
theorem TrimSpace_ascii (s : GoString) (hs : ∀ c ∈ s, c.toNat < 0x80) :
    TrimSpace s = ((s.dropWhile isAsciiSpace).reverse.dropWhile isAsciiSpace).reverse := by
  unfold TrimSpace
  have h1 := trimLeftSpace_ascii s.length s (Nat.le_refl _) hs
  simp only [h1]
  rw [trimRightSpaceRev_ascii _ _ (by simp)]
  intro c hc
  rw [List.mem_reverse] at hc
  exact hs c (List.dropWhile_subset _ hc)

theorem isSpaceRune_RuneError : isSpaceRune RuneError = false := by decide

theorem decodeRune_width_pos (b : UInt8) (rest : GoString) :
    (decodeRune (b :: rest)).2 ≠ 0 := by
  simp only [decodeRune]
  repeat' split
  all_goals simp

theorem decodeLastRune_width_pos (b : UInt8) (rest : GoString) :
    (decodeLastRune (b :: rest)).2 ≠ 0 := by
  simp only [decodeLastRune]
  split
  · simp
  · split
    · simp
    · split
      · rename_i h
        rw [h]
        omega
      · simp

theorem trimLeftSpace_head (fuel : Nat) (s : GoString) (hfuel : s.length ≤ fuel) :
    isSpaceRune (decodeRune (trimLeftSpace fuel s)).1 = false := by
  induction fuel generalizing s with
  | zero =>
    have : s = [] := List.length_eq_zero.1 (by omega)
    subst this
    exact isSpaceRune_RuneError
  | succ fuel ih =>
    cases s with
    | nil => simp [trimLeftSpace, decodeRune, isSpaceRune_RuneError]
    | cons b rest =>
      simp only [trimLeftSpace]
      split
      · apply ih
        have := decodeRune_width_pos b rest
        simp only [List.length_drop, List.length_cons] at hfuel ⊢
        omega
      · rename_i h
        simp only [not_and, Bool.not_eq_true] at h
        exact h (decodeRune_width_pos b rest)

theorem trimRightSpaceRev_head (fuel : Nat) (rev : GoString) (hfuel : rev.length ≤ fuel) :
    isSpaceRune (decodeLastRune (trimRightSpaceRev fuel rev)).1 = false := by
  induction fuel generalizing rev with
  | zero =>
    have : rev = [] := List.length_eq_zero.1 (by omega)
    subst this
    exact isSpaceRune_RuneError
  | succ fuel ih =>
    cases rev with
    | nil => simp [trimRightSpaceRev, decodeLastRune, isSpaceRune_RuneError]
    | cons b rest =>
      simp only [trimRightSpaceRev]
      split
      · apply ih
        have := decodeLastRune_width_pos b rest
        simp only [List.length_drop, List.length_cons] at hfuel ⊢
        omega
      · rename_i h
        simp only [not_and, Bool.not_eq_true] at h
        exact h (decodeLastRune_width_pos b rest)

/-- A string that starts with the encoding of a white-space rune decodes to that rune
whatever follows. -/
theorem decodeRune_append_of_space (r z : GoString)
    (h : isSpaceRune (decodeRune r).1 = true) : decodeRune (r ++ z) = decodeRune r := by
  have hne : isSpaceRune RuneError ≠ true := by decide
  match r, h with
  | [], h => exact absurd h hne
  | [b0], h =>
    unfold decodeRune at h ⊢
    simp only [List.cons_append, List.nil_append] at h ⊢
    by_cases h1 : b0.toNat < 0x80
    · simp only [h1, if_true]
    · simp only [h1, if_false] at h
      repeat' split at h
      all_goals exact absurd h hne
  | [b0, b1], h =>
    unfold decodeRune at h ⊢
    simp only [List.cons_append, List.nil_append] at h ⊢
    by_cases h1 : b0.toNat < 0x80
    · simp only [h1, if_true]
    · simp only [h1, if_false] at h ⊢
      by_cases h2 : 0xC2 ≤ b0.toNat ∧ b0.toNat ≤ 0xDF
      · simp only [h2, and_self, if_true]
      · simp only [h2, if_false] at h
        repeat' split at h
        all_goals exact absurd h hne
  | [b0, b1, b2], h =>
    unfold decodeRune at h ⊢
    simp only [List.cons_append, List.nil_append] at h ⊢
    by_cases h1 : b0.toNat < 0x80
    · simp only [h1, if_true]
    · simp only [h1, if_false] at h ⊢
      by_cases h2 : 0xC2 ≤ b0.toNat ∧ b0.toNat ≤ 0xDF
      · simp only [h2, and_self, if_true]
      · simp only [h2, if_false] at h ⊢
        by_cases h3 : 0xE0 ≤ b0.toNat ∧ b0.toNat ≤ 0xEF
        · simp only [h3, and_self, if_true]
        · simp only [h3, if_false] at h
          repeat' split at h
          all_goals exact absurd h hne
  | b0 :: b1 :: b2 :: b3 :: rest, _ =>
    unfold decodeRune
    simp only [List.cons_append]


/-- The result of `TrimSpace` neither starts nor ends with a white-space rune. -/
theorem TrimSpace_boundary (s : GoString) :
    isSpaceRune (decodeRune (TrimSpace s)).1 = false
      ∧ isSpaceRune (decodeLastRune (TrimSpace s).reverse).1 = false := by
  unfold TrimSpace
  dsimp only
  have hl := trimLeftSpace_head s.length s (Nat.le_refl _)
  have hr := trimRightSpaceRev_head (trimLeftSpace s.length s).length
    (trimLeftSpace s.length s).reverse (by simp)
  have hsuf := trimRightSpaceRev_suffix (trimLeftSpace s.length s).length
    (trimLeftSpace s.length s).reverse
  refine ⟨?_, by rw [List.reverse_reverse]; exact hr⟩
  rw [← List.reverse_prefix, List.reverse_reverse] at hsuf
  obtain ⟨z, hz⟩ := hsuf
  cases hsp : isSpaceRune (decodeRune (trimRightSpaceRev (trimLeftSpace s.length s).length
      (trimLeftSpace s.length s).reverse).reverse).1 with
  | false => rfl
  | true =>
    have := decodeRune_append_of_space _ z hsp
    rw [hz] at this
    rw [this, hsp] at hl
    cases hl

/-- The bytes of a rune decoded at the head of `s` do not depend on what follows them,
when the rune is a white-space rune. -/
theorem decodeRune_take_append_of_space (s q : GoString)
    (h : isSpaceRune (decodeRune s).1 = true) :
    decodeRune (s.take (decodeRune s).2 ++ q) = decodeRune s := by
  have hne : isSpaceRune RuneError ≠ true := by decide
  match s, h with
  | [], h => exact absurd h hne
  | b0 :: rest, h =>
    by_cases h1 : b0.toNat < 0x80
    · simp [decodeRune, h1]
    · by_cases h2 : 0xC2 ≤ b0.toNat ∧ b0.toNat ≤ 0xDF
      · match rest, h with
        | [], h =>
          simp only [decodeRune, h1, h2, and_self, if_true, if_false] at h
          exact absurd h hne
        | b1 :: r1, h =>
          by_cases hc : isCont b1 = true
          · simp [decodeRune, h1, h2, hc]
          · simp only [decodeRune, h1, h2, hc, and_self, if_true, if_false] at h
            exact absurd h hne
      · by_cases h3 : 0xE0 ≤ b0.toNat ∧ b0.toNat ≤ 0xEF
        · match rest, h with
          | [], h =>
            simp only [decodeRune, h1, h2, h3, and_self, if_true, if_false] at h
            exact absurd h hne
          | [b1], h =>
            simp only [decodeRune, h1, h2, h3, and_self, if_true, if_false] at h
            exact absurd h hne
          | b1 :: b2 :: r2, h =>
            by_cases hc : (if b0.toNat = 0xE0 then 0xA0 else 0x80) ≤ b1.toNat
                ∧ b1.toNat ≤ (if b0.toNat = 0xED then 0x9F else 0xBF) ∧ isCont b2 = true
            · simp only [decodeRune, h1, h2, h3, hc, and_self, if_true, if_false,
                List.take_succ_cons, List.take_zero, List.cons_append, List.nil_append]
            · simp only [decodeRune, h1, h2, h3, hc, and_self, if_true, if_false] at h
              exact absurd h hne
        · by_cases h4 : 0xF0 ≤ b0.toNat ∧ b0.toNat ≤ 0xF4
          · match rest, h with
            | [], h =>
              simp only [decodeRune, h1, h2, h3, h4, and_self, if_true, if_false] at h
              exact absurd h hne
            | [b1], h =>
              simp only [decodeRune, h1, h2, h3, h4, and_self, if_true, if_false] at h
              exact absurd h hne
            | [b1, b2], h =>
              simp only [decodeRune, h1, h2, h3, h4, and_self, if_true, if_false] at h
              exact absurd h hne
            | b1 :: b2 :: b3 :: r3, h =>
              by_cases hc : (if b0.toNat = 0xF0 then 0x90 else 0x80) ≤ b1.toNat
                  ∧ b1.toNat ≤ (if b0.toNat = 0xF4 then 0x8F else 0xBF) ∧ isCont b2 = true
                  ∧ isCont b3 = true
              · simp only [decodeRune, h1, h2, h3, h4, hc, and_self, if_true, if_false,
                  List.take_succ_cons, List.take_zero, List.cons_append, List.nil_append]
              · simp only [decodeRune, h1, h2, h3, h4, hc, and_self, if_true, if_false] at h
                exact absurd h hne
          · simp only [decodeRune, h1, h2, h3, h4, and_self, if_true, if_false] at h
            exact absurd h hne

theorem decodeRune_width_le (s : GoString) : (decodeRune s).2 ≤ s.length := by
  match s with
  | [] => simp [decodeRune]
  | [b0] =>
    simp only [decodeRune]
    repeat' split
    all_goals simp
  | [b0, b1] =>
    simp only [decodeRune]
    repeat' split
    all_goals simp
  | [b0, b1, b2] =>
    simp only [decodeRune]
    repeat' split
    all_goals simp
  | b0 :: b1 :: b2 :: b3 :: rest =>
    simp only [decodeRune]
    repeat' split
    all_goals simp

theorem decodeRunesAux_fuel (fuel1 fuel2 : Nat) (s : GoString) (h1 : s.length ≤ fuel1)
    (h2 : s.length ≤ fuel2) : decodeRunesAux fuel1 s = decodeRunesAux fuel2 s := by
  induction fuel1 generalizing fuel2 s with
  | zero =>
    have : s = [] := List.length_eq_zero.1 (by omega)
    subst this
    cases fuel2 <;> simp [decodeRunesAux]
  | succ f1 ih =>
    cases s with
    | nil => cases fuel2 <;> simp [decodeRunesAux]
    | cons b rest =>
      cases fuel2 with
      | zero => simp at h2
      | succ f2 =>
        simp only [decodeRunesAux]
        have hw := decodeRune_width_pos b rest
        have hlen : ((b :: rest).drop (decodeRune (b :: rest)).2).length ≤ rest.length := by
          simp only [List.length_drop, List.length_cons]
          omega
        simp only [List.length_cons] at h1 h2
        rw [ih f2 _ (by omega) (by omega)]

theorem decodeRunes_step (b : UInt8) (rest : GoString) :
    decodeRunes (b :: rest)
      = (decodeRune (b :: rest)).1 :: decodeRunes ((b :: rest).drop (decodeRune (b :: rest)).2) := by
  unfold decodeRunes
  simp only [List.length_cons, decodeRunesAux]
  congr 1
  apply decodeRunesAux_fuel
  · have hw := decodeRune_width_pos b rest
    simp only [List.length_drop, List.length_cons]
    omega
  · exact Nat.le_refl _

theorem allSpace_nil : allSpace [] = true := by
  simp [allSpace, decodeRunes, decodeRunesAux]

/-- A white-space rune followed by white space is white space. -/
theorem allSpace_chunk (p q : GoString) (hp : p ≠ [])
    (hdec : (decodeRune (p ++ q)).2 = p.length)
    (hsp : isSpaceRune (decodeRune (p ++ q)).1 = true) (hq : allSpace q = true) :
    allSpace (p ++ q) = true := by
  match p, hp with
  | b :: p1, _ =>
    unfold allSpace at hq ⊢
    rw [List.cons_append, decodeRunes_step, List.all_cons]
    rw [List.cons_append] at hdec hsp
    rw [hsp, hdec, Bool.true_and]
    have : ((b :: (p1 ++ q)).drop (b :: p1).length) = q := by
      rw [← List.cons_append, List.drop_left]
    rw [this]
    exact hq

theorem allSpace_append (a b : GoString) (ha : allSpace a = true) (hb : allSpace b = true) :
    allSpace (a ++ b) = true := by
  generalize hn : a.length = n
  induction n using Nat.strong_induction_on generalizing a with
  | _ n ih =>
    cases a with
    | nil => simpa using hb
    | cons c a1 =>
      have hstep := decodeRunes_step c a1
      unfold allSpace at ha
      rw [hstep, List.all_cons, Bool.and_eq_true] at ha
      obtain ⟨hc, hrest⟩ := ha
      have hw := decodeRune_width_pos c a1
      have hle := decodeRune_width_le (c :: a1)
      have hsplit : c :: a1 = (c :: a1).take (decodeRune (c :: a1)).2
          ++ (c :: a1).drop (decodeRune (c :: a1)).2 := (List.take_append_drop _ _).symm
      have hdec := decodeRune_take_append_of_space (c :: a1)
        ((c :: a1).drop (decodeRune (c :: a1)).2 ++ b) hc
      have hrec : allSpace ((c :: a1).drop (decodeRune (c :: a1)).2 ++ b) = true := by
        apply ih ((c :: a1).drop (decodeRune (c :: a1)).2).length _ _ hrest rfl
        rw [← hn]
        simp only [List.length_drop, List.length_cons]
        simp only [List.length_cons] at hle
        omega
      have key := allSpace_chunk ((c :: a1).take (decodeRune (c :: a1)).2)
        ((c :: a1).drop (decodeRune (c :: a1)).2 ++ b)
        (by
          intro h0
          have := congrArg List.length h0
          rw [List.length_take] at this
          simp only [List.length_cons, List.length_nil] at this hle
          omega)
        (by
          rw [hdec, List.length_take]
          omega)
        (by rw [hdec]; exact hc) hrec
      rw [← List.append_assoc, ← hsplit] at key
      exact key

theorem trimLeftSpace_split (fuel : Nat) (s : GoString) :
    ∃ l, s = l ++ trimLeftSpace fuel s ∧ allSpace l = true := by
  induction fuel generalizing s with
  | zero => exact ⟨[], rfl, allSpace_nil⟩
  | succ fuel ih =>
    simp only [trimLeftSpace]
    split
    · rename_i hcond
      obtain ⟨hw, hsp⟩ := hcond
      obtain ⟨l1, hl1, hs1⟩ := ih (s.drop (decodeRune s).2)
      have hle := decodeRune_width_le s
      refine ⟨s.take (decodeRune s).2 ++ l1, ?_, ?_⟩
      · rw [List.append_assoc, ← hl1, List.take_append_drop]
      · have hdec := decodeRune_take_append_of_space s l1 hsp
        apply allSpace_chunk
        · intro h0
          have := congrArg List.length h0
          rw [List.length_take] at this
          simp only [List.length_nil] at this
          omega
        · rw [hdec, List.length_take]
          omega
        · rw [hdec]; exact hsp
        · exact hs1
    · exact ⟨[], rfl, allSpace_nil⟩

/-- A white-space rune found at the end of a string by `decodeLastRune` is what the last
bytes decode to, read forwards. -/
theorem decodeLastRune_space (rev : GoString)
    (h : isSpaceRune (decodeLastRune rev).1 = true) :
    decodeRune (rev.take (decodeLastRune rev).2).reverse = decodeLastRune rev
      ∧ (decodeLastRune rev).2 ≤ rev.length := by
  have hne : isSpaceRune RuneError ≠ true := by decide
  match rev, h with
  | [], h => exact absurd h hne
  | b :: rest, h =>
    by_cases hb : b.toNat < 0x80
    · simp [decodeLastRune, decodeRune, hb]
    · simp only [decodeLastRune, hb, if_false] at h ⊢
      cases hk : (rest.take 3).findIdx? (fun c => !isCont c) with
      | none =>
        simp only [hk] at h
        exact absurd h hne
      | some k =>
        simp only [hk] at h ⊢
        by_cases hw : (decodeRune ((b :: rest).take (k + 2)).reverse).2 = k + 2
        · simp only [hw, if_true]
          refine ⟨trivial, ?_⟩
          have := decodeRune_width_le ((b :: rest).take (k + 2)).reverse
          rw [hw, List.length_reverse, List.length_take] at this
          omega
        · simp only [hw, if_false] at h
          exact absurd h hne

theorem trimRightSpaceRev_split (fuel : Nat) (rev : GoString) :
    ∃ r, rev = r.reverse ++ trimRightSpaceRev fuel rev ∧ allSpace r = true := by
  induction fuel generalizing rev with
  | zero => exact ⟨[], rfl, allSpace_nil⟩
  | succ fuel ih =>
    simp only [trimRightSpaceRev]
    split
    · rename_i hcond
      obtain ⟨hw, hsp⟩ := hcond
      obtain ⟨r1, hr1, hs1⟩ := ih (rev.drop (decodeLastRune rev).2)
      obtain ⟨hdec, hle⟩ := decodeLastRune_space rev hsp
      refine ⟨r1 ++ (rev.take (decodeLastRune rev).2).reverse, ?_, ?_⟩
      · rw [List.reverse_append, List.reverse_reverse, List.append_assoc, ← hr1,
          List.take_append_drop]
      · apply allSpace_append _ _ hs1
        have hchunk := allSpace_chunk (rev.take (decodeLastRune rev).2).reverse []
          (by
            intro h0
            have := congrArg List.length h0
            rw [List.length_reverse, List.length_take] at this
            simp only [List.length_nil] at this
            omega)
          (by
            rw [List.append_nil, hdec, List.length_reverse, List.length_take]
            omega)
          (by rw [List.append_nil, hdec]; exact hsp) allSpace_nil
        rw [List.append_nil] at hchunk
        exact hchunk
    · exact ⟨[], rfl, allSpace_nil⟩

/-- What `TrimSpace` removes is white space: the argument is the result between two
strings of white-space runes. -/
theorem TrimSpace_removes_spaces (s : GoString) :
    ∃ l r, s = l ++ TrimSpace s ++ r ∧ allSpace l = true ∧ allSpace r = true := by
  obtain ⟨l, hl, hls⟩ := trimLeftSpace_split s.length s
  obtain ⟨r, hr, hrs⟩ := trimRightSpaceRev_split (trimLeftSpace s.length s).length
    (trimLeftSpace s.length s).reverse
  refine ⟨l, r, ?_, hls, hrs⟩
  have ht : trimLeftSpace s.length s = TrimSpace s ++ r := by
    have := congrArg List.reverse hr
    rw [List.reverse_reverse, List.reverse_append, List.reverse_reverse] at this
    exact this
  rw [List.append_assoc, ← ht]
  exact hl

/-! ## Snippets: `trimLine` -/

/-- C12, as stated, fails: `accentedLine` has 150 characters once trimmed, fewer than
200, and its snippet is not the trimmed line: the 300 bytes are cut after 200 bytes, which
leaves 100 characters and the marker. -/
theorem trimLine_counts_bytes :
    runeCount (TrimSpace accentedLine) = 150
    ∧ trimLine accentedLine ≠ TrimSpace accentedLine
    ∧ trimLine accentedLine = (List.replicate 100 (str "é")).flatten ++ str "..." := by
  decide!

/-- A cut can fall inside a character: the snippet of `oddAccentedLine` ends with the
first byte of an `é` before the marker, and that byte decodes as `RuneError`. -/
theorem trimLine_cuts_inside_character :
    (trimLine oddAccentedLine).drop 199 = [0xC3] ++ str "..."
    ∧ (decodeRunes (trimLine oddAccentedLine)).drop 100 = [RuneError, 46, 46, 46] := by
  decide!

/-- C12, amended: the line is its trimmed form between two strings of white space, and
the trimmed form neither starts nor ends with white space; the snippet is the trimmed line
when that has at most 200 bytes, and otherwise its first 200 bytes followed by `...`; so
a snippet is a piece of the source line of at most 200 bytes, hence of at most 200
characters, followed or not by the marker. Every line-level finding of a line carries
this snippet. -/
theorem trimLine_spec (s : GoString) :
    (∃ l r, s = l ++ TrimSpace s ++ r ∧ allSpace l = true ∧ allSpace r = true)
    ∧ isSpaceRune (decodeRune (TrimSpace s)).1 = false
    ∧ isSpaceRune (decodeLastRune (TrimSpace s).reverse).1 = false
    ∧ ((TrimSpace s).length ≤ 200 → trimLine s = TrimSpace s)
    ∧ (200 < (TrimSpace s).length → trimLine s = (TrimSpace s).take 200 ++ str "...")
    ∧ (∃ p, p <+: TrimSpace s ∧ p <:+: s ∧ p.length ≤ 200 ∧ runeCount p ≤ 200
        ∧ (trimLine s = p ∨ trimLine s = p ++ str "..."))
    ∧ (∀ (Re F : Type) (ops : Float64Ops F) (sched : Nat → Nat → MapOrder) (rx : Regexp Re)
        (rs : RuleSet Re F) (path : GoString) (n : Int) (x : Finding F),
        x ∈ lineFindings ops sched rx rs path n s → x.Snippet = trimLine s) := by
  refine ⟨TrimSpace_removes_spaces s, (TrimSpace_boundary s).1, (TrimSpace_boundary s).2,
    ?_, ?_, ?_, ?_⟩
  · intro h
    simp only [trimLine]
    rw [if_neg (by omega)]
  · intro h
    simp only [trimLine]
    rw [if_pos h]
  · by_cases h : 200 < (TrimSpace s).length
    · refine ⟨(TrimSpace s).take 200, List.take_prefix _ _,
        (List.take_prefix _ _).isInfix.trans (TrimSpace_contiguous s), ?_, ?_, Or.inr ?_⟩
      · rw [List.length_take]; omega
      · have := runeCount_le_length ((TrimSpace s).take 200)
        rw [List.length_take] at this
        omega
      · simp only [trimLine]
        rw [if_pos h]
    · refine ⟨TrimSpace s, List.prefix_refl _, TrimSpace_contiguous s, by omega, ?_, Or.inl ?_⟩
      · have := runeCount_le_length (TrimSpace s)
        omega
      · simp only [trimLine]
        rw [if_neg h]
  · intro Re F ops sched rx rs path n x hx
    simp only [lineFindings, List.mem_append, List.mem_map] at hx
    rcases hx with ⟨m, _, rfl⟩ | ⟨m, _, rfl⟩ <;> rfl

end SuperScan
